import Mathlib

/-!
CRDT tree: register store, tree view and edit planner.

A shallow embedding of `src/client/tree.go`.

* Identifiers are Go strings, compared bytewise; they are Lean `String`s here
  (the lexicographic order on code points agrees with the bytewise order on
  UTF-8).
* `int64` timestamps and `int` counters are integers; the two places where the
  code does arithmetic on them (`timestamp+1`, `maxCounter+1`) wrap explicitly
  at 64 bits.
* A `*Node` is represented by the id of the node it points to: `tree.nodes`
  holds exactly one node per id and never replaces or removes one.
* A Go map that the code ranges over is an association list whose order is the
  order of iteration.  Go leaves that order open and it can differ from one
  range to the next: `Tree.sameMaps` relates two lists that hold the same node
  map and the same edge maps in different orders, and `Tree.recomputeWith`
  takes the order of the range over `nonRootedNodes` as an argument.  A
  function without such an argument describes the run in which every range
  follows the lists as they stand.
-/

namespace CrdtTree

/-! ## Decidable string order that evaluates by reduction -/

/-- Decision procedure for `a < b` on strings through the character lists. -/
instance strDecLt : DecidableRel (fun a b : String => a < b) :=
  fun a b => decidable_of_iff (a.toList < b.toList) String.lt_iff_toList_lt.symm

/-- Decision procedure for `a ≤ b` on strings through the character lists. -/
instance strDecLe : DecidableRel (fun a b : String => a ≤ b) :=
  fun a b => decidable_of_iff (¬ b.toList < a.toList)
    (by rw [← String.lt_iff_toList_lt]; exact not_lt)

/-! ## Register store (tree.go lines 11-110) -/

/-- Go `type Op struct`. -/
structure Op where
  ID : String
  Key : String
  Value : Int
  Peer : String
  Timestamp : Int
  deriving DecidableEq, Repr

/-- Go `type Row struct`. -/
structure Row where
  value : Int
  peer : String
  timestamp : Int
  deriving DecidableEq, Repr

/-- Go `type IdKey struct`. -/
structure IdKey where
  ID : String
  Key : String
  deriving DecidableEq, Repr

/-- The zero value of `Row`, which a failed map lookup yields in Go. -/
def Row.zero : Row := { value := 0, peer := "", timestamp := 0 }

/-- Go `type DB struct` without the observer list: `rows` is the map
`map[IdKey]Row` (never ranged over, hence a lookup function). -/
structure DB where
  peer : String
  rows : IdKey → Option Row

/-- Go `newDB`. -/
def newDB (id : String) : DB := { peer := id, rows := fun _ => none }

/-- Go `DB.getTimestamp`. -/
def DB.getTimestamp (db : DB) (idkey : IdKey) : Int × Bool :=
  match db.rows idkey with
  | some r => (r.timestamp, true)
  | none => (0, false)

/-- Go `DB.getValue`. -/
def DB.getValue (db : DB) (idkey : IdKey) : Int × Bool :=
  match db.rows idkey with
  | some r => (r.value, true)
  | none => (-1, false)

/-- Go `Max`. -/
def Max (a b : Int) : Int := if a > b then a else b

/-- Largest `int64`. -/
def maxInt64 : Int := 9223372036854775807

/-- Smallest `int64`. -/
def minInt64 : Int := -9223372036854775808

/-- Two's-complement wrap of an integer into the `int64` range. -/
def wrapInt64 (x : Int) : Int := (x + 9223372036854775808) % 18446744073709551616 - 9223372036854775808

/-- The row update of Go `DB.apply` (lines 91-98).  The guard is the Go
expression `!(e && field.timestamp > op.Timestamp || (field.timestamp ==
op.Timestamp && field.peer > op.Peer))` with Go's precedence (`&&` binds
tighter than `||`); `field` is the zero row when the lookup fails. -/
def DB.apply (db : DB) (op : Op) : DB :=
  let e : Bool := (db.rows { ID := op.ID, Key := op.Key }).isSome
  let field : Row := (db.rows { ID := op.ID, Key := op.Key }).getD Row.zero
  if ¬ ((e = true ∧ field.timestamp > op.Timestamp) ∨
        (field.timestamp = op.Timestamp ∧ field.peer > op.Peer)) then
    { db with rows := fun k =>
        if k = { ID := op.ID, Key := op.Key } then
          some { value := op.Value, peer := op.Peer, timestamp := op.Timestamp }
        else db.rows k }
  else db

/-- The op that Go `DB.setValue` builds (lines 77-86); `now` is the reading of
`time.Now().UnixNano()`. -/
def DB.setValueOp (db : DB) (idkey : IdKey) (value : Int) (now : Int) : Op :=
  let op : Op :=
    { ID := idkey.ID, Key := idkey.Key, Value := value, Peer := db.peer, Timestamp := now }
  match db.getTimestamp idkey with
  | (timestamp, true) => { op with Timestamp := Max op.Timestamp (wrapInt64 (timestamp + 1)) }
  | (_, false) => op

/-- The store part of Go `DB.setValue`. -/
def DB.setValue (db : DB) (idkey : IdKey) (value : Int) (now : Int) : DB :=
  db.apply (db.setValueOp idkey value now)

/-- Apply a list of ops to the store, left to right. -/
def DB.applyAll (db : DB) (ops : List Op) : DB := ops.foldl DB.apply db

/-- The spec's domination test: the row is strictly later than the op in the
order (timestamp, peer). -/
def dominates (row : Row) (op : Op) : Prop :=
  row.timestamp > op.Timestamp ∨ (row.timestamp = op.Timestamp ∧ row.peer > op.Peer)

instance (row : Row) (op : Op) : Decidable (dominates row op) := by
  unfold dominates; infer_instance

/-- The spec's rejection test: a row exists at the op's key and dominates it. -/
def rejected (db : DB) (op : Op) : Prop :=
  match db.rows { ID := op.ID, Key := op.Key } with
  | some row => dominates row op
  | none => False

instance (db : DB) (op : Op) : Decidable (rejected db op) := by
  unfold rejected; split <;> infer_instance

/-- The store after a write of the op's row at the op's key. -/
def DB.store (db : DB) (op : Op) : DB :=
  { peer := db.peer
    rows := fun k =>
      if k = IdKey.mk op.ID op.Key then some (Row.mk op.Value op.Peer op.Timestamp)
      else db.rows k }

/-- Lexicographic `≤` on (timestamp, peer) pairs. -/
def stampLe (t1 : Int) (p1 : String) (t2 : Int) (p2 : String) : Prop :=
  t1 < t2 ∨ (t1 = t2 ∧ p1 ≤ p2)

/-! ## Tree view (tree.go lines 112-287) -/

/-- The identifier of the root node created by `newTree`. -/
def ROOT : String := "(ROOT)"

/-- Go `type Node struct` (the unused `cycle` field is left out).  `parent` and
`children` hold node pointers, represented by node ids; `edges` is the map
`map[string]int` in iteration order. -/
structure Node where
  id : String
  parent : Option String
  children : List String
  edges : List (String × Int)
  deriving DecidableEq, Repr

/-- Go `newNodeWithID`. -/
def newNodeWithID (id : String) : Node :=
  { id := id, parent := none, children := [], edges := [] }

/-- Go `type Tree struct`: `nodes` is the map `map[string]*Node` in iteration
order, each node stored under its own id; `tree.root` is the entry with id
`ROOT`. -/
structure Tree where
  nodes : List Node
  deriving DecidableEq, Repr

/-- The tree that `newTree` builds: only the root node. -/
def newTree : Tree := { nodes := [newNodeWithID ROOT] }

/-- Go `_, e := tree.nodes[id]`. -/
def Tree.has (t : Tree) (id : String) : Bool := t.nodes.any (fun n => n.id = id)

/-- Go `tree.nodes[id]` as a pointer: `none` is `nil`. -/
def Tree.lookup (t : Tree) (id : String) : Option String :=
  if t.has id then some id else none

/-- The node stored under `id`. -/
def Tree.node (t : Tree) (id : String) : Option Node := t.nodes.find? (fun n => n.id = id)

/-- The `edges` field of the node `id` (empty when there is no such node). -/
def Tree.edgesOf (t : Tree) (id : String) : List (String × Int) :=
  match t.node id with
  | some n => n.edges
  | none => []

/-- The `parent` field of the node `id`. -/
def Tree.parentOf (t : Tree) (id : String) : Option String :=
  match t.node id with
  | some n => n.parent
  | none => none

/-- The `children` field of the node `id`. -/
def Tree.childrenOf (t : Tree) (id : String) : List String :=
  match t.node id with
  | some n => n.children
  | none => []

/-- Go `m[k] = v` on an edge map: an existing entry is overwritten in place, a
new one is added. -/
def edgesSet : List (String × Int) → String → Int → List (String × Int)
  | [], k, v => [(k, v)]
  | (k', v') :: es, k, v => if k' = k then (k, v) :: es else (k', v') :: edgesSet es k v

/-- Go `delete(m, k)` on an edge map. -/
def edgesDelete (es : List (String × Int)) (k : String) : List (String × Int) :=
  es.filter (fun e => e.1 ≠ k)

/-- One step of the loop of Go `edgeWithLargestCounter` on the pair
`(edgeID, largestCounter)`. -/
def largestStep (acc : String × Int) (e : String × Int) : String × Int :=
  if e.2 > acc.2 ∨ (e.2 = acc.2 ∧ e.1 > acc.1) then e else acc

/-- Go `edgeWithLargestCounter`, on the edge map of a node. -/
def edgeWithLargestCounter (edges : List (String × Int)) : String :=
  (edges.foldl largestStep ("", -1)).1

/-- The loop of Go `isNodeUnderOtherNode` (lines 190-202), one iteration per
unit of fuel; `none` when the fuel runs out before the loop ends. -/
def isNodeUnderLoop (parentOf : String → Option String) (other : String) :
    Nat → Option String → Option String → Option Bool
  | 0, _, _ => none
  | fuel + 1, tortoise, hare =>
    match hare with
    | none => some false
    | some h =>
      if h = other then some true
      else if tortoise = some h then some false
      else
        match parentOf h with
        | none => some false
        | some h1 =>
          if h1 = other then some true
          else isNodeUnderLoop parentOf other fuel (tortoise.bind parentOf) (parentOf h1)

/-- Go `isNodeUnderOtherNode` over the parent pointers `parentOf`. -/
def isNodeUnderOtherNode (parentOf : String → Option String) (fuel : Nat)
    (node other : String) : Option Bool :=
  if node = other then some true
  else isNodeUnderLoop parentOf other fuel (some node) (parentOf node)

/-- Phase 1 of `recomputeParentsAndChildren` (lines 206-209). -/
def phase1 (t : Tree) : Tree :=
  { nodes := t.nodes.map fun n =>
      { n with parent := t.lookup (edgeWithLargestCounter n.edges), children := [] } }

/-- The inner loop at lines 214-221: walk up from `node`, adding nodes to the
set until one is already in it or the walk ends. -/
def markNonRooted (parentOf : String → Option String) :
    Nat → List String → Option String → List String
  | 0, nr, _ => nr
  | _ + 1, nr, none => nr
  | fuel + 1, nr, some n =>
    if n ∈ nr then nr else markNonRooted parentOf fuel (nr ++ [n]) (parentOf n)

/-- The test `isNodeUnderOtherNode(node, tree.root)` of line 213. -/
def Tree.underRoot (t : Tree) (id : String) : Bool :=
  isNodeUnderOtherNode t.parentOf (t.nodes.length + 1) id ROOT = some true

/-- Phase 2 (lines 211-223): the set `nonRootedNodes`, in insertion order. -/
def nonRootedNodes (t : Tree) : List String :=
  t.nodes.foldl (fun nr node =>
    if t.underRoot node.id then nr
    else markNonRooted t.parentOf (t.nodes.length + 1) nr (some node.id)) []

/-- Go `type edge struct`. -/
structure Edge where
  child : String
  parent : String
  counter : Int
  deriving DecidableEq, Repr

/-- Modelled from the spec: the `Less` method of `PriorityQueue`, a type that
`recomputeParentsAndChildren` uses and `src/` does not define.  The spec orders
the heap by counter descending, then by parent id descending. -/
def Less (a b : Edge) : Bool :=
  a.counter > b.counter ∨ (a.counter = b.counter ∧ a.parent > b.parent)

/-- The `Less(i, j)` method on the slice. -/
def lessAt (xs : List Edge) (i j : Nat) : Bool :=
  match xs[i]?, xs[j]? with
  | some a, some b => Less a b
  | _, _ => false

/-- The `Swap(i, j)` method on the slice. -/
def swap (xs : List Edge) (i j : Nat) : List Edge :=
  match xs[i]?, xs[j]? with
  | some a, some b => (xs.set i b).set j a
  | _, _ => xs

/-- Go `container/heap.up`; the index halves on every iteration, so `j + 1`
units of fuel are enough. -/
def up : Nat → List Edge → Nat → List Edge
  | 0, xs, _ => xs
  | fuel + 1, xs, j =>
    if (j - 1) / 2 = j ∨ ¬ lessAt xs j ((j - 1) / 2) then xs
    else up fuel (swap xs ((j - 1) / 2) j) ((j - 1) / 2)

/-- Go `container/heap.down`; the index grows on every iteration, so `n` units
of fuel are enough. -/
def down : Nat → List Edge → Nat → Nat → List Edge
  | 0, xs, _, _ => xs
  | fuel + 1, xs, i, n =>
    if 2 * i + 1 ≥ n then xs
    else
      let j := if 2 * i + 2 < n ∧ lessAt xs (2 * i + 2) (2 * i + 1) then 2 * i + 2 else 2 * i + 1
      if ¬ lessAt xs j i then xs else down fuel (swap xs i j) j n

/-- Go `heap.Push`: append, then sift up. -/
def heapPush (xs : List Edge) (e : Edge) : List Edge :=
  up (xs.length + 1) (xs ++ [e]) xs.length

/-- Go `heap.Pop`: swap the first and last entries, sift down, remove the
last entry. -/
def heapPop (xs : List Edge) : Option (Edge × List Edge) :=
  match xs with
  | [] => none
  | x :: rest =>
    let ys := down (rest.length + 1) (swap (x :: rest) 0 rest.length) 0 rest.length
    match ys.getLast? with
    | some top => some (top, ys.dropLast)
    | none => none

/-- State of phase 3: the ready-edge heap and the map `deferredEdges`. -/
structure Queues where
  ready : List Edge
  deferred : String → List Edge

/-- The body of the seed loop (lines 230-252) for one edge of `child`.  The
pointer `tree.nodes[parentID]` is represented by `parentID`: every key of an
edge map has an entry in `tree.nodes` when the observer recomputes
(`observed_edgesClosed`), so the lookup does not yield nil. -/
def seedEdge (nr : List String) (child : String) (q : Queues) (e : String × Int) : Queues :=
  if e.1 ∈ nr then
    { q with deferred := fun k =>
        if k = e.1 then q.deferred k ++ [Edge.mk child e.1 e.2] else q.deferred k }
  else
    { q with ready := heapPush q.ready (Edge.mk child e.1 e.2) }

/-- The seed loop (lines 229-253) over the set `nr`. -/
def seed (t : Tree) (nr : List String) : Queues :=
  nr.foldl (fun q child => (t.edgesOf child).foldl (seedEdge nr child) q)
    { ready := [], deferred := fun _ => [] }

/-- Go `child.parent = p` for the node `child`. -/
def Tree.setParent (t : Tree) (child p : String) : Tree :=
  { nodes := t.nodes.map fun n => if n.id = child then { n with parent := some p } else n }

/-- The reattachment loop (lines 255-273), one pop per unit of fuel.  Returns
the tree and what is left of `nonRootedNodes`. -/
def reattachLoop : Nat → Tree → List String → (String → List Edge) → List Edge →
    Tree × List String
  | 0, t, nr, _, _ => (t, nr)
  | fuel + 1, t, nr, deferred, ready =>
    match heapPop ready with
    | none => (t, nr)
    | some (top, ready1) =>
      if top.child ∈ nr then
        reattachLoop fuel (t.setParent top.child top.parent) (nr.erase top.child) deferred
          ((deferred top.child).foldl heapPush ready1)
      else reattachLoop fuel t nr deferred ready1

/-- Number of edges in the tree: every edge is pushed at most once, so this
bounds the number of pops. -/
def Tree.edgeCount (t : Tree) : Nat := (t.nodes.map fun n => n.edges.length).sum

/-- Phase 3 (lines 225-274) from the set `nr`. -/
def phase3 (t : Tree) (nr : List String) : Tree × List String :=
  if nr.length > 0 then
    reattachLoop (t.edgeCount + 1) t nr (seed t nr).deferred (seed t nr).ready
  else (t, nr)

/-- Go `sort.Slice(children, func(i, j) { return children[i].id < children[j].id })`. -/
def sortIds (ids : List String) : List String :=
  ids.insertionSort (fun a b => a ≤ b)

/-- Phase 4 (lines 275-286): every node with a parent is appended to the
children of that parent, in iteration order, and the lists are sorted. -/
def phase4 (t : Tree) : Tree :=
  { nodes := t.nodes.map fun n =>
      { n with children :=
          sortIds ((t.nodes.filter fun m => m.parent = some n.id).map fun m => m.id) } }

/-- Go `Tree.recomputeParentsAndChildren`, in the run that ranges over
`tree.nodes` and over the edge maps in the order of their lists and over
`nonRootedNodes` in the order in which phase 2 has filled it.  The runs in
other orders are `Tree.recomputeWith` on a tree related by `Tree.sameMaps`. -/
def Tree.recomputeParentsAndChildren (t : Tree) : Tree :=
  phase4 (phase3 (phase1 t) (nonRootedNodes (phase1 t))).1

/-- What is left of `nonRootedNodes` when the heap has drained. -/
def Tree.island (t : Tree) : List String :=
  (phase3 (phase1 t) (nonRootedNodes (phase1 t))).2

/-- Go `tree.nodes[id] = newNodeWithID(id)` when `id` has no entry. -/
def Tree.ensure (t : Tree) (id : String) : Tree :=
  if t.has id then t else { nodes := t.nodes ++ [newNodeWithID id] }

/-- The edge update of the observer (lines 156-160) on an edge map: a value
of -1 deletes the entry for `op.Key`, any other value is stored. -/
def updEdges (op : Op) (es : List (String × Int)) : List (String × Int) :=
  if op.Value = -1 then edgesDelete es op.Key else edgesSet es op.Key op.Value

/-- The edge update of the observer (lines 156-160) on the node `op.ID`. -/
def Tree.updateEdge (t : Tree) (op : Op) : Tree :=
  { nodes := t.nodes.map fun n =>
      if n.id = op.ID then { n with edges := updEdges op n.edges } else n }

/-- The observer that `newTree` registers with `db.afterApply` (lines 145-163),
with the recomputation in the run that follows the lists
(`Tree.afterApplyWith` takes the order of the range over `nonRootedNodes` as
an argument). -/
def Tree.afterApply (t : Tree) (op : Op) : Tree :=
  (((t.ensure op.ID).ensure op.Key).updateEdge op).recomputeParentsAndChildren

/-- A replica: the store and the tree view observing it. -/
structure Replica where
  db : DB
  tree : Tree

/-- A fresh replica: `newDB` followed by `newTree`. -/
def newReplica (peer : String) : Replica := { db := newDB peer, tree := newTree }

/-- Go `DB.apply` with its observer loop (lines 90-102): the row update, then
the tree observer. -/
def Replica.apply (s : Replica) (op : Op) : Replica :=
  { db := s.db.apply op, tree := s.tree.afterApply op }

/-- Apply a list of ops, left to right. -/
def Replica.applyAll (s : Replica) (ops : List Op) : Replica := ops.foldl Replica.apply s

/-- Go `DB.setValue` on a replica. -/
def Replica.setValue (s : Replica) (idkey : IdKey) (value : Int) (now : Int) : Replica :=
  s.apply (s.db.setValueOp idkey value now)

/-- A store whose row at (A, B) carries the largest `int64` timestamp, as left
by a remote op with that timestamp. -/
def overflowDB : DB := (newDB "p1").apply (Op.mk "A" "B" 0 "p2" maxInt64)

/-! ## Edit planner (tree.go lines 289-336) -/

/-- Go `type edit struct`, with node pointers as ids. -/
structure Edit where
  child : String
  parent : String
  deriving DecidableEq, Repr

/-- The closure `ensureNodeIsRooted` (lines 296-311) with the list `edits` it
appends to, one iteration per unit of fuel; `none` when the fuel runs out
before the loop ends. -/
def ensureNodeIsRooted (t : Tree) : Nat → Option String → List Edit → Option (List Edit)
  | 0, _, _ => none
  | _ + 1, none, edits => some edits
  | fuel + 1, some child, edits =>
    match t.parentOf child with
    | none => some edits
    | some parent =>
      ensureNodeIsRooted t fuel (some parent)
        (if edgeWithLargestCounter (t.edgesOf child) ≠ parent then
          edits ++ [Edit.mk child parent]
        else edits)

/-- The inner loop at lines 323-332: the largest counter on the child, or -1. -/
def maxCounter (edges : List (String × Int)) : Int :=
  edges.foldl (fun m e => if m < e.2 then e.2 else m) (-1)

/-- The body of the loop at lines 322-335 for one edit; `maxCounter+1` is Go
`int` arithmetic. -/
def Replica.applyEdit (s : Replica) (e : Edit) (now : Int) : Replica :=
  s.setValue (IdKey.mk e.child e.parent)
    (wrapInt64 (maxCounter (s.tree.edgesOf e.child) + 1)) now

/-- The loop at lines 322-335; `clock i` is the clock reading of the `i`-th
call of `setValue`. -/
def Replica.applyEdits (s : Replica) (clock : Nat → Int) : Nat → List Edit → Replica
  | _, [] => s
  | i, e :: es => (s.applyEdit e (clock i)).applyEdits clock (i + 1) es

/-- The edits that `addChildToParent` plans (lines 294-320); `none` when a
walk does not end within the fuel. -/
def planEdits (t : Tree) (fuel : Nat) (child parent : String) : Option (List Edit) :=
  match ensureNodeIsRooted t fuel (t.parentOf child) [] with
  | none => none
  | some edits1 =>
    match ensureNodeIsRooted t fuel (some parent) edits1 with
    | none => none
    | some edits2 => some (edits2 ++ [Edit.mk child parent])

/-- Go `Tree.addChildToParent`.  The result is `none` when the call does not
return: `childID` or `parentID` has no entry in `tree.nodes` (a nil
dereference), or a walk of `ensureNodeIsRooted` does not end within the fuel. -/
def Replica.addChildToParent (s : Replica) (fuel : Nat) (clock : Nat → Int)
    (childID parentID : String) : Option Replica :=
  match s.tree.lookup childID, s.tree.lookup parentID with
  | some child, some parent =>
    match planEdits s.tree fuel child parent with
    | none => none
    | some edits => some (s.applyEdits clock 0 edits)
  | _, _ => none

/-! ## Notions used to state the properties -/

/-- The ids of the nodes, in iteration order. -/
def Tree.ids (t : Tree) : List String := t.nodes.map fun n => n.id

/-- What `recomputeParentsAndChildren` reads of a tree: ids and edge maps. -/
def Tree.skel (t : Tree) : List (String × List (String × Int)) :=
  t.nodes.map fun n => (n.id, n.edges)

/-- Follow parent pointers `k` times from `x`; `none` when the walk leaves the
tree through a nil parent. -/
def walk (parentOf : String → Option String) : Nat → String → Option String
  | 0, x => some x
  | k + 1, x =>
    match parentOf x with
    | none => none
    | some p => walk parentOf k p

/-- The states a replica reaches from a fresh one by applying ops. -/
def reachable (s : Replica) : Prop :=
  ∃ (peer : String) (ops : List Op), s = (newReplica peer).applyAll ops

/-- The node `y` is reached from `x` by following parent pointers. -/
def reaches (parentOf : String → Option String) (x y : String) : Prop :=
  ∃ k, walk parentOf k x = some y

/-- Parent pointers stay inside the set `ids`. -/
def parentsWithin (parentOf : String → Option String) (ids : List String) : Prop :=
  ∀ x p, parentOf x = some p → p ∈ ids

/-- The node is connected to the root by parent pointers through nodes that
are outside the set `nr`. -/
inductive Rooted (parentOf : String → Option String) (nr : List String) : String → Prop
  | root : Rooted parentOf nr ROOT
  | step {x p : String} : x ∉ nr → parentOf x = some p → Rooted parentOf nr p →
      Rooted parentOf nr x

/-- What phase 3 maintains about the tree `t` and the set `nr`, relative to the
tree `t0` and the set `nr0` it starts from. -/
structure TreeInv (t0 : Tree) (nr0 : List String) (t : Tree) (nr : List String) : Prop where
  skel : t.skel = t0.skel
  sub : nr ⊆ nr0
  nodup : nr.Nodup
  keep_out : ∀ x, x ∉ nr0 → t.parentOf x = t0.parentOf x
  keep_in : ∀ x, x ∈ nr → t.parentOf x = t0.parentOf x
  rooted : ∀ x, x ∈ t0.ids → x ∉ nr → Rooted t.parentOf nr x
  changed : ∀ x, x ∈ nr0 → x ∉ nr →
    ∃ p c, t.parentOf x = some p ∧ (p, c) ∈ t0.edgesOf x

/-- What phase 3 maintains about its queues: every queued edge is an edge of
its child, ready edges lead out of `nr`, deferred edges are filed under their
parent. -/
structure QueueInv (t0 : Tree) (nr0 nr : List String) (q : Queues) : Prop where
  ready_ok : ∀ e ∈ q.ready,
    e.child ∈ nr0 ∧ (e.parent, e.counter) ∈ t0.edgesOf e.child ∧ e.parent ∉ nr
  deferred_ok : ∀ k, ∀ e ∈ q.deferred k,
    e.child ∈ nr0 ∧ (e.parent, e.counter) ∈ t0.edgesOf e.child ∧ e.parent = k

/-- Every key of every edge map of the tree has an entry in `tree.nodes`. -/
def Tree.edgesClosed (t : Tree) : Prop :=
  ∀ x k c, (k, c) ∈ t.edgesOf x → k ∈ t.ids

/-- The candidate parent of node `x`: `edgeWithLargestCounter` on its edge map. -/
def Tree.cand (t : Tree) (x : String) : String := edgeWithLargestCounter (t.edgesOf x)

/-- Every counter in the tree, and the counter 0 of a first edge, leaves room
for `n` increments in the Go `int`. -/
def Tree.countersBelow (t : Tree) (n : Int) : Prop :=
  n ≤ maxInt64 ∧ ∀ x k c, (k, c) ∈ t.edgesOf x → c + n ≤ maxInt64

/-- Two representations of the same node index and the same edge maps, in
any orders of iteration: the ids are a rearrangement of each other, and so
is the edge map of every node. -/
def Tree.sameMaps (t t' : Tree) : Prop :=
  t.ids.Perm t'.ids ∧ ∀ x, (t.edgesOf x).Perm (t'.edgesOf x)

/-- The key that `edgeWithLargestCounter` maximises: the counter, then the id. -/
def edgeKey (e : String × Int) : Lex (Int × String) := toLex (e.2, e.1)

/-- The node index {ROOT, c1, c2} with the edge maps c1: {ROOT: 0, c1: 5} and
c2: {ROOT: 0, c1: 100, c2: 200}, iterated as ROOT, c1, c2. -/
def tieTree : Tree :=
  { nodes :=
      [newNodeWithID ROOT,
       { id := "c1", parent := none, children := [], edges := [(ROOT, 0), ("c1", 5)] },
       { id := "c2", parent := none, children := [],
         edges := [(ROOT, 0), ("c1", 100), ("c2", 200)] }] }

/-- The node index and edge maps of `tieTree`, iterated as ROOT, c2, c1. -/
def tieTreeSwapped : Tree :=
  { nodes :=
      [newNodeWithID ROOT,
       { id := "c2", parent := none, children := [],
         edges := [(ROOT, 0), ("c1", 100), ("c2", 200)] },
       { id := "c1", parent := none, children := [], edges := [(ROOT, 0), ("c1", 5)] }] }

/-- The replica after the ops `(A, ROOT, 0)`, `(B, A, 0)`: the chain
ROOT, A, B. -/
def chainReplica : Replica :=
  (newReplica "p").applyAll [Op.mk "A" ROOT 0 "p" 1, Op.mk "B" "A" 0 "p" 2]

/-- The replica after the ops `(A, ROOT, 0)`, `(B, A, 0)`, `(D, ROOT, 0)`. -/
def forkReplica : Replica :=
  (newReplica "p").applyAll
    [Op.mk "A" ROOT 0 "p" 1, Op.mk "B" "A" 0 "p" 2, Op.mk "D" ROOT 0 "p" 3]

/-- The replica after the ops `(C, ROOT, 0)`, `(X, P, 0)`: `P` is a node
without edges, outside the subtree of the root. -/
def orphanReplica : Replica :=
  (newReplica "p").applyAll [Op.mk "C" ROOT 0 "p" 1, Op.mk "X" "P" 0 "p" 2]

/-- The work left in the reattachment loop: the ready edges, and the deferred
edges filed under nodes that are still in `nr`. -/
def pending (nr : List String) (deferred : String → List Edge) (ready : List Edge) : Nat :=
  ready.length + (nr.map fun c => (deferred c).length).sum

/-- The priority of an edge in the heap: `Less a b` holds exactly when the
priority of `a` is above that of `b`. -/
def prio (e : Edge) : Lex (Int × String) := toLex (e.counter, e.parent)

/-- The priority at index `j` of the slice. -/
def prioAt (xs : List Edge) (j : Nat) : Lex (Int × String) :=
  prio (xs.getD j (Edge.mk "" "" 0))

/-- The heap property on the first `n` entries: no entry has a higher
priority than the entry at its parent index. -/
def heapUpTo (xs : List Edge) (n : Nat) : Prop :=
  ∀ c, 0 < c → c < n → prioAt xs c ≤ prioAt xs ((c - 1) / 2)

/-- The edge `e` is an entry of the edge map of its child. -/
def Tree.isEdge (t : Tree) (e : Edge) : Prop := (e.parent, e.counter) ∈ t.edgesOf e.child

/-- Phase 3 described without queues.  From the parents `par` and the set `S`
of non-rooted nodes, repeatedly take an edge of highest priority among the
edges that lead from `S` out of `S`, give its child that parent and remove the
child from `S`, until no edge leads out of `S`. -/
inductive Reattach (E : Edge → Prop) :
    (String → Option String) → (String → Prop) →
    (String → Option String) → (String → Prop) → Prop
  | done {par : String → Option String} {S : String → Prop} :
      (∀ e, E e → S e.child → ¬ S e.parent → False) → Reattach E par S par S
  | step {par par' : String → Option String} {S S' : String → Prop} (e : Edge) :
      E e → S e.child → ¬ S e.parent →
      (∀ e', E e' → S e'.child → ¬ S e'.parent → prio e' ≤ prio e) →
      Reattach E (fun x => if x = e.child then some e.parent else par x)
        (fun x => S x ∧ x ≠ e.child) par' S' →
      Reattach E par S par' S'

/-- No two different nodes of the set `S` have an edge with the same parent
id and the same counter. -/
def noTie (E : Edge → Prop) (S : String → Prop) : Prop :=
  ∀ e e', E e → E e' → S e.child → S e'.child → e.parent = e'.parent →
    e.counter = e'.counter → e.child = e'.child

/-- What the seed loop and the reattachment loop maintain beyond `QueueInv`:
every edge of a node still in `nr` is queued, ready when it leads out of `nr`
and deferred under its parent otherwise, and the ready edges form a heap. -/
structure QueueFull (t0 : Tree) (nr : List String) (q : Queues) : Prop where
  ready_all : ∀ e, t0.isEdge e → e.child ∈ nr → e.parent ∉ nr → e ∈ q.ready
  deferred_all : ∀ e, t0.isEdge e → e.child ∈ nr → e.parent ∈ nr → e ∈ q.deferred e.parent
  heap : heapUpTo q.ready q.ready.length

/-- `recomputeParentsAndChildren` with the set `nonRootedNodes` iterated in
the order of the list `nr` in phase 3. -/
def Tree.recomputeWith (t : Tree) (nr : List String) : Tree :=
  phase4 (phase3 (phase1 t) nr).1

/-- The replica after the ops `(A, ROOT, 0)`, `(B, A, 0)`, `(C, B, 0)`,
`(A, B, 5)`: `A` and `B` prefer each other, so `A`, `B` and `C` are
non-rooted, and phase 3 reattaches them through the edge from `A` to the
root. -/
def cycleReplica : Replica :=
  (newReplica "p").applyAll
    [Op.mk "A" ROOT 0 "p" 1, Op.mk "B" "A" 0 "p" 2, Op.mk "C" "B" 0 "p" 3,
     Op.mk "A" "B" 5 "p" 4]

/-- The node `y` is reached from `x` in the edge graph, which has an arrow
from every node to every key of its edge map. -/
inductive EdgePath (t : Tree) : String → String → Prop
  | refl (x : String) : EdgePath t x x
  | step {x k y : String} {c : Int} : (k, c) ∈ t.edgesOf x → EdgePath t k y → EdgePath t x y

/-- The op that the loop body at lines 323-334 hands to the store for one
edit: the key `(child.id, parent.id)` with the value `maxCounter+1`. -/
def Replica.editOp (s : Replica) (e : Edit) (now : Int) : Op :=
  s.db.setValueOp (IdKey.mk e.child e.parent)
    (wrapInt64 (maxCounter (s.tree.edgesOf e.child) + 1)) now

/-- The replica after the ops `(A, ROOT, 0)`, `(B, A, 0)`, `(C, B, 0)`: the
chain ROOT, A, B, C. -/
def lineReplica : Replica :=
  (newReplica "p1").applyAll
    [Op.mk "A" ROOT 0 "p1" 1, Op.mk "B" "A" 0 "p1" 2, Op.mk "C" "B" 0 "p1" 3]

/-- The replica after the ops `(A, ROOT, 0)`, `(B, A, 0)`, `(C, B, 0)`,
`(A, B, 5)`, `(B, ROOT, 7)`. -/
def breakReplica : Replica :=
  (newReplica "p1").applyAll
    [Op.mk "A" ROOT 0 "p1" 1, Op.mk "B" "A" 0 "p1" 2, Op.mk "C" "B" 0 "p1" 3,
     Op.mk "A" "B" 5 "p1" 20, Op.mk "B" ROOT 7 "p1" 21]

/-- The replica after the ops `(A, B, 0)`, `(B, A, 0)`: `A` and `B` are each
other's parent and no edge leads from them to the root. -/
def islandReplica : Replica :=
  (newReplica "p").applyAll [Op.mk "A" "B" 0 "p" 1, Op.mk "B" "A" 0 "p" 2]

/-- The replica after the op `(C, X, -5)`: the only counter on `C` is below -1. -/
def negativeReplica : Replica := (newReplica "p").applyAll [Op.mk "C" "X" (-5) "q" 1]

/-- The replica after the op `(C, X, 9223372036854775807)`: the counter on `C`
is the largest `int`. -/
def maxCounterReplica : Replica := (newReplica "p").applyAll [Op.mk "C" "X" maxInt64 "q" 1]

/-- The replica after the ops that put `Z`, `A` and `M` under the root, in
the order of the list `names`. -/
def siblingsReplica (names : List String) : Replica :=
  (newReplica "p").applyAll (names.map fun n => Op.mk n ROOT 0 "p" 1)

/-! ## Runs in other orders of iteration, and ties in phase 3 -/

/-- The node and edge update of the observer (lines 146-160), before the
recomputation. -/
def Tree.observe (t : Tree) (op : Op) : Tree := ((t.ensure op.ID).ensure op.Key).updateEdge op

/-- The observer (lines 145-163) in the run whose recomputation ranges over
`nonRootedNodes` in the order `nr`. -/
def Tree.afterApplyWith (t : Tree) (op : Op) (nr : List String) : Tree :=
  (t.observe op).recomputeWith nr

/-- The result of phase 3 does not depend on which of several ready edges of
the same priority (same counter, same parent id, different children) is taken
first: all runs of `Reattach` from the parents `par` and the set `S` end with
the same parents. -/
def tieInsensitive (E : Edge → Prop) (par : String → Option String) (S : String → Prop) : Prop :=
  ∀ (p1 : String → Option String) (S1 : String → Prop) (p2 : String → Option String)
    (S2 : String → Prop), Reattach E par S p1 S1 → Reattach E par S p2 S2 → p1 = p2

/-- All entries of all edge maps of the tree, as edges. -/
def Tree.allEdges (t : Tree) : List Edge :=
  t.nodes.flatMap fun n => n.edges.map fun kc => Edge.mk n.id kc.1 kc.2

/-- The edges that lead from the set `S` out of it. -/
def crossing (edges : List Edge) (S : List String) : List Edge :=
  edges.filter fun e => e.child ∈ S ∧ e.parent ∉ S

/-- The edges of highest priority among those that lead out of `S`: the ones
that may be at the top of the heap. -/
def bestCrossing (edges : List Edge) (S : List String) : List Edge :=
  (crossing edges S).filter fun e => (crossing edges S).all fun e' => !Less e' e

/-- All runs of phase 3 from the set `S`, each as the list of the edges it
assigns, for every choice among the edges of highest priority; one assignment
per unit of fuel. -/
def reattachRuns (edges : List Edge) : Nat → List String → List (List Edge)
  | 0, _ => [[]]
  | fuel + 1, S =>
    if (bestCrossing edges S).isEmpty then [[]]
    else (bestCrossing edges S).flatMap fun e =>
      (reattachRuns edges fuel (S.erase e.child)).map fun r => e :: r

/-- The parent of `x` after the assignments of the run `r`, from the parent
`p0` before. -/
def assign (r : List Edge) (p0 : Option String) (x : String) : Option String :=
  r.foldl (fun p e => if x = e.child then some e.parent else p) p0

/-- All runs of phase 3 from the set `S` give every node the same parent. -/
def tieCheck (edges : List Edge) (par : String → Option String) (S : List String) : Bool :=
  (reattachRuns edges S.length S).all fun r =>
    (reattachRuns edges S.length S).all fun r' =>
      S.all fun x => decide (assign r (par x) x = assign r' (par x) x)

/-- The replica after the ops `(A, ROOT, 0)`, `(B, A, 0)`, `(A, B, 5)`,
`(x1, B, 0)`: `A` and `B` prefer each other and `x1` hangs under `B`. -/
def siblingBase : Replica :=
  (newReplica "p").applyAll
    [Op.mk "A" ROOT 0 "p" 1, Op.mk "B" "A" 0 "p" 2, Op.mk "A" "B" 5 "p" 3,
     Op.mk "x1" "B" 0 "p" 4]

/-- The op `(x2, B, 0)`: after it the edges of `x1` and `x2` tie on counter
and parent id. -/
def siblingOp : Op := Op.mk "x2" "B" 0 "p" 5

/-- The replica after the ops `(A, ROOT, 0)`, `(B, A, 0)`, `(A, B, 5)`,
`(x1, B, 0)`, `(x2, B, 0)`: `siblingBase` after `siblingOp`. -/
def siblingReplica : Replica :=
  (newReplica "p").applyAll
    [Op.mk "A" ROOT 0 "p" 1, Op.mk "B" "A" 0 "p" 2, Op.mk "A" "B" 5 "p" 3,
     Op.mk "x1" "B" 0 "p" 4, Op.mk "x2" "B" 0 "p" 5]

/-- The replica after the ops `(c1, ROOT, 0)`, `(c1, c1, 5)`, `(c2, ROOT, 0)`,
`(c2, c1, 100)`, `(c2, c2, 200)`: the node index and edge maps of `tieTree`. -/
def tieReplica : Replica :=
  (newReplica "p").applyAll
    [Op.mk "c1" ROOT 0 "p" 1, Op.mk "c1" "c1" 5 "p" 2, Op.mk "c2" ROOT 0 "p" 3,
     Op.mk "c2" "c1" 100 "p" 4, Op.mk "c2" "c2" 200 "p" 5]

/-- The replica after the ops `(C, X, 0)`, `(P, ROOT, 0)`: `C` hangs under
`X`, a node without edges, outside the subtree of the root. -/
def strayReplica : Replica :=
  (newReplica "p").applyAll [Op.mk "C" "X" 0 "p" 1, Op.mk "P" ROOT 0 "p" 2]

/-! ## The register store -/

theorem not_lt_empty (s : String) : ¬ (s < "") := by
  rw [String.lt_iff_toList_lt]; simp

theorem guard_iff (db : DB) (op : Op) :
    (((db.rows { ID := op.ID, Key := op.Key }).isSome = true ∧
        ((db.rows { ID := op.ID, Key := op.Key }).getD Row.zero).timestamp > op.Timestamp) ∨
      (((db.rows { ID := op.ID, Key := op.Key }).getD Row.zero).timestamp = op.Timestamp ∧
        ((db.rows { ID := op.ID, Key := op.Key }).getD Row.zero).peer > op.Peer)) ↔
    rejected db op := by
  unfold rejected
  cases h : db.rows { ID := op.ID, Key := op.Key } with
  | none =>
    simp [Row.zero, not_lt_empty]
  | some row =>
    simp [dominates]

theorem apply_of_rejected (db : DB) (op : Op) (h : rejected db op) :
    db.apply op = db := by
  unfold DB.apply
  exact if_neg (not_not.mpr ((guard_iff db op).mpr h))

theorem apply_of_not_rejected (db : DB) (op : Op) (h : ¬ rejected db op) :
    db.apply op = db.store op := by
  unfold DB.apply
  exact if_pos (fun hg => h ((guard_iff db op).mp hg))

theorem apply_rows (db : DB) (op : Op) (k : IdKey) :
    (db.apply op).rows k =
      if k = IdKey.mk op.ID op.Key ∧ ¬ rejected db op then
        some (Row.mk op.Value op.Peer op.Timestamp)
      else db.rows k := by
  by_cases h : rejected db op
  · rw [apply_of_rejected db op h]; simp [h]
  · rw [apply_of_not_rejected db op h]; simp [h, DB.store]

theorem apply_peer (db : DB) (op : Op) : (db.apply op).peer = db.peer := by
  by_cases h : rejected db op
  · rw [apply_of_rejected db op h]
  · rw [apply_of_not_rejected db op h]; rfl

theorem not_rejected_of_none (db : DB) (op : Op)
    (h : db.rows (IdKey.mk op.ID op.Key) = none) : ¬ rejected db op := by
  unfold rejected; rw [h]; exact id

theorem rejected_iff (db : DB) (op : Op) :
    rejected db op ↔ ∃ row, db.rows (IdKey.mk op.ID op.Key) = some row ∧ dominates row op := by
  unfold rejected
  cases h : db.rows { ID := op.ID, Key := op.Key } <;> simp

theorem stampLe_refl (t : Int) (p : String) : stampLe t p t p := Or.inr ⟨rfl, le_refl p⟩

theorem stampLe_trans {t1 t2 t3 : Int} {p1 p2 p3 : String}
    (h1 : stampLe t1 p1 t2 p2) (h2 : stampLe t2 p2 t3 p3) : stampLe t1 p1 t3 p3 := by
  unfold stampLe at *
  rcases h1 with h1 | ⟨h1, h1'⟩ <;> rcases h2 with h2 | ⟨h2, h2'⟩
  · left; omega
  · left; omega
  · left; omega
  · right; exact ⟨by omega, le_trans h1' h2'⟩

theorem not_dominates_iff (row : Row) (op : Op) :
    ¬ dominates row op ↔ stampLe row.timestamp row.peer op.Timestamp op.Peer := by
  unfold dominates stampLe
  constructor
  · intro h
    push_neg at h
    rcases lt_trichotomy row.timestamp op.Timestamp with h1 | h1 | h1
    · left; exact h1
    · right; exact ⟨h1, h.2 h1⟩
    · exact absurd h1 (not_lt.mpr h.1)
  · rintro (h | ⟨h1, h2⟩) (h' | ⟨h1', h2'⟩)
    · omega
    · omega
    · omega
    · exact absurd h2' (not_lt.mpr h2)

theorem dominates_iff (row : Row) (op : Op) :
    dominates row op ↔ stampLe op.Timestamp op.Peer row.timestamp row.peer ∧
      ¬ (op.Timestamp = row.timestamp ∧ op.Peer = row.peer) := by
  unfold dominates stampLe
  constructor
  · rintro (h | ⟨h1, h2⟩)
    · exact ⟨Or.inl h, fun h' => by omega⟩
    · exact ⟨Or.inr ⟨h1.symm, le_of_lt h2⟩, fun h' => absurd h2 (by rw [h'.2]; exact lt_irrefl _)⟩
  · rintro ⟨h | ⟨h1, h2⟩, h3⟩
    · left; exact h
    · right; refine ⟨h1.symm, lt_of_le_of_ne h2 (fun h' => h3 ⟨h1, h'⟩)⟩

theorem applyAll_cons (db : DB) (a : Op) (ops : List Op) :
    db.applyAll (a :: ops) = (db.apply a).applyAll ops := rfl

/-- One op never lowers the stamp of the row at a key. -/
theorem apply_mono (db : DB) (a : Op) (k : IdKey) (row : Row) (h : db.rows k = some row) :
    ∃ r', (db.apply a).rows k = some r' ∧
      stampLe row.timestamp row.peer r'.timestamp r'.peer := by
  by_cases hc : k = IdKey.mk a.ID a.Key ∧ ¬ rejected db a
  · refine ⟨_, by rw [apply_rows, if_pos hc], ?_⟩
    have hnd : ¬ dominates row a := fun hd =>
      hc.2 ((rejected_iff db a).mpr ⟨row, by rw [← hc.1]; exact h, hd⟩)
    exact (not_dominates_iff _ _).mp hnd
  · exact ⟨row, by rw [apply_rows, if_neg hc]; exact h, stampLe_refl _ _⟩

/-- A list of ops never lowers the stamp of the row at a key. -/
theorem applyAll_mono (k : IdKey) (ops : List Op) :
    ∀ (db : DB) (row : Row), db.rows k = some row →
      ∃ r', (db.applyAll ops).rows k = some r' ∧
        stampLe row.timestamp row.peer r'.timestamp r'.peer := by
  induction ops with
  | nil => exact fun db row h => ⟨row, h, stampLe_refl _ _⟩
  | cons a ops ih =>
    intro db row h
    obtain ⟨r1, h1, l1⟩ := apply_mono db a k row h
    obtain ⟨r2, h2, l2⟩ := ih (db.apply a) r1 h1
    exact ⟨r2, by rw [applyAll_cons]; exact h2, stampLe_trans l1 l2⟩

/-- After an op on the key, a row is stored there whose stamp is at least the op's. -/
theorem apply_ge (db : DB) (a : Op) :
    ∃ r', (db.apply a).rows (IdKey.mk a.ID a.Key) = some r' ∧
      stampLe a.Timestamp a.Peer r'.timestamp r'.peer := by
  by_cases hr : rejected db a
  · obtain ⟨row, hrow, hdom⟩ := (rejected_iff db a).mp hr
    exact ⟨row, by rw [apply_of_rejected db a hr]; exact hrow, ((dominates_iff _ _).mp hdom).1⟩
  · exact ⟨Row.mk a.Value a.Peer a.Timestamp, by rw [apply_rows]; simp [hr], stampLe_refl _ _⟩

/-- The stored row is an upper bound of every applied op on its key. -/
theorem applyAll_upper (k : IdKey) (ops : List Op) :
    ∀ (db : DB), ∀ o ∈ ops, o.ID = k.ID → o.Key = k.Key →
      ∃ r', (db.applyAll ops).rows k = some r' ∧
        stampLe o.Timestamp o.Peer r'.timestamp r'.peer := by
  induction ops with
  | nil => intro db o ho; cases ho
  | cons a ops ih =>
    intro db o ho h1 h2
    rw [applyAll_cons]
    rcases List.mem_cons.mp ho with rfl | ho
    · obtain ⟨r1, e1, l1⟩ := apply_ge db o
      have hk : IdKey.mk o.ID o.Key = k := by cases k; simp_all
      rw [hk] at e1
      obtain ⟨r2, e2, l2⟩ := applyAll_mono k ops (db.apply o) r1 e1
      exact ⟨r2, e2, stampLe_trans l1 l2⟩
    · exact ih (db.apply a) o ho h1 h2

/-- The stored row is the old row or the row of an applied op on its key. -/
theorem applyAll_attained (k : IdKey) (ops : List Op) :
    ∀ (db : DB) (r' : Row), (db.applyAll ops).rows k = some r' →
      db.rows k = some r' ∨
      ∃ o ∈ ops, o.ID = k.ID ∧ o.Key = k.Key ∧ o.Timestamp = r'.timestamp ∧
        o.Peer = r'.peer ∧ o.Value = r'.value := by
  induction ops with
  | nil => exact fun db r' h => Or.inl h
  | cons a ops ih =>
    intro db r' h
    rw [applyAll_cons] at h
    rcases ih (db.apply a) r' h with h1 | ⟨o, ho, h1⟩
    · rw [apply_rows] at h1
      by_cases hc : k = IdKey.mk a.ID a.Key ∧ ¬ rejected db a
      · rw [if_pos hc] at h1
        cases h1
        exact Or.inr ⟨a, List.mem_cons_self _ _, by rw [hc.1], by rw [hc.1], rfl, rfl, rfl⟩
      · rw [if_neg hc] at h1
        exact Or.inl h1
    · exact Or.inr ⟨o, List.mem_cons_of_mem _ ho, h1⟩

/-- Domination is the strict lexicographic order on stamps. -/
theorem dominates_iff_lex (row : Row) (op : Op) :
    dominates row op ↔
      toLex (op.Timestamp, op.Peer) < toLex (row.timestamp, row.peer) := by
  rw [Prod.Lex.lt_iff]
  unfold dominates
  simp only [gt_iff_lt]
  constructor
  · rintro (h | ⟨h1, h2⟩)
    · exact Or.inl h
    · exact Or.inr ⟨h1.symm, h2⟩
  · rintro (h | ⟨h1, h2⟩)
    · exact Or.inl h
    · exact Or.inr ⟨h1.symm, h2⟩

/-- Whether an op is rejected depends only on the row at its key. -/
theorem rejected_congr (db db' : DB) (op : Op)
    (h : db'.rows (IdKey.mk op.ID op.Key) = db.rows (IdKey.mk op.ID op.Key)) :
    rejected db' op ↔ rejected db op := by
  rw [rejected_iff, rejected_iff, h]

theorem apply_tie_same_value (db : DB) (op : Op) (row : Row)
    (h : db.rows (IdKey.mk op.ID op.Key) = some row) (ht : row.timestamp = op.Timestamp)
    (hp : row.peer = op.Peer) (hv : row.value = op.Value) : (db.apply op).rows = db.rows := by
  funext k
  rw [apply_rows]
  split
  · next hc =>
    rw [hc.1, h]
    cases row; simp_all
  · rfl

theorem apply_comm_rows (db : DB) (a b : Op)
    (h : a.ID ≠ b.ID ∨ a.Key ≠ b.Key ∨ a.Timestamp ≠ b.Timestamp ∨ a.Peer ≠ b.Peer ∨
      a.Value = b.Value) :
    ((db.apply a).apply b).rows = ((db.apply b).apply a).rows := by
  funext k
  by_cases hk : IdKey.mk a.ID a.Key = IdKey.mk b.ID b.Key
  · -- same key
    have hrb : ∀ db' : DB, rejected db' b ↔
        ∃ row, db'.rows (IdKey.mk a.ID a.Key) = some row ∧ dominates row b := by
      intro db'; rw [rejected_iff, hk]
    have hra : ∀ db' : DB, rejected db' a ↔
        ∃ row, db'.rows (IdKey.mk a.ID a.Key) = some row ∧ dominates row a := by
      intro db'; rw [rejected_iff]
    simp only [apply_rows, hra, hrb, ← hk]
    by_cases hkk : k = IdKey.mk a.ID a.Key
    · subst hkk
      have hid : a.ID = b.ID := by injection hk
      have hkey : a.Key = b.Key := by injection hk
      cases hrow : db.rows (IdKey.mk a.ID a.Key) with
      | none =>
        simp only [dominates_iff_lex]
        rcases lt_trichotomy (toLex (a.Timestamp, a.Peer)) (toLex (b.Timestamp, b.Peer))
          with hlt | heq | hgt
        · simp [hlt, not_lt_of_lt hlt]
        · have h1 : a.Timestamp = b.Timestamp := congrArg (fun x => (ofLex x).1) heq
          have h2 : a.Peer = b.Peer := congrArg (fun x => (ofLex x).2) heq
          have h3 : a.Value = b.Value := by tauto
          simp [h1, h2, h3]
        · simp [hgt, not_lt_of_lt hgt]
      | some row =>
        simp only [dominates_iff_lex]
        rcases lt_trichotomy (toLex (a.Timestamp, a.Peer)) (toLex (b.Timestamp, b.Peer))
          with hlt | heq | hgt
        · by_cases h1 : toLex (a.Timestamp, a.Peer) < toLex (row.timestamp, row.peer) <;>
          by_cases h2 : toLex (b.Timestamp, b.Peer) < toLex (row.timestamp, row.peer) <;>
          simp [h1, h2, hlt, not_lt_of_lt hlt]
          · exact absurd (lt_trans hlt h2) h1
        · have h1 : a.Timestamp = b.Timestamp := congrArg (fun x => (ofLex x).1) heq
          have h2 : a.Peer = b.Peer := congrArg (fun x => (ofLex x).2) heq
          have h3 : a.Value = b.Value := by tauto
          simp [h1, h2, h3]
        · by_cases h1 : toLex (a.Timestamp, a.Peer) < toLex (row.timestamp, row.peer) <;>
          by_cases h2 : toLex (b.Timestamp, b.Peer) < toLex (row.timestamp, row.peer) <;>
          simp [h1, h2, hgt, not_lt_of_lt hgt]
          · exact absurd (lt_trans hgt h1) h2
    · simp [hkk]
  · -- different keys
    have hk' : IdKey.mk b.ID b.Key ≠ IdKey.mk a.ID a.Key := fun h' => hk h'.symm
    have e1 : rejected (db.apply a) b ↔ rejected db b :=
      rejected_congr db _ b (by rw [apply_rows]; simp [hk'])
    have e2 : rejected (db.apply b) a ↔ rejected db a :=
      rejected_congr db _ a (by rw [apply_rows]; simp [hk])
    simp only [apply_rows, e1, e2]
    by_cases h1 : k = IdKey.mk a.ID a.Key
    · subst h1; simp [hk]
    · simp [h1]

theorem wrapInt64_succ (t : Int) (h1 : minInt64 ≤ t) (h2 : t < maxInt64) :
    wrapInt64 (t + 1) = t + 1 := by
  unfold wrapInt64; unfold minInt64 at h1; unfold maxInt64 at h2
  omega

/-- Below the largest timestamp, the op of `setValue` is accepted. -/
theorem setValue_supersedes_below_max (db : DB) (k : IdKey) (v now : Int)
    (h : ∀ row, db.rows k = some row → minInt64 ≤ row.timestamp ∧ row.timestamp < maxInt64) :
    (db.setValue k v now).getValue k = (v, true) ∧
    ∀ row, db.rows k = some row → (db.setValue k v now).getTimestamp k = (Max now (row.timestamp + 1), true) ∧
      row.timestamp < Max now (row.timestamp + 1) := by
  have hmax : ∀ t : Int, t < Max now (t + 1) := by
    intro t; unfold Max; split <;> omega
  cases hrow : db.rows k with
  | none =>
    have hop : db.setValueOp k v now = Op.mk k.ID k.Key v db.peer now := by
      simp [DB.setValueOp, DB.getTimestamp, hrow]
    have hnr : ¬ rejected db (Op.mk k.ID k.Key v db.peer now) := by
      rw [rejected_iff]; rintro ⟨row, hr, _⟩
      rw [show IdKey.mk k.ID k.Key = k from rfl, hrow] at hr; cases hr
    refine ⟨?_, fun row hr => by cases hr⟩
    simp [DB.setValue, DB.getValue, hop, apply_rows, hnr]
  | some row =>
    obtain ⟨h1, h2⟩ := h row hrow
    have hop : db.setValueOp k v now = Op.mk k.ID k.Key v db.peer (Max now (row.timestamp + 1)) := by
      simp [DB.setValueOp, DB.getTimestamp, hrow, wrapInt64_succ _ h1 h2]
    have hnr : ¬ rejected db (Op.mk k.ID k.Key v db.peer (Max now (row.timestamp + 1))) := by
      rw [rejected_iff]; rintro ⟨row', hr, hd⟩
      rw [show IdKey.mk k.ID k.Key = k from rfl, hrow] at hr; cases hr
      have := hmax row.timestamp
      unfold dominates at hd
      simp only at hd
      omega
    refine ⟨?_, fun row' hr => ?_⟩
    · simp [DB.setValue, DB.getValue, hop, apply_rows, hnr]
    · cases hr
      exact ⟨by simp [DB.setValue, DB.getTimestamp, hop, apply_rows, hnr], hmax _⟩


/-! ## Structure of the tree: ids, skeleton, lookups -/

theorem Tree.has_iff (t : Tree) (id : String) : t.has id = true ↔ id ∈ t.ids := by
  unfold Tree.has Tree.ids
  rw [List.any_eq_true, List.mem_map]
  constructor
  · rintro ⟨n, hn, h⟩; exact ⟨n, hn, by simpa using h⟩
  · rintro ⟨n, hn, h⟩; exact ⟨n, hn, by simpa using h⟩

theorem Tree.lookup_eq_some (t : Tree) (id p : String) :
    t.lookup id = some p ↔ p = id ∧ id ∈ t.ids := by
  unfold Tree.lookup
  by_cases h : t.has id = true
  · simp [h, (t.has_iff id).mp h, eq_comm]
  · have : id ∉ t.ids := fun h' => h ((t.has_iff id).mpr h')
    simp [h, this]

theorem ids_eq_skel (t : Tree) : t.ids = t.skel.map Prod.fst := by
  simp [Tree.ids, Tree.skel]

theorem has_congr {t1 t2 : Tree} (h : t1.ids = t2.ids) (id : String) : t1.has id = t2.has id := by
  rw [Bool.eq_iff_iff, Tree.has_iff, Tree.has_iff, h]

theorem lookup_congr {t1 t2 : Tree} (h : t1.ids = t2.ids) (id : String) :
    t1.lookup id = t2.lookup id := by
  unfold Tree.lookup; rw [has_congr h]

/-- Lookup of a node by id commutes with a map that keeps ids. -/
theorem find_map_id (f : Node → Node) (hf : ∀ n, (f n).id = n.id) (l : List Node) (x : String) :
    (l.map f).find? (fun n => n.id = x) = (l.find? (fun n => n.id = x)).map f := by
  induction l with
  | nil => rfl
  | cons a l ih =>
    simp only [List.map_cons, List.find?_cons, hf]
    split
    · rfl
    · exact ih

theorem node_mem {t : Tree} {x : String} {n : Node} (h : t.node x = some n) :
    n ∈ t.nodes ∧ n.id = x := by
  unfold Tree.node at h
  exact ⟨List.mem_of_find?_eq_some h, by simpa using List.find?_some h⟩

theorem node_isSome_iff (t : Tree) (x : String) : (t.node x).isSome = true ↔ x ∈ t.ids := by
  unfold Tree.node Tree.ids
  rw [List.find?_isSome]
  simp

theorem node_eq_none_iff (t : Tree) (x : String) : t.node x = none ↔ x ∉ t.ids := by
  rw [← node_isSome_iff]; cases t.node x <;> simp

/-- The edge map of node `x` read off the skeleton. -/
theorem edgesOf_eq_skel (t : Tree) (x : String) :
    t.edgesOf x = ((t.skel.find? (fun p => p.1 = x)).map Prod.snd).getD [] := by
  have key : ∀ l : List Node,
      (match l.find? (fun n => n.id = x) with
        | some n => n.edges
        | none => []) =
      (((l.map fun n => (n.id, n.edges)).find? (fun p => p.1 = x)).map Prod.snd).getD [] := by
    intro l
    induction l with
    | nil => rfl
    | cons a l ih =>
      simp only [List.map_cons, List.find?_cons]
      by_cases h : a.id = x
      · simp [h]
      · simp only [h, decide_False]; exact ih
  exact key t.nodes

theorem edgesOf_congr {t1 t2 : Tree} (h : t1.skel = t2.skel) (x : String) :
    t1.edgesOf x = t2.edgesOf x := by
  rw [edgesOf_eq_skel, edgesOf_eq_skel, h]

theorem ids_congr {t1 t2 : Tree} (h : t1.skel = t2.skel) : t1.ids = t2.ids := by
  rw [ids_eq_skel, ids_eq_skel, h]

theorem edgeCount_congr {t1 t2 : Tree} (h : t1.skel = t2.skel) : t1.edgeCount = t2.edgeCount := by
  have : ∀ t : Tree, t.edgeCount = (t.skel.map fun p => p.2.length).sum := by
    intro t; simp [Tree.edgeCount, Tree.skel, Function.comp_def]
  rw [this, this, h]

/-! ### Phase 1 -/

theorem phase1_skel (t : Tree) : (phase1 t).skel = t.skel := by
  simp [phase1, Tree.skel, Function.comp_def]

theorem phase1_ids (t : Tree) : (phase1 t).ids = t.ids := ids_congr (phase1_skel t)

/-- Phase 1 reads only the skeleton. -/
theorem phase1_congr {t1 t2 : Tree} (h : t1.skel = t2.skel) : phase1 t1 = phase1 t2 := by
  have key : ∀ t : Tree, phase1 t = Tree.mk (t.skel.map fun p =>
      Node.mk p.1 (t.lookup (edgeWithLargestCounter p.2)) [] p.2) := by
    intro t; simp [phase1, Tree.skel, Function.comp_def]
  rw [key, key, h]
  congr 1
  apply List.map_congr_left
  intro p _
  rw [lookup_congr (ids_congr h)]

theorem phase1_node (t : Tree) (x : String) :
    (phase1 t).node x = (t.node x).map fun n =>
      { n with parent := t.lookup (edgeWithLargestCounter n.edges), children := [] } := by
  unfold Tree.node phase1
  exact find_map_id (fun n =>
    { n with parent := t.lookup (edgeWithLargestCounter n.edges), children := [] })
    (fun _ => rfl) t.nodes x

theorem phase1_parentOf (t : Tree) (x : String) :
    (phase1 t).parentOf x =
      if x ∈ t.ids then t.lookup (edgeWithLargestCounter (t.edgesOf x)) else none := by
  unfold Tree.parentOf Tree.edgesOf
  rw [phase1_node]
  cases h : t.node x with
  | none => simp [(node_eq_none_iff t x).mp h]
  | some n =>
    have : x ∈ t.ids := (node_isSome_iff t x).mp (by rw [h]; rfl)
    simp [this]

/-! ### Setting a parent -/

theorem setParent_skel (t : Tree) (c p : String) : (t.setParent c p).skel = t.skel := by
  unfold Tree.setParent Tree.skel
  simp only [List.map_map]
  apply List.map_congr_left
  intro n _
  simp only [Function.comp]
  split <;> rfl

theorem setParent_ids (t : Tree) (c p : String) : (t.setParent c p).ids = t.ids :=
  ids_congr (setParent_skel t c p)

theorem setParent_parentOf (t : Tree) (c p x : String) :
    (t.setParent c p).parentOf x =
      if x = c ∧ x ∈ t.ids then some p else t.parentOf x := by
  unfold Tree.parentOf
  have : (t.setParent c p).node x =
      (t.node x).map fun n => if n.id = c then { n with parent := some p } else n := by
    unfold Tree.node Tree.setParent
    exact find_map_id (fun n => if n.id = c then { n with parent := some p } else n)
      (fun n => by show (if n.id = c then _ else _ : Node).id = _; split <;> rfl) t.nodes x
  rw [this]
  cases h : t.node x with
  | none => simp [(node_eq_none_iff t x).mp h]
  | some n =>
    have hx : x ∈ t.ids := (node_isSome_iff t x).mp (by rw [h]; rfl)
    have hid : n.id = x := (node_mem h).2
    by_cases hc : x = c
    · simp [hc, hid ▸ hc, hx, hc ▸ hx]
    · simp [hc, hid ▸ hc]

/-! ### Phase 4 -/

theorem phase4_skel (t : Tree) : (phase4 t).skel = t.skel := by
  simp [phase4, Tree.skel, Function.comp_def]

theorem phase4_ids (t : Tree) : (phase4 t).ids = t.ids := ids_congr (phase4_skel t)

theorem phase4_node (t : Tree) (x : String) :
    (phase4 t).node x = (t.node x).map fun n =>
      { n with children :=
          sortIds ((t.nodes.filter fun m => m.parent = some n.id).map fun m => m.id) } := by
  unfold Tree.node phase4
  exact find_map_id (fun n =>
    { n with children :=
        sortIds ((t.nodes.filter fun m => m.parent = some n.id).map fun m => m.id) })
    (fun _ => rfl) t.nodes x

theorem phase4_parentOf (t : Tree) (x : String) : (phase4 t).parentOf x = t.parentOf x := by
  unfold Tree.parentOf
  rw [phase4_node]
  cases t.node x <;> rfl

/-! ### Phase 3 keeps the skeleton -/

theorem reattachLoop_skel (fuel : Nat) :
    ∀ (t : Tree) (nr : List String) (deferred : String → List Edge) (ready : List Edge),
      (reattachLoop fuel t nr deferred ready).1.skel = t.skel := by
  induction fuel with
  | zero => intros; rfl
  | succ fuel ih =>
    intro t nr deferred ready
    unfold reattachLoop
    cases heapPop ready with
    | none => rfl
    | some val =>
      obtain ⟨top, ready1⟩ := val
      simp only
      split
      · rw [ih, setParent_skel]
      · rw [ih]

theorem phase3_skel (t : Tree) (nr : List String) : (phase3 t nr).1.skel = t.skel := by
  unfold phase3
  split
  · exact reattachLoop_skel _ _ _ _ _
  · rfl

theorem recompute_skel (t : Tree) : t.recomputeParentsAndChildren.skel = t.skel := by
  unfold Tree.recomputeParentsAndChildren
  rw [phase4_skel, phase3_skel, phase1_skel]

theorem recompute_ids (t : Tree) : t.recomputeParentsAndChildren.ids = t.ids :=
  ids_congr (recompute_skel t)

/-- The recomputation reads only the skeleton. -/
theorem recompute_congr {t1 t2 : Tree} (h : t1.skel = t2.skel) :
    t1.recomputeParentsAndChildren = t2.recomputeParentsAndChildren := by
  unfold Tree.recomputeParentsAndChildren
  rw [phase1_congr h]

theorem island_congr {t1 t2 : Tree} (h : t1.skel = t2.skel) : t1.island = t2.island := by
  unfold Tree.island
  rw [phase1_congr h]

/-- Recomputing twice is recomputing once. -/
theorem recompute_idem (t : Tree) :
    t.recomputeParentsAndChildren.recomputeParentsAndChildren =
      t.recomputeParentsAndChildren :=
  recompute_congr (recompute_skel t)


/-! ## The observer on the skeleton -/

theorem ensure_skel (t : Tree) (id : String) :
    (t.ensure id).skel = if id ∈ t.ids then t.skel else t.skel ++ [(id, [])] := by
  unfold Tree.ensure
  by_cases h : t.has id = true
  · simp [h, (t.has_iff id).mp h]
  · have : id ∉ t.ids := fun h' => h ((t.has_iff id).mpr h')
    simp [h, this, Tree.skel, newNodeWithID]

theorem ensure_ids (t : Tree) (id : String) :
    (t.ensure id).ids = if id ∈ t.ids then t.ids else t.ids ++ [id] := by
  rw [ids_eq_skel, ensure_skel, ids_eq_skel]
  split <;> simp

theorem mem_ensure_ids (t : Tree) (id x : String) :
    x ∈ (t.ensure id).ids ↔ x ∈ t.ids ∨ x = id := by
  rw [ensure_ids]
  split
  · next h => constructor
              · exact Or.inl
              · rintro (h' | rfl); exact h'; exact h
  · simp

theorem ensure_of_mem (t : Tree) (id : String) (h : id ∈ t.ids) : t.ensure id = t := by
  unfold Tree.ensure
  rw [if_pos ((t.has_iff id).mpr h)]

theorem updateEdge_skel (t : Tree) (op : Op) :
    (t.updateEdge op).skel =
      t.skel.map fun p => if p.1 = op.ID then (p.1, updEdges op p.2) else p := by
  unfold Tree.updateEdge Tree.skel
  simp only [List.map_map]
  apply List.map_congr_left
  intro n _
  simp only [Function.comp]
  split <;> rfl

theorem updateEdge_ids (t : Tree) (op : Op) : (t.updateEdge op).ids = t.ids := by
  rw [ids_eq_skel, updateEdge_skel, ids_eq_skel, List.map_map]
  apply List.map_congr_left
  intro p _
  simp only [Function.comp]
  split <;> rfl

theorem edgesSet_idem (es : List (String × Int)) (k : String) (v : Int) :
    edgesSet (edgesSet es k v) k v = edgesSet es k v := by
  induction es with
  | nil => simp [edgesSet]
  | cons a es ih =>
    obtain ⟨k', v'⟩ := a
    by_cases h : k' = k
    · simp [edgesSet, h]
    · simp [edgesSet, h, ih]

theorem edgesDelete_idem (es : List (String × Int)) (k : String) :
    edgesDelete (edgesDelete es k) k = edgesDelete es k := by
  simp [edgesDelete, List.filter_filter]

theorem updEdges_idem (op : Op) (es : List (String × Int)) :
    updEdges op (updEdges op es) = updEdges op es := by
  unfold updEdges
  split
  · exact edgesDelete_idem _ _
  · exact edgesSet_idem _ _ _

theorem afterApply_skel (t : Tree) (op : Op) :
    (t.afterApply op).skel = (((t.ensure op.ID).ensure op.Key).updateEdge op).skel := by
  unfold Tree.afterApply
  exact recompute_skel _

theorem afterApply_ids (t : Tree) (op : Op) :
    (t.afterApply op).ids = ((t.ensure op.ID).ensure op.Key).ids := by
  rw [ids_congr (afterApply_skel t op), updateEdge_ids]

theorem afterApply_has_id (t : Tree) (op : Op) : op.ID ∈ (t.afterApply op).ids := by
  rw [afterApply_ids, mem_ensure_ids, mem_ensure_ids]; exact Or.inl (Or.inr rfl)

theorem afterApply_has_key (t : Tree) (op : Op) : op.Key ∈ (t.afterApply op).ids := by
  rw [afterApply_ids, mem_ensure_ids]; exact Or.inr rfl

/-- The observer run twice on the same op gives the tree of one run. -/
theorem afterApply_idem (t : Tree) (op : Op) :
    (t.afterApply op).afterApply op = t.afterApply op := by
  have h1 : (t.afterApply op).ensure op.ID = t.afterApply op :=
    ensure_of_mem _ _ (afterApply_has_id t op)
  have h2 : (t.afterApply op).ensure op.Key = t.afterApply op :=
    ensure_of_mem _ _ (afterApply_has_key t op)
  have h3 : ((t.afterApply op).updateEdge op).skel =
      (((t.ensure op.ID).ensure op.Key).updateEdge op).skel := by
    rw [updateEdge_skel, afterApply_skel, updateEdge_skel, List.map_map]
    apply List.map_congr_left
    intro p _
    simp only [Function.comp]
    by_cases h : p.1 = op.ID
    · simp [h, updEdges_idem]
    · simp [h]
  show (((((t.afterApply op).ensure op.ID).ensure op.Key).updateEdge op)).recomputeParentsAndChildren
    = _
  rw [h1, h2]
  exact recompute_congr h3


theorem apply_idem_db (db : DB) (op : Op) : (db.apply op).apply op = db.apply op := by
  by_cases h : rejected db op
  · rw [apply_of_rejected db op h, apply_of_rejected db op h]
  · have hp : (db.apply op).peer = db.peer := apply_peer db op
    have hrows : ((db.apply op).apply op).rows = (db.apply op).rows :=
      apply_tie_same_value (db.apply op) op (Row.mk op.Value op.Peer op.Timestamp)
        (by rw [apply_rows]; simp [h]) rfl rfl rfl
    have hp2 : ((db.apply op).apply op).peer = (db.apply op).peer := apply_peer _ op
    cases h1 : (db.apply op).apply op
    cases h2 : db.apply op
    simp_all


/-! ## The heap keeps its entries -/

theorem swap_perm (xs : List Edge) (i j : Nat) : (swap xs i j).Perm xs := by
  unfold swap
  cases hi : xs[i]? with
  | none => exact List.Perm.refl _
  | some a =>
    cases hj : xs[j]? with
    | none => exact List.Perm.refl _
    | some b =>
      simp only
      obtain ⟨hil, hia⟩ := List.getElem?_eq_some.mp hi
      obtain ⟨hjl, hjb⟩ := List.getElem?_eq_some.mp hj
      rw [List.perm_iff_count]
      intro c
      have hjl' : j < (xs.set i b).length := by simpa using hjl
      rw [List.count_set _ _ _ _ hjl', List.count_set _ _ _ _ hil]
      have hget : (xs.set i b)[j] = b := by
        rw [List.getElem_set]
        split
        · rfl
        · exact hjb
      rw [hget, hia]
      have hle : (if (a == c) = true then 1 else 0) ≤ xs.count c := by
        split
        · next h =>
          have : a = c := by simpa using h
          subst this
          exact List.count_pos_iff.mpr (hia ▸ List.getElem_mem _)
        · exact Nat.zero_le _
      omega

theorem swap_length (xs : List Edge) (i j : Nat) : (swap xs i j).length = xs.length :=
  (swap_perm xs i j).length_eq

theorem up_perm (fuel : Nat) : ∀ (xs : List Edge) (j : Nat), (up fuel xs j).Perm xs := by
  induction fuel with
  | zero => intros; exact List.Perm.refl _
  | succ fuel ih =>
    intro xs j
    unfold up
    split
    · exact List.Perm.refl _
    · exact (ih _ _).trans (swap_perm _ _ _)

theorem down_perm (fuel : Nat) : ∀ (xs : List Edge) (i n : Nat), (down fuel xs i n).Perm xs := by
  induction fuel with
  | zero => intros; exact List.Perm.refl _
  | succ fuel ih =>
    intro xs i n
    unfold down
    split
    · exact List.Perm.refl _
    · simp only
      split <;> split <;>
        first
        | exact List.Perm.refl _
        | exact (ih _ _ _).trans (swap_perm _ _ _)

theorem heapPush_perm (xs : List Edge) (e : Edge) : (heapPush xs e).Perm (e :: xs) := by
  unfold heapPush
  exact (up_perm _ _ _).trans (List.perm_append_singleton e xs)

theorem mem_heapPush (xs : List Edge) (e x : Edge) : x ∈ heapPush xs e ↔ x = e ∨ x ∈ xs := by
  rw [(heapPush_perm xs e).mem_iff, List.mem_cons]

theorem heapPop_none (xs : List Edge) : heapPop xs = none ↔ xs = [] := by
  cases xs with
  | nil => simp [heapPop]
  | cons x rest =>
    simp only [heapPop, reduceCtorEq, iff_false]
    have hp : (down (rest.length + 1) (swap (x :: rest) 0 rest.length) 0 rest.length).Perm
        (x :: rest) := (down_perm _ _ _ _).trans (swap_perm _ _ _)
    cases h : (down (rest.length + 1) (swap (x :: rest) 0 rest.length) 0 rest.length).getLast? with
    | none =>
      rw [List.getLast?_eq_none_iff] at h
      rw [h] at hp
      exact absurd hp.length_eq (by simp)
    | some top => simp

theorem heapPop_perm {xs : List Edge} {top : Edge} {rest : List Edge}
    (h : heapPop xs = some (top, rest)) : xs.Perm (top :: rest) := by
  cases xs with
  | nil => simp [heapPop] at h
  | cons x r =>
    simp only [heapPop] at h
    have hp : (down (r.length + 1) (swap (x :: r) 0 r.length) 0 r.length).Perm
        (x :: r) := (down_perm _ _ _ _).trans (swap_perm _ _ _)
    cases hl : (down (r.length + 1) (swap (x :: r) 0 r.length) 0 r.length).getLast? with
    | none => rw [hl] at h; cases h
    | some top' =>
      rw [hl] at h
      simp only [Option.some.injEq, Prod.mk.injEq] at h
      obtain ⟨rfl, rfl⟩ := h
      have := List.dropLast_append_getLast? top' hl
      refine hp.symm.trans ?_
      rw [← this]
      simp only [List.dropLast_concat]
      exact List.perm_append_singleton _ _

theorem foldl_heapPush_perm (es : List Edge) :
    ∀ xs : List Edge, (es.foldl heapPush xs).Perm (es ++ xs) := by
  induction es with
  | nil => intro xs; exact List.Perm.refl _
  | cons e es ih =>
    intro xs
    simp only [List.foldl_cons]
    refine (ih _).trans ?_
    refine (List.Perm.append_left es (heapPush_perm xs e)).trans ?_
    simp only [List.cons_append]
    exact List.perm_middle


/-! ## Walks along parent pointers -/

section Walk
variable (par : String → Option String)

theorem walk_add (a b : Nat) (x : String) :
    walk par (a + b) x = (walk par a x).bind (walk par b) := by
  induction a generalizing x with
  | zero => simp [walk]
  | succ a ih =>
    rw [Nat.succ_add]
    simp only [walk]
    cases par x with
    | none => rfl
    | some p => exact ih p

theorem walk_succ (k : Nat) (x : String) :
    walk par (k + 1) x = (walk par k x).bind par := by
  rw [walk_add]
  congr 1
  funext y
  simp only [walk]
  cases par y <;> rfl

theorem walk_one (x : String) : walk par 1 x = par x := by
  simp only [walk]; cases par x <;> rfl

/-- When a walk arrives somewhere, all its shorter prefixes arrive somewhere. -/
theorem walk_isSome_of_le {k j : Nat} {x y : String} (h : walk par k x = some y) (hj : j ≤ k) :
    ∃ z, walk par j x = some z := by
  obtain ⟨d, rfl⟩ := Nat.exists_eq_add_of_le hj
  rw [walk_add] at h
  cases hw : walk par j x with
  | none => rw [hw] at h; cases h
  | some z => exact ⟨z, rfl⟩

theorem walk_mem_ids {ids : List String} (hp : parentsWithin par ids) {x : String}
    (hx : x ∈ ids) : ∀ (k : Nat) (y : String), walk par k x = some y → y ∈ ids := by
  intro k
  induction k with
  | zero => intro y h; simp only [walk, Option.some.injEq] at h; exact h ▸ hx
  | succ k ih =>
    intro y h
    rw [walk_succ] at h
    cases hw : walk par k x with
    | none => rw [hw] at h; cases h
    | some z => rw [hw] at h; exact hp z y h

/-- On a shortest walk to `y` no node repeats. -/
theorem walk_injective_of_minimal {K : Nat} {x y : String} (h : walk par K x = some y)
    (hmin : ∀ j, j < K → walk par j x ≠ some y) {i j : Nat} (hij : i < j) (hj : j ≤ K) :
    walk par i x ≠ walk par j x := by
  intro heq
  have h1 : walk par (j + (K - j)) x = some y := by
    rw [Nat.add_sub_cancel' hj]; exact h
  rw [walk_add, ← heq, ← walk_add] at h1
  exact hmin (i + (K - j)) (by omega) h1

/-- A node that reaches `y` has a shortest walk to it. -/
theorem exists_minimal_walk {x y : String} (h : reaches par x y) :
    ∃ K, walk par K x = some y ∧ ∀ j, j < K → walk par j x ≠ some y := by
  classical
  exact ⟨Nat.find h, Nat.find_spec h, fun j hj => Nat.find_min h hj⟩

/-- A shortest walk inside `ids` is shorter than `ids`. -/
theorem minimal_walk_lt_length {ids : List String} (hp : parentsWithin par ids) {x y : String}
    (hx : x ∈ ids) {K : Nat} (h : walk par K x = some y)
    (hmin : ∀ j, j < K → walk par j x ≠ some y) : K < ids.length := by
  classical
  have hsome : ∀ i : Fin (K + 1), ∃ z, walk par i.val x = some z :=
    fun i => walk_isSome_of_le par h (Nat.lt_succ_iff.mp i.isLt)
  let f : Fin (K + 1) → String := fun i => (walk par i.val x).getD ""
  have hf : ∀ i : Fin (K + 1), walk par i.val x = some (f i) := by
    intro i
    obtain ⟨z, hz⟩ := hsome i
    simp only [f, hz, Option.getD_some]
  have hmem : ∀ i ∈ (Finset.univ : Finset (Fin (K + 1))), f i ∈ ids.toFinset := by
    intro i _
    rw [List.mem_toFinset]
    exact walk_mem_ids par hp hx i.val (f i) (hf i)
  have hinj : Set.InjOn f (Finset.univ : Finset (Fin (K + 1))) := by
    intro i _ j _ hij
    by_contra hne
    have hne' : i.val ≠ j.val := fun h' => hne (Fin.ext h')
    rcases Nat.lt_or_gt_of_ne hne' with hlt | hgt
    · exact walk_injective_of_minimal par h hmin hlt (Nat.lt_succ_iff.mp j.isLt)
        (by rw [hf i, hf j, hij])
    · exact walk_injective_of_minimal par h hmin hgt (Nat.lt_succ_iff.mp i.isLt)
        (by rw [hf i, hf j, hij])
  have hcard := Finset.card_le_card_of_injOn f hmem hinj
  simp only [Finset.card_univ, Fintype.card_fin] at hcard
  have := List.toFinset_card_le ids
  omega

/-- A node that reaches `y` inside `ids` reaches it in fewer steps than `ids` has entries. -/
theorem reaches_bounded {ids : List String} (hp : parentsWithin par ids) {x y : String}
    (hx : x ∈ ids) (h : reaches par x y) : ∃ k, k < ids.length ∧ walk par k x = some y := by
  obtain ⟨K, hK, hmin⟩ := exists_minimal_walk par h
  exact ⟨K, minimal_walk_lt_length par hp hx hK hmin, hK⟩

theorem reaches_of_parent {x p y : String} (hp : par x = some p) (h : reaches par p y) :
    reaches par x y := by
  obtain ⟨k, hk⟩ := h
  exact ⟨k + 1, by simp only [walk, hp]; exact hk⟩

theorem reaches_refl (x : String) : reaches par x x := ⟨0, rfl⟩

/-! ### The tortoise and the hare -/

/-- Soundness of the loop: it answers `true` only when the hare reaches `other`. -/
theorem isNodeUnderLoop_sound (other : String) (fuel : Nat) :
    ∀ (tortoise hare : Option String),
      isNodeUnderLoop par other fuel tortoise hare = some true →
      ∃ k, hare.bind (walk par k) = some other := by
  induction fuel with
  | zero => intro _ _ h; simp [isNodeUnderLoop] at h
  | succ fuel ih =>
    intro tortoise hare h
    unfold isNodeUnderLoop at h
    cases hare with
    | none => simp at h
    | some hh =>
      simp only at h
      by_cases h1 : hh = other
      · exact ⟨0, by simp [walk, h1]⟩
      · rw [if_neg h1] at h
        by_cases h2 : tortoise = some hh
        · rw [if_pos h2] at h; simp at h
        · rw [if_neg h2] at h
          cases hp : par hh with
          | none => rw [hp] at h; simp at h
          | some h1' =>
            rw [hp] at h
            simp only at h
            by_cases h3 : h1' = other
            · exact ⟨1, by simp [walk, hp, h3]⟩
            · rw [if_neg h3] at h
              obtain ⟨k, hk⟩ := ih _ _ h
              refine ⟨1 + (1 + k), ?_⟩
              show walk par (1 + (1 + k)) hh = some other
              rw [walk_add, walk_one, hp]
              show walk par (1 + k) h1' = some other
              rw [walk_add, walk_one]
              exact hk

theorem isNodeUnder_sound (fuel : Nat) (node other : String)
    (h : isNodeUnderOtherNode par fuel node other = some true) : reaches par node other := by
  unfold isNodeUnderOtherNode at h
  by_cases h1 : node = other
  · exact h1 ▸ reaches_refl par node
  · rw [if_neg h1] at h
    obtain ⟨k, hk⟩ := isNodeUnderLoop_sound par other fuel _ _ h
    refine ⟨k + 1, ?_⟩
    simp only [walk]
    cases hp : par node with
    | none => rw [hp] at hk; simp at hk
    | some p => rw [hp] at hk; simpa using hk

/-- Completeness of the loop along a shortest walk: with the tortoise at step
`i` and the hare at step `2 i + 1`, the loop answers `true`. -/
theorem isNodeUnderLoop_complete {K : Nat} {node other : String}
    (h : walk par K node = some other) (hmin : ∀ j, j < K → walk par j node ≠ some other)
    (fuel : Nat) :
    ∀ i, 2 * i + 1 ≤ K → K + 1 ≤ 2 * i + 2 * fuel →
      isNodeUnderLoop par other fuel (walk par i node) (walk par (2 * i + 1) node) =
        some true := by
  induction fuel with
  | zero => intro i h1 h2; omega
  | succ fuel ih =>
    intro i h1 h2
    unfold isNodeUnderLoop
    obtain ⟨hh, hhare⟩ := walk_isSome_of_le par h h1
    rw [hhare]
    simp only
    by_cases e1 : hh = other
    · rw [if_pos e1]
    · rw [if_neg e1]
      have hlt : 2 * i + 1 < K := by
        rcases Nat.lt_or_ge (2 * i + 1) K with h' | h'
        · exact h'
        · have : 2 * i + 1 = K := by omega
          rw [this, h] at hhare
          exact absurd (Option.some.inj hhare).symm e1
      have hne : walk par i node ≠ some hh := by
        rw [← hhare]
        exact walk_injective_of_minimal par h hmin (by omega) (by omega)
      rw [if_neg hne]
      obtain ⟨h1', hhare1⟩ := walk_isSome_of_le par h (show 2 * i + 2 ≤ K by omega)
      have hp : par hh = some h1' := by
        have := walk_succ par (2 * i + 1) node
        rw [hhare] at this
        rw [show 2 * i + 1 + 1 = 2 * i + 2 by ring, hhare1] at this
        simpa using this.symm
      rw [hp]
      simp only
      by_cases e2 : h1' = other
      · rw [if_pos e2]
      · rw [if_neg e2]
        have hlt2 : 2 * i + 2 < K := by
          rcases Nat.lt_or_ge (2 * i + 2) K with h' | h'
          · exact h'
          · have : 2 * i + 2 = K := by omega
            rw [this, h] at hhare1
            exact absurd (Option.some.inj hhare1).symm e2
        have t1 : (walk par i node).bind par = walk par (i + 1) node := (walk_succ par i node).symm
        have t2 : par h1' = walk par (2 * (i + 1) + 1) node := by
          have := walk_succ par (2 * i + 2) node
          rw [hhare1] at this
          rw [show 2 * (i + 1) + 1 = 2 * i + 2 + 1 by ring, this]; rfl
        rw [t1, t2]
        exact ih (i + 1) (by omega) (by omega)

theorem isNodeUnder_complete {ids : List String} (hp : parentsWithin par ids)
    {node other : String} (hx : node ∈ ids) (h : reaches par node other)
    (fuel : Nat) (hfuel : ids.length ≤ 2 * fuel) :
    isNodeUnderOtherNode par fuel node other = some true := by
  unfold isNodeUnderOtherNode
  by_cases h1 : node = other
  · rw [if_pos h1]
  · rw [if_neg h1]
    obtain ⟨K, hK, hmin⟩ := exists_minimal_walk par h
    have hlt := minimal_walk_lt_length par hp hx hK hmin
    have hK1 : 1 ≤ K := by
      rcases Nat.eq_zero_or_pos K with h0 | h0
      · subst h0; simp only [walk, Option.some.injEq] at hK; exact absurd hK h1
      · exact h0
    have := isNodeUnderLoop_complete par hK hmin fuel 0 (by omega) (by omega)
    rw [show 2 * 0 + 1 = 1 by rfl, walk_one] at this
    exact this

end Walk


/-! ## Phase 2: the set of non-rooted nodes -/

theorem ids_length (t : Tree) : t.ids.length = t.nodes.length := by simp [Tree.ids]

theorem phase1_parentsWithin (t : Tree) : parentsWithin (phase1 t).parentOf (phase1 t).ids := by
  intro x p h
  rw [phase1_parentOf] at h
  rw [phase1_ids]
  split at h
  · exact ((t.lookup_eq_some _ _).mp h).1 ▸ ((t.lookup_eq_some _ _).mp h).2
  · cases h

theorem parentOf_mem_ids {t : Tree} {x p : String} (h : t.parentOf x = some p) : x ∈ t.ids := by
  unfold Tree.parentOf at h
  cases hn : t.node x with
  | none => rw [hn] at h; cases h
  | some n => exact (node_isSome_iff t x).mp (by rw [hn]; rfl)

/-- The test of line 213 holds exactly for the nodes that reach the root. -/
theorem underRoot_iff (t : Tree) (hp : parentsWithin t.parentOf t.ids) {x : String}
    (hx : x ∈ t.ids) : t.underRoot x = true ↔ reaches t.parentOf x ROOT := by
  unfold Tree.underRoot
  rw [decide_eq_true_iff]
  constructor
  · exact isNodeUnder_sound _ _ _ _
  · intro h
    exact isNodeUnder_complete _ hp hx h _ (by rw [ids_length]; omega)

section Mark
variable (par : String → Option String)

theorem markNonRooted_subset (fuel : Nat) :
    ∀ (nr : List String) (start : Option String), nr ⊆ markNonRooted par fuel nr start := by
  induction fuel with
  | zero => intro nr start; simp [markNonRooted]
  | succ fuel ih =>
    intro nr start
    cases start with
    | none => simp [markNonRooted]
    | some n =>
      simp only [markNonRooted]
      split
      · exact List.Subset.refl _
      · exact fun x hx => ih _ _ (List.mem_append_left _ hx)

theorem markNonRooted_mem_start (fuel : Nat) (nr : List String) (x : String) :
    x ∈ markNonRooted par (fuel + 1) nr (some x) := by
  simp only [markNonRooted]
  split
  · assumption
  · exact markNonRooted_subset par _ _ _ (List.mem_append_right _ (List.mem_singleton_self x))

/-- A property that passes from a node to its parent holds on everything the
walk adds. -/
theorem markNonRooted_forall (P : String → Prop)
    (hstep : ∀ x p, P x → par x = some p → P p) (fuel : Nat) :
    ∀ (nr : List String) (start : Option String), (∀ y ∈ nr, P y) →
      (∀ x, start = some x → P x) → ∀ y ∈ markNonRooted par fuel nr start, P y := by
  induction fuel with
  | zero => intro nr start h _; simpa [markNonRooted] using h
  | succ fuel ih =>
    intro nr start h hs
    cases start with
    | none => simpa [markNonRooted] using h
    | some n =>
      simp only [markNonRooted]
      split
      · exact h
      · apply ih
        · intro y hy
          rcases List.mem_append.mp hy with hy | hy
          · exact h y hy
          · rw [List.mem_singleton.mp hy]; exact hs n rfl
        · intro x hx
          exact hstep n x (hs n rfl) hx

theorem markNonRooted_nodup (fuel : Nat) :
    ∀ (nr : List String) (start : Option String), nr.Nodup →
      (markNonRooted par fuel nr start).Nodup := by
  induction fuel with
  | zero => intro nr start h; simpa [markNonRooted] using h
  | succ fuel ih =>
    intro nr start h
    cases start with
    | none => simpa [markNonRooted] using h
    | some n =>
      simp only [markNonRooted]
      split
      · exact h
      · next hn =>
        apply ih
        rw [List.nodup_append]
        refine ⟨h, List.nodup_singleton n, ?_⟩
        intro a ha hb
        rw [List.mem_singleton] at hb
        exact hn (hb ▸ ha)

end Mark

/-- The fold of phase 2 over a list of nodes, from the set `nr`. -/
theorem nonRooted_fold_forall (t : Tree) (P : String → Prop)
    (hstep : ∀ x p, P x → t.parentOf x = some p → P p) :
    ∀ (l : List Node) (nr : List String), (∀ y ∈ nr, P y) →
      (∀ n ∈ l, t.underRoot n.id = false → P n.id) →
      ∀ y ∈ l.foldl (fun nr node =>
          if t.underRoot node.id then nr
          else markNonRooted t.parentOf (t.nodes.length + 1) nr (some node.id)) nr, P y := by
  intro l
  induction l with
  | nil => intro nr h _; simpa using h
  | cons a l ih =>
    intro nr h hl
    simp only [List.foldl_cons]
    apply ih
    · split
      · exact h
      · next hu =>
        apply markNonRooted_forall t.parentOf P hstep _ _ _ h
        intro x hx
        cases hx
        exact hl a (List.mem_cons_self _ _) (by simpa using hu)
    · exact fun n hn => hl n (List.mem_cons_of_mem _ hn)

theorem nonRooted_fold_subset (t : Tree) :
    ∀ (l : List Node) (nr : List String),
      nr ⊆ l.foldl (fun nr node =>
          if t.underRoot node.id then nr
          else markNonRooted t.parentOf (t.nodes.length + 1) nr (some node.id)) nr := by
  intro l
  induction l with
  | nil => intro nr; exact List.Subset.refl _
  | cons a l ih =>
    intro nr
    simp only [List.foldl_cons]
    refine List.Subset.trans ?_ (ih _)
    split
    · exact List.Subset.refl _
    · exact markNonRooted_subset _ _ _ _

theorem nonRooted_fold_mem (t : Tree) :
    ∀ (l : List Node) (nr : List String) (n : Node), n ∈ l → t.underRoot n.id = false →
      n.id ∈ l.foldl (fun nr node =>
          if t.underRoot node.id then nr
          else markNonRooted t.parentOf (t.nodes.length + 1) nr (some node.id)) nr := by
  intro l
  induction l with
  | nil => intro nr n hn; cases hn
  | cons a l ih =>
    intro nr n hn hu
    simp only [List.foldl_cons]
    rcases List.mem_cons.mp hn with rfl | hn
    · apply nonRooted_fold_subset
      rw [hu]
      exact markNonRooted_mem_start _ _ _ _
    · exact ih _ n hn hu

theorem nonRooted_fold_nodup (t : Tree) :
    ∀ (l : List Node) (nr : List String), nr.Nodup →
      (l.foldl (fun nr node =>
          if t.underRoot node.id then nr
          else markNonRooted t.parentOf (t.nodes.length + 1) nr (some node.id)) nr).Nodup := by
  intro l
  induction l with
  | nil => intro nr h; exact h
  | cons a l ih =>
    intro nr h
    simp only [List.foldl_cons]
    apply ih
    split
    · exact h
    · exact markNonRooted_nodup _ _ _ _ h

theorem nonRootedNodes_nodup (t : Tree) : (nonRootedNodes t).Nodup :=
  nonRooted_fold_nodup t _ _ List.nodup_nil

/-- Every node that fails the test of line 213 is in the set. -/
theorem mem_nonRootedNodes_of_not_under (t : Tree) {x : String} (hx : x ∈ t.ids)
    (hu : t.underRoot x = false) : x ∈ nonRootedNodes t := by
  unfold Tree.ids at hx
  obtain ⟨n, hn, rfl⟩ := List.mem_map.mp hx
  exact nonRooted_fold_mem t _ _ n hn hu

/-- The set holds only nodes of the tree that do not reach the root. -/
theorem nonRootedNodes_spec (t : Tree) (hp : parentsWithin t.parentOf t.ids) :
    ∀ y ∈ nonRootedNodes t, y ∈ t.ids ∧ ¬ reaches t.parentOf y ROOT := by
  apply nonRooted_fold_forall t (fun y => y ∈ t.ids ∧ ¬ reaches t.parentOf y ROOT)
  · intro x p hx hxp
    exact ⟨hp x p hxp, fun h => hx.2 (reaches_of_parent _ hxp h)⟩
  · intro y hy; cases hy
  · intro n hn hu
    have hmem : n.id ∈ t.ids := List.mem_map.mpr ⟨n, hn, rfl⟩
    refine ⟨hmem, fun h => ?_⟩
    rw [(underRoot_iff t hp hmem).mpr h] at hu
    cases hu

/-- Phase 2 computes the nodes of the tree that do not reach the root. -/
theorem mem_nonRootedNodes_iff (t : Tree) (hp : parentsWithin t.parentOf t.ids) (x : String) :
    x ∈ nonRootedNodes t ↔ x ∈ t.ids ∧ ¬ reaches t.parentOf x ROOT := by
  constructor
  · exact nonRootedNodes_spec t hp x
  · rintro ⟨hx, hr⟩
    apply mem_nonRootedNodes_of_not_under t hx
    cases hu : t.underRoot x
    · rfl
    · exact absurd ((underRoot_iff t hp hx).mp hu) hr


/-! ## Phase 3: reattachment -/

theorem Rooted.reaches {par : String → Option String} {nr : List String} {x : String}
    (h : Rooted par nr x) : reaches par x ROOT := by
  induction h with
  | root => exact reaches_refl par ROOT
  | step _ hp _ ih => exact reaches_of_parent par hp ih

theorem Rooted.mono {par par' : String → Option String} {nr nr' : List String} {x : String}
    (h : Rooted par nr x) (hpar : ∀ y, y ∉ nr → par' y = par y) (hsub : nr' ⊆ nr) :
    Rooted par' nr' x := by
  induction h with
  | root => exact Rooted.root
  | step hx hp _ ih =>
    exact Rooted.step (fun h' => hx (hsub h')) (by rw [hpar _ hx]; exact hp) ih

/-- A node whose walk to the root stays clear of `nr` is rooted. -/
theorem rooted_of_walk {par : String → Option String} {nr : List String}
    (hclear : ∀ y, reaches par y ROOT → y ∉ nr) :
    ∀ (k : Nat) (x : String), walk par k x = some ROOT → Rooted par nr x := by
  intro k
  induction k with
  | zero =>
    intro x h
    simp only [walk, Option.some.injEq] at h
    exact h ▸ Rooted.root
  | succ k ih =>
    intro x h
    have hx : x ∉ nr := hclear x ⟨k + 1, h⟩
    simp only [walk] at h
    cases hp : par x with
    | none => rw [hp] at h; cases h
    | some p =>
      rw [hp] at h
      exact Rooted.step hx hp (ih p h)

/-! ### The seed loop -/

theorem seedEdge_inv (t0 : Tree) (nr : List String) (child : String) (q : Queues)
    (e : String × Int) (hq : QueueInv t0 nr nr q) (hc : child ∈ nr)
    (he : e ∈ t0.edgesOf child) : QueueInv t0 nr nr (seedEdge nr child q e) := by
  unfold seedEdge
  split
  · next hin =>
    refine ⟨hq.ready_ok, ?_⟩
    intro k x hx
    simp only at hx
    split at hx
    · next hk =>
      rcases List.mem_append.mp hx with hx | hx
      · exact hq.deferred_ok k x hx
      · rw [List.mem_singleton.mp hx]
        exact ⟨hc, he, hk.symm⟩
    · exact hq.deferred_ok k x hx
  · next hout =>
    refine ⟨?_, hq.deferred_ok⟩
    intro x hx
    simp only at hx
    rcases (mem_heapPush _ _ _).mp hx with rfl | hx
    · exact ⟨hc, he, hout⟩
    · exact hq.ready_ok x hx

theorem seedEdges_inv (t0 : Tree) (nr : List String) (child : String) (hc : child ∈ nr) :
    ∀ (es : List (String × Int)) (q : Queues), (∀ e ∈ es, e ∈ t0.edgesOf child) →
      QueueInv t0 nr nr q → QueueInv t0 nr nr (es.foldl (seedEdge nr child) q) := by
  intro es
  induction es with
  | nil => intro q _ hq; exact hq
  | cons e es ih =>
    intro q hes hq
    simp only [List.foldl_cons]
    exact ih _ (fun e' he' => hes e' (List.mem_cons_of_mem _ he'))
      (seedEdge_inv t0 nr child q e hq hc (hes e (List.mem_cons_self _ _)))

theorem seed_fold_inv (t0 : Tree) (nr : List String) :
    ∀ (l : List String) (q : Queues), l ⊆ nr → QueueInv t0 nr nr q →
      QueueInv t0 nr nr
        (l.foldl (fun q child => (t0.edgesOf child).foldl (seedEdge nr child) q) q) := by
  intro l
  induction l with
  | nil => intro q _ hq; exact hq
  | cons c l ih =>
    intro q hl hq
    simp only [List.foldl_cons]
    exact ih _ (fun x hx => hl (List.mem_cons_of_mem _ hx))
      (seedEdges_inv t0 nr c (hl (List.mem_cons_self _ _)) _ _ (fun _ h => h) hq)

theorem seed_inv (t0 : Tree) (nr : List String) : QueueInv t0 nr nr (seed t0 nr) := by
  unfold seed
  apply seed_fold_inv t0 nr nr _ (List.Subset.refl _)
  exact ⟨fun e he => (by cases he), fun k e he => (by cases he)⟩

/-! ### The reattachment loop -/

theorem reattachLoop_inv (t0 : Tree) (nr0 : List String) (hids : nr0 ⊆ t0.ids)
    (hclosed : t0.edgesClosed) (fuel : Nat) :
    ∀ (t : Tree) (nr : List String) (q : Queues), TreeInv t0 nr0 t nr → QueueInv t0 nr0 nr q →
      TreeInv t0 nr0 (reattachLoop fuel t nr q.deferred q.ready).1
        (reattachLoop fuel t nr q.deferred q.ready).2 := by
  induction fuel with
  | zero => intro t nr q ht _; exact ht
  | succ fuel ih =>
    intro t nr q ht hq
    unfold reattachLoop
    cases hpop : heapPop q.ready with
    | none => exact ht
    | some val =>
      obtain ⟨top, ready1⟩ := val
      have hperm := heapPop_perm hpop
      have htop : top ∈ q.ready := hperm.mem_iff.mpr (List.mem_cons_self _ _)
      have hrest : ∀ e ∈ ready1, e ∈ q.ready :=
        fun e he => hperm.mem_iff.mpr (List.mem_cons_of_mem _ he)
      obtain ⟨htc, hte, htp⟩ := hq.ready_ok top htop
      simp only
      split
      · next hin =>
        -- the child is reattached
        have hcid : top.child ∈ t0.ids := hids htc
        have hcid' : top.child ∈ t.ids := by rw [ids_congr ht.skel]; exact hcid
        have hnd : top.child ∉ nr.erase top.child := ht.nodup.not_mem_erase
        have hpar : ∀ y, y ≠ top.child →
            (t.setParent top.child top.parent).parentOf y = t.parentOf y := by
          intro y hy
          rw [setParent_parentOf, if_neg (fun h => hy h.1)]
        have hparc : (t.setParent top.child top.parent).parentOf top.child = some top.parent := by
          rw [setParent_parentOf, if_pos ⟨rfl, hcid'⟩]
        have hmemerase : ∀ y, y ≠ top.child → (y ∈ nr.erase top.child ↔ y ∈ nr) :=
          fun y hy => List.mem_erase_of_ne hy
        apply ih (t.setParent top.child top.parent) (nr.erase top.child)
          ⟨(q.deferred top.child).foldl heapPush ready1, q.deferred⟩
        · refine ⟨?_, ?_, ?_, ?_, ?_, ?_, ?_⟩
          · rw [setParent_skel]; exact ht.skel
          · exact fun x hx => ht.sub (List.mem_of_mem_erase hx)
          · exact ht.nodup.erase _
          · intro x hx
            rw [hpar x (fun h => hx (h ▸ htc))]
            exact ht.keep_out x hx
          · intro x hx
            have hne : x ≠ top.child := fun h => hnd (h ▸ hx)
            rw [hpar x hne]
            exact ht.keep_in x ((hmemerase x hne).mp hx)
          · intro x hx hxn
            by_cases hxc : x = top.child
            · subst hxc
              refine Rooted.step hxn hparc ?_
              have hpid : top.parent ∈ t0.ids := hclosed _ _ _ hte
              exact (ht.rooted top.parent hpid htp).mono
                (fun y hy => hpar y (fun h => hy (h ▸ hin)))
                (fun y hy => List.mem_of_mem_erase hy)
            · have hxn' : x ∉ nr := fun h => hxn ((hmemerase x hxc).mpr h)
              exact (ht.rooted x hx hxn').mono
                (fun y hy => hpar y (fun h => hy (h ▸ hin)))
                (fun y hy => List.mem_of_mem_erase hy)
          · intro x hx hxn
            by_cases hxc : x = top.child
            · subst hxc
              exact ⟨top.parent, top.counter, hparc, hte⟩
            · have hxn' : x ∉ nr := fun h => hxn ((hmemerase x hxc).mpr h)
              rw [hpar x hxc]
              exact ht.changed x hx hxn'
        · refine ⟨?_, hq.deferred_ok⟩
          intro e he
          simp only at he
          rcases List.mem_append.mp ((foldl_heapPush_perm _ _).mem_iff.mp he) with he | he
          · obtain ⟨h1, h2, h3⟩ := hq.deferred_ok top.child e he
            exact ⟨h1, h2, h3 ▸ hnd⟩
          · obtain ⟨h1, h2, h3⟩ := hq.ready_ok e (hrest e he)
            exact ⟨h1, h2, fun h => h3 (List.mem_of_mem_erase h)⟩
      · exact ih t nr ⟨ready1, q.deferred⟩ ht
          ⟨fun e he => hq.ready_ok e (hrest e he), hq.deferred_ok⟩


/-! ## The recomputation as a whole -/

theorem phase3_inv (t0 : Tree) (hp : parentsWithin t0.parentOf t0.ids)
    (hclosed : t0.edgesClosed) :
    TreeInv t0 (nonRootedNodes t0) (phase3 t0 (nonRootedNodes t0)).1
      (phase3 t0 (nonRootedNodes t0)).2 := by
  have hspec := nonRootedNodes_spec t0 hp
  have hinit : TreeInv t0 (nonRootedNodes t0) t0 (nonRootedNodes t0) := by
    refine ⟨rfl, List.Subset.refl _, nonRootedNodes_nodup t0, fun _ _ => rfl, fun _ _ => rfl,
      ?_, fun x h1 h2 => absurd h1 h2⟩
    intro x hx hxn
    have hr : reaches t0.parentOf x ROOT := by
      by_contra hr
      exact hxn ((mem_nonRootedNodes_iff t0 hp x).mpr ⟨hx, hr⟩)
    obtain ⟨k, hk⟩ := hr
    exact rooted_of_walk (fun y hy hyn => (hspec y hyn).2 hy) k x hk
  unfold phase3
  split
  · exact reattachLoop_inv t0 _ (fun y hy => (hspec y hy).1) hclosed _ _ _ _ hinit
      (seed_inv t0 _)
  · exact hinit

theorem phase1_edgesClosed {u : Tree} (h : u.edgesClosed) : (phase1 u).edgesClosed := by
  intro x k c hk
  rw [edgesOf_congr (phase1_skel u)] at hk
  rw [phase1_ids]
  exact h x k c hk

/-- The invariant of phase 3 at the end of the recomputation of `u`. -/
theorem recompute_inv (u : Tree) (hclosed : u.edgesClosed) :
    TreeInv (phase1 u) (nonRootedNodes (phase1 u))
      (phase3 (phase1 u) (nonRootedNodes (phase1 u))).1 u.island :=
  phase3_inv (phase1 u) (phase1_parentsWithin u) (phase1_edgesClosed hclosed)

theorem recompute_parentOf (u : Tree) (x : String) :
    u.recomputeParentsAndChildren.parentOf x =
      (phase3 (phase1 u) (nonRootedNodes (phase1 u))).1.parentOf x := by
  unfold Tree.recomputeParentsAndChildren
  exact phase4_parentOf _ _

/-- Nodes that phase 2 classifies as rooted keep the parent of phase 1. -/
theorem recompute_parentOf_of_rooted (u : Tree) (hclosed : u.edgesClosed) {x : String}
    (hx : x ∉ nonRootedNodes (phase1 u)) :
    u.recomputeParentsAndChildren.parentOf x = (phase1 u).parentOf x := by
  rw [recompute_parentOf]
  exact (recompute_inv u hclosed).keep_out x hx

/-- Nodes left in `nonRootedNodes` keep the parent of phase 1. -/
theorem recompute_parentOf_of_island (u : Tree) (hclosed : u.edgesClosed) {x : String}
    (hx : x ∈ u.island) :
    u.recomputeParentsAndChildren.parentOf x = (phase1 u).parentOf x := by
  rw [recompute_parentOf]
  exact (recompute_inv u hclosed).keep_in x hx

/-- Reattached nodes have a parent taken from their own edge map. -/
theorem recompute_parentOf_of_reattached (u : Tree) (hclosed : u.edgesClosed) {x : String}
    (hx : x ∈ nonRootedNodes (phase1 u)) (hxi : x ∉ u.island) :
    ∃ p c, u.recomputeParentsAndChildren.parentOf x = some p ∧ (p, c) ∈ u.edgesOf x := by
  obtain ⟨p, c, h1, h2⟩ := (recompute_inv u hclosed).changed x hx hxi
  rw [edgesOf_congr (phase1_skel u)] at h2
  exact ⟨p, c, by rw [recompute_parentOf]; exact h1, h2⟩

theorem island_subset (u : Tree) (hclosed : u.edgesClosed) :
    u.island ⊆ nonRootedNodes (phase1 u) := (recompute_inv u hclosed).sub

/-- After the recomputation parent pointers point to nodes of the tree. -/
theorem recompute_parentsWithin (u : Tree) (hclosed : u.edgesClosed) :
    parentsWithin u.recomputeParentsAndChildren.parentOf u.ids := by
  intro x p h
  by_cases h1 : x ∈ nonRootedNodes (phase1 u)
  · by_cases h2 : x ∈ u.island
    · rw [recompute_parentOf_of_island u hclosed h2] at h
      have := phase1_parentsWithin u x p h
      rwa [phase1_ids] at this
    · obtain ⟨p', c, h3, h4⟩ := recompute_parentOf_of_reattached u hclosed h1 h2
      rw [h] at h3
      cases h3
      exact hclosed x p c h4
  · rw [recompute_parentOf_of_rooted u hclosed h1] at h
    have := phase1_parentsWithin u x p h
    rwa [phase1_ids] at this

/-- After the recomputation every node outside the island reaches the root,
in fewer steps than the tree has nodes. -/
theorem recompute_reaches_root (u : Tree) (hclosed : u.edgesClosed) {x : String}
    (hx : x ∈ u.ids) (hxi : x ∉ u.island) :
    ∃ k, k < u.ids.length ∧ walk u.recomputeParentsAndChildren.parentOf k x = some ROOT := by
  have hr : reaches u.recomputeParentsAndChildren.parentOf x ROOT := by
    have := ((recompute_inv u hclosed).rooted x (by rw [phase1_ids]; exact hx) hxi).reaches
    obtain ⟨k, hk⟩ := this
    refine ⟨k, ?_⟩
    have e : u.recomputeParentsAndChildren.parentOf =
        (phase3 (phase1 u) (nonRootedNodes (phase1 u))).1.parentOf :=
      funext (recompute_parentOf u)
    rw [e]; exact hk
  exact reaches_bounded _ (recompute_parentsWithin u hclosed) hx hr

/-! ## Reachable states -/

theorem applyAll_append (s : Replica) (ops : List Op) (op : Op) :
    s.applyAll (ops ++ [op]) = (s.applyAll ops).apply op := by
  simp [Replica.applyAll, List.foldl_append]

/-- Induction over the reachable states. -/
theorem reachable_induction (P : Replica → Prop) (h0 : ∀ peer, P (newReplica peer))
    (hstep : ∀ s op, reachable s → P s → P (s.apply op)) : ∀ s, reachable s → P s := by
  rintro s ⟨peer, ops, rfl⟩
  induction ops using List.reverseRecOn with
  | nil => exact h0 peer
  | append_singleton ops op ih =>
    rw [applyAll_append]
    exact hstep _ op ⟨peer, ops, rfl⟩ ih

theorem ensure_edgesOf (t : Tree) (id x : String) : (t.ensure id).edgesOf x = t.edgesOf x := by
  rw [edgesOf_eq_skel, edgesOf_eq_skel, ensure_skel]
  split
  · rfl
  · next h =>
    rw [List.find?_append]
    cases hf : List.find? (fun p => decide (p.1 = x)) t.skel with
    | some p => rfl
    | none =>
      by_cases hx : id = x
      · simp [hx]
      · simp [hx]

theorem updateEdge_edgesOf (t : Tree) (op : Op) (x : String) :
    (t.updateEdge op).edgesOf x =
      if x = op.ID ∧ x ∈ t.ids then updEdges op (t.edgesOf x) else t.edgesOf x := by
  unfold Tree.edgesOf
  have : (t.updateEdge op).node x =
      (t.node x).map fun n =>
        if n.id = op.ID then { n with edges := updEdges op n.edges } else n := by
    unfold Tree.node Tree.updateEdge
    exact find_map_id
      (fun n => if n.id = op.ID then { n with edges := updEdges op n.edges } else n)
      (fun n => by show (if n.id = op.ID then _ else _ : Node).id = _; split <;> rfl) t.nodes x
  rw [this]
  cases h : t.node x with
  | none => simp [(node_eq_none_iff t x).mp h]
  | some n =>
    have hx : x ∈ t.ids := (node_isSome_iff t x).mp (by rw [h]; rfl)
    have hid : n.id = x := (node_mem h).2
    by_cases hc : x = op.ID
    · simp [hc, hid ▸ hc, hc ▸ hx]
    · simp [hc, hid ▸ hc]

theorem mem_edgesSet {es : List (String × Int)} {k : String} {v : Int} {e : String × Int}
    (h : e ∈ edgesSet es k v) : e ∈ es ∨ e = (k, v) := by
  induction es with
  | nil => simp only [edgesSet, List.mem_singleton] at h; exact Or.inr h
  | cons a es ih =>
    obtain ⟨k', v'⟩ := a
    simp only [edgesSet] at h
    split at h
    · rcases List.mem_cons.mp h with h | h
      · exact Or.inr h
      · exact Or.inl (List.mem_cons_of_mem _ h)
    · rcases List.mem_cons.mp h with h | h
      · exact Or.inl (h ▸ List.mem_cons_self _ _)
      · rcases ih h with h | h
        · exact Or.inl (List.mem_cons_of_mem _ h)
        · exact Or.inr h

theorem mem_updEdges {op : Op} {es : List (String × Int)} {e : String × Int}
    (h : e ∈ updEdges op es) : e ∈ es ∨ e = (op.Key, op.Value) := by
  unfold updEdges at h
  split at h
  · exact Or.inl (List.mem_of_mem_filter h)
  · exact mem_edgesSet h

/-- The edge map of a node after the observer has run. -/
theorem afterApply_edgesOf (t : Tree) (op : Op) (x : String) :
    (t.afterApply op).edgesOf x =
      if x = op.ID then updEdges op (t.edgesOf x) else t.edgesOf x := by
  rw [edgesOf_congr (afterApply_skel t op), updateEdge_edgesOf, ensure_edgesOf, ensure_edgesOf]
  by_cases h : x = op.ID
  · have : x ∈ ((t.ensure op.ID).ensure op.Key).ids := by
      rw [mem_ensure_ids, mem_ensure_ids]; exact Or.inl (Or.inr h)
    simp [h, h ▸ this]
  · simp [h]

theorem mem_afterApply_ids (t : Tree) (op : Op) (x : String) :
    x ∈ (t.afterApply op).ids ↔ x ∈ t.ids ∨ x = op.ID ∨ x = op.Key := by
  rw [afterApply_ids, mem_ensure_ids, mem_ensure_ids, or_assoc]

theorem afterApply_edgesClosed (t : Tree) (op : Op) (h : t.edgesClosed) :
    (t.afterApply op).edgesClosed := by
  intro x k c hk
  rw [afterApply_edgesOf] at hk
  rw [mem_afterApply_ids]
  split at hk
  · rcases mem_updEdges hk with hk | hk
    · exact Or.inl (h x k c hk)
    · exact Or.inr (Or.inr (congrArg Prod.fst hk))
  · exact Or.inl (h x k c hk)

theorem newTree_edgesClosed : newTree.edgesClosed := by
  intro x k c hk
  unfold Tree.edgesOf Tree.node newTree at hk
  simp only [List.find?_cons, List.find?_nil] at hk
  split at hk
  · next n hn =>
    split at hn
    · cases hn; simp [newNodeWithID] at hk
    · cases hn
  · cases hk

theorem reachable_edgesClosed {s : Replica} (h : reachable s) : s.tree.edgesClosed :=
  reachable_induction (fun s => s.tree.edgesClosed) (fun _ => newTree_edgesClosed)
    (fun s op _ ih => afterApply_edgesClosed s.tree op ih) s h

theorem reachable_root_mem {s : Replica} (h : reachable s) : ROOT ∈ s.tree.ids :=
  reachable_induction (fun s => ROOT ∈ s.tree.ids)
    (fun _ => (by decide : ROOT ∈ newTree.ids))
    (fun s op _ ih => (mem_afterApply_ids s.tree op ROOT).mpr (Or.inl ih)) s h

/-- A reachable tree is the recomputation of itself. -/
theorem reachable_recompute {s : Replica} (h : reachable s) :
    s.tree.recomputeParentsAndChildren = s.tree :=
  reachable_induction (fun s => s.tree.recomputeParentsAndChildren = s.tree)
    (fun _ => (by decide : newTree.recomputeParentsAndChildren = newTree))
    (fun s op _ _ => recompute_idem _) s h


/-! ## Unique ids and child lists -/

theorem ensure_ids_nodup (t : Tree) (id : String) (h : t.ids.Nodup) : (t.ensure id).ids.Nodup := by
  rw [ensure_ids]
  split
  · exact h
  · next hn =>
    rw [List.nodup_append]
    refine ⟨h, List.nodup_singleton _, ?_⟩
    intro a ha hb
    rw [List.mem_singleton] at hb
    exact hn (hb ▸ ha)

theorem afterApply_ids_nodup (t : Tree) (op : Op) (h : t.ids.Nodup) :
    (t.afterApply op).ids.Nodup := by
  rw [afterApply_ids]
  exact ensure_ids_nodup _ _ (ensure_ids_nodup _ _ h)

theorem reachable_ids_nodup {s : Replica} (h : reachable s) : s.tree.ids.Nodup :=
  reachable_induction (fun s => s.tree.ids.Nodup)
    (fun _ => (by decide : newTree.ids.Nodup))
    (fun s op _ ih => afterApply_ids_nodup s.tree op ih) s h

/-- With unique ids, a node of the tree is the node stored under its id. -/
theorem node_of_mem {t : Tree} (hnd : t.ids.Nodup) {n : Node} (hn : n ∈ t.nodes) :
    t.node n.id = some n := by
  have key : ∀ l : List Node, (l.map fun n => n.id).Nodup → n ∈ l →
      l.find? (fun m => m.id = n.id) = some n := by
    intro l
    induction l with
    | nil => intro _ hn; cases hn
    | cons a l ih =>
      intro hnd hn
      rw [List.map_cons, List.nodup_cons] at hnd
      rw [List.find?_cons]
      rcases List.mem_cons.mp hn with rfl | hn'
      · simp
      · have hne : a.id ≠ n.id := fun h => hnd.1 (h ▸ List.mem_map_of_mem _ hn')
        simp only [hne, decide_False]
        exact ih hnd.2 hn'
  exact key t.nodes hnd hn

theorem parentOf_of_mem {t : Tree} (hnd : t.ids.Nodup) {n : Node} (hn : n ∈ t.nodes) :
    t.parentOf n.id = n.parent := by
  unfold Tree.parentOf; rw [node_of_mem hnd hn]

theorem mem_sortIds (ids : List String) (x : String) : x ∈ sortIds ids ↔ x ∈ ids :=
  (List.perm_insertionSort _ ids).mem_iff

/-- Phase 4: the children of a node are the nodes whose parent it is. -/
theorem phase4_children (t : Tree) {n : Node} (hn : n ∈ (phase4 t).nodes) (c : String) :
    c ∈ n.children ↔ ∃ m ∈ t.nodes, m.id = c ∧ m.parent = some n.id := by
  unfold phase4 at hn
  obtain ⟨n0, _, rfl⟩ := List.mem_map.mp hn
  simp only [mem_sortIds, List.mem_map, List.mem_filter, decide_eq_true_eq]
  constructor
  · rintro ⟨m, ⟨hm, hp⟩, rfl⟩; exact ⟨m, hm, rfl, hp⟩
  · rintro ⟨m, hm, rfl, hp⟩; exact ⟨m, ⟨hm, hp⟩, rfl⟩

/-- After the recomputation, with unique ids: `c` is in the children of the
node `n` exactly when `c` is a node whose parent is `n`. -/
theorem recompute_children (u : Tree) (hnd : u.ids.Nodup) {n : Node}
    (hn : n ∈ u.recomputeParentsAndChildren.nodes) (c : String) :
    c ∈ n.children ↔
      c ∈ u.ids ∧ u.recomputeParentsAndChildren.parentOf c = some n.id := by
  unfold Tree.recomputeParentsAndChildren at hn
  rw [phase4_children _ hn, recompute_parentOf]
  have hids : (phase3 (phase1 u) (nonRootedNodes (phase1 u))).1.ids = u.ids := by
    rw [ids_congr (phase3_skel _ _), phase1_ids]
  have hnd3 : (phase3 (phase1 u) (nonRootedNodes (phase1 u))).1.ids.Nodup := hids ▸ hnd
  constructor
  · rintro ⟨m, hm, rfl, hp⟩
    exact ⟨hids ▸ List.mem_map_of_mem _ hm, by rw [parentOf_of_mem hnd3 hm]; exact hp⟩
  · rintro ⟨hc, hp⟩
    rw [← hids] at hc
    obtain ⟨m, hm, rfl⟩ := List.mem_map.mp hc
    exact ⟨m, hm, rfl, by rw [← parentOf_of_mem hnd3 hm]; exact hp⟩

/-! ## The root -/

theorem edgeWithLargestCounter_nil : edgeWithLargestCounter [] = "" := rfl

theorem root_not_nonRooted (t : Tree) (hp : parentsWithin t.parentOf t.ids) :
    ROOT ∉ nonRootedNodes t :=
  fun h => (nonRootedNodes_spec t hp ROOT h).2 (reaches_refl _ ROOT)

/-- The parent of the root after the recomputation is the entry of
`tree.nodes` under the root's `edgeWithLargestCounter`. -/
theorem recompute_parentOf_root (u : Tree) (hclosed : u.edgesClosed) (hroot : ROOT ∈ u.ids) :
    u.recomputeParentsAndChildren.parentOf ROOT =
      u.lookup (edgeWithLargestCounter (u.edgesOf ROOT)) := by
  rw [recompute_parentOf_of_rooted u hclosed (root_not_nonRooted _ (phase1_parentsWithin u)),
    phase1_parentOf, if_pos hroot]

/-- Induction over the ops applied to a fresh replica, all of which satisfy `Q`. -/
theorem applyAll_induction (P : Replica → Prop) (Q : Op → Prop) (peer : String)
    (h0 : P (newReplica peer))
    (hstep : ∀ s op, reachable s → Q op → P s → P (s.apply op)) :
    ∀ ops : List Op, (∀ o ∈ ops, Q o) → P ((newReplica peer).applyAll ops) := by
  intro ops
  induction ops using List.reverseRecOn with
  | nil => intro _; exact h0
  | append_singleton ops op ih =>
    intro hq
    rw [applyAll_append]
    exact hstep _ op ⟨peer, ops, rfl⟩ (hq op (by simp))
      (ih (fun o ho => hq o (List.mem_append_left _ ho)))

/-- Without ops on the root and without the empty identifier, the root keeps
an empty edge map and the empty identifier names no node. -/
theorem root_edges_empty (peer : String) (ops : List Op)
    (h : ∀ o ∈ ops, o.ID ≠ ROOT ∧ o.ID ≠ "" ∧ o.Key ≠ "") :
    ((newReplica peer).applyAll ops).tree.edgesOf ROOT = [] ∧
    "" ∉ ((newReplica peer).applyAll ops).tree.ids := by
  apply applyAll_induction (fun s => s.tree.edgesOf ROOT = [] ∧ "" ∉ s.tree.ids)
    (fun o => o.ID ≠ ROOT ∧ o.ID ≠ "" ∧ o.Key ≠ "") peer _ _ ops h
  · exact ⟨(by decide : newTree.edgesOf ROOT = []), (by decide : "" ∉ newTree.ids)⟩
  · intro s op _ hq ih
    constructor
    · show (s.tree.afterApply op).edgesOf ROOT = []
      rw [afterApply_edgesOf, if_neg (fun h' => hq.1 h'.symm)]
      exact ih.1
    · show "" ∉ (s.tree.afterApply op).ids
      rw [mem_afterApply_ids]
      rintro (h' | h' | h')
      · exact ih.2 h'
      · exact hq.2.1 h'.symm
      · exact hq.2.2 h'.symm

theorem root_parent_none (peer : String) (ops : List Op)
    (h : ∀ o ∈ ops, o.ID ≠ ROOT ∧ o.ID ≠ "" ∧ o.Key ≠ "") :
    ((newReplica peer).applyAll ops).tree.parentOf ROOT = none := by
  have hr : reachable ((newReplica peer).applyAll ops) := ⟨peer, ops, rfl⟩
  obtain ⟨h1, h2⟩ := root_edges_empty peer ops h
  rw [← reachable_recompute hr,
    recompute_parentOf_root _ (reachable_edgesClosed hr) (reachable_root_mem hr), h1,
    edgeWithLargestCounter_nil]
  unfold Tree.lookup
  rw [if_neg (fun h' => h2 ((Tree.has_iff _ _).mp h'))]

theorem root_not_child (peer : String) (ops : List Op)
    (h : ∀ o ∈ ops, o.ID ≠ ROOT ∧ o.ID ≠ "" ∧ o.Key ≠ "") :
    ∀ n ∈ ((newReplica peer).applyAll ops).tree.nodes, ROOT ∉ n.children := by
  have hr : reachable ((newReplica peer).applyAll ops) := ⟨peer, ops, rfl⟩
  intro n hn hc
  have hfix := reachable_recompute hr
  rw [← hfix] at hn
  have := (recompute_children _ (reachable_ids_nodup hr) hn ROOT).mp hc
  rw [hfix, root_parent_none peer ops h] at this
  cases this.2


/-! ## The counter written by the planner -/

theorem maxCounter_fold_ge (es : List (String × Int)) :
    ∀ m : Int, m ≤ es.foldl (fun m e => if m < e.2 then e.2 else m) m ∧
      ∀ e ∈ es, e.2 ≤ es.foldl (fun m e => if m < e.2 then e.2 else m) m := by
  induction es with
  | nil => intro m; exact ⟨le_refl _, fun e he => by cases he⟩
  | cons a es ih =>
    intro m
    simp only [List.foldl_cons]
    obtain ⟨h1, h2⟩ := ih (if m < a.2 then a.2 else m)
    refine ⟨le_trans (by split <;> omega) h1, ?_⟩
    intro e he
    rcases List.mem_cons.mp he with rfl | he
    · exact le_trans (by split <;> omega) h1
    · exact h2 e he

theorem maxCounter_ge (es : List (String × Int)) : -1 ≤ maxCounter es :=
  (maxCounter_fold_ge es (-1)).1

theorem le_maxCounter {es : List (String × Int)} {e : String × Int} (h : e ∈ es) :
    e.2 ≤ maxCounter es :=
  (maxCounter_fold_ge es (-1)).2 e h

theorem maxCounter_fold_attained (es : List (String × Int)) :
    ∀ m : Int, es.foldl (fun m e => if m < e.2 then e.2 else m) m = m ∨
      ∃ e ∈ es, es.foldl (fun m e => if m < e.2 then e.2 else m) m = e.2 := by
  induction es with
  | nil => intro m; exact Or.inl rfl
  | cons a es ih =>
    intro m
    simp only [List.foldl_cons]
    rcases ih (if m < a.2 then a.2 else m) with h | ⟨e, he, h⟩
    · rw [h]
      split
      · exact Or.inr ⟨a, List.mem_cons_self _ _, rfl⟩
      · exact Or.inl rfl
    · exact Or.inr ⟨e, List.mem_cons_of_mem _ he, h⟩

theorem maxCounter_attained (es : List (String × Int)) :
    maxCounter es = -1 ∨ ∃ e ∈ es, maxCounter es = e.2 :=
  maxCounter_fold_attained es (-1)

/-- An entry whose counter is above -1 and above every other counter wins
`edgeWithLargestCounter`. -/
theorem largest_fold_of_strict_max {k : String} {v : Int} (es : List (String × Int))
    (hmax : ∀ e ∈ es, e = (k, v) ∨ e.2 < v) :
    ∀ acc : String × Int, (acc = (k, v) ∨ (acc.2 < v ∧ (k, v) ∈ es)) →
      es.foldl largestStep acc = (k, v) := by
  induction es with
  | nil =>
    intro acc h
    rcases h with h | ⟨_, h⟩
    · exact h
    · cases h
  | cons a es ih =>
    intro acc h
    simp only [List.foldl_cons]
    apply ih (fun e he => hmax e (List.mem_cons_of_mem _ he))
    rcases hmax a (List.mem_cons_self _ _) with ha | ha
    · left
      rcases h with h | ⟨h, _⟩
      · subst h ha
        unfold largestStep
        simp
      · subst ha
        unfold largestStep
        simp [h]
    · rcases h with h | ⟨h, hm⟩
      · left
        subst h
        unfold largestStep
        have h1 : ¬ (a.2 > v) := by omega
        have h2 : ¬ (a.2 = v) := by omega
        simp [h1, h2]
      · right
        have hm' : (k, v) ∈ es := by
          rcases List.mem_cons.mp hm with hm | hm
          · rw [← hm] at ha; simp at ha
          · exact hm
        refine ⟨?_, hm'⟩
        unfold largestStep
        split
        · exact ha
        · exact h

theorem mem_edgesSet_self (es : List (String × Int)) (k : String) (v : Int) :
    (k, v) ∈ edgesSet es k v := by
  induction es with
  | nil => simp [edgesSet]
  | cons a es ih =>
    obtain ⟨k', v'⟩ := a
    simp only [edgesSet]
    split
    · exact List.mem_cons_self _ _
    · exact List.mem_cons_of_mem _ ih

/-- The planner's counter makes its edge the largest one. -/
theorem edgeWithLargestCounter_edgesSet (es : List (String × Int)) (k : String) :
    edgeWithLargestCounter (edgesSet es k (maxCounter es + 1)) = k := by
  unfold edgeWithLargestCounter
  rw [largest_fold_of_strict_max (k := k) (v := maxCounter es + 1)]
  · intro e he
    rcases mem_edgesSet he with he | he
    · right; have := le_maxCounter he; omega
    · left; exact he
  · right
    exact ⟨by have := maxCounter_ge es; simp only; omega, mem_edgesSet_self _ _ _⟩

theorem wrapInt64_of_range (x : Int) (h1 : minInt64 ≤ x) (h2 : x ≤ maxInt64) :
    wrapInt64 x = x := by
  unfold wrapInt64; unfold minInt64 at h1; unfold maxInt64 at h2
  omega

/-! ## One edit of the planner -/

theorem setValueOp_ID (db : DB) (k : IdKey) (v now : Int) : (db.setValueOp k v now).ID = k.ID := by
  unfold DB.setValueOp
  cases db.getTimestamp k with
  | mk ts b => cases b <;> rfl

theorem setValueOp_Key (db : DB) (k : IdKey) (v now : Int) :
    (db.setValueOp k v now).Key = k.Key := by
  unfold DB.setValueOp
  cases db.getTimestamp k with
  | mk ts b => cases b <;> rfl

theorem setValueOp_Value (db : DB) (k : IdKey) (v now : Int) :
    (db.setValueOp k v now).Value = v := by
  unfold DB.setValueOp
  cases db.getTimestamp k with
  | mk ts b => cases b <;> rfl

theorem applyEdit_reachable {s : Replica} (h : reachable s) (e : Edit) (now : Int) :
    reachable (s.applyEdit e now) := by
  obtain ⟨peer, ops, rfl⟩ := h
  exact ⟨peer, ops ++ [_], (applyAll_append _ _ _).symm⟩

theorem applyEdit_ids_subset (s : Replica) (e : Edit) (now : Int) :
    s.tree.ids ⊆ (s.applyEdit e now).tree.ids := by
  intro x hx
  exact (mem_afterApply_ids _ _ _).mpr (Or.inl hx)

/-- The edge map of a node after one edit, when the counter does not overflow. -/
theorem applyEdit_edgesOf (s : Replica) (e : Edit) (now : Int)
    (hb : s.tree.countersBelow 1) (x : String) :
    (s.applyEdit e now).tree.edgesOf x =
      if x = e.child then
        edgesSet (s.tree.edgesOf x) e.parent (maxCounter (s.tree.edgesOf x) + 1)
      else s.tree.edgesOf x := by
  show (s.tree.afterApply _).edgesOf x = _
  rw [afterApply_edgesOf, setValueOp_ID]
  by_cases hx : x = e.child
  · rw [if_pos hx, if_pos hx]
    subst hx
    have hm := maxCounter_ge (s.tree.edgesOf e.child)
    have hle : maxCounter (s.tree.edgesOf e.child) + 1 ≤ maxInt64 := by
      rcases maxCounter_attained (s.tree.edgesOf e.child) with h | ⟨a, ha, h⟩
      · rw [h]; unfold maxInt64; omega
      · rw [h]; exact hb.2 e.child a.1 a.2 ha
    have hw := wrapInt64_of_range _ (by unfold minInt64; omega) hle
    unfold updEdges
    rw [setValueOp_Value, setValueOp_Key, hw, if_neg (by omega)]
  · rw [if_neg hx, if_neg hx]

theorem applyEdit_cand (s : Replica) (e : Edit) (now : Int)
    (hb : s.tree.countersBelow 1) (x : String) :
    (s.applyEdit e now).tree.cand x = if x = e.child then e.parent else s.tree.cand x := by
  unfold Tree.cand
  rw [applyEdit_edgesOf s e now hb]
  split
  · exact edgeWithLargestCounter_edgesSet _ _
  · rfl

theorem applyEdit_countersBelow (s : Replica) (e : Edit) (now : Int) (n : Int) (hn : 0 ≤ n)
    (hb : s.tree.countersBelow (n + 1)) : (s.applyEdit e now).tree.countersBelow n := by
  have hb1 : s.tree.countersBelow 1 :=
    ⟨by unfold maxInt64; omega, fun x k c h => by have := hb.2 x k c h; omega⟩
  refine ⟨by have := hb.1; omega, ?_⟩
  intro x k c h
  rw [applyEdit_edgesOf s e now hb1] at h
  split at h
  · rcases mem_edgesSet h with h | h
    · have := hb.2 x k c h; omega
    · have hc : c = maxCounter (s.tree.edgesOf x) + 1 := congrArg Prod.snd h
      rcases maxCounter_attained (s.tree.edgesOf x) with h' | ⟨a, ha, h'⟩
      · rw [hc, h']; have := hb.1; omega
      · rw [hc, h']; have := hb.2 x a.1 a.2 ha; omega
  · have := hb.2 x k c h; omega


/-! ## The list of edits -/

theorem applyEdits_append (clock : Nat → Int) (es : List Edit) (e : Edit) :
    ∀ (s : Replica) (i : Nat),
      s.applyEdits clock i (es ++ [e]) =
        (s.applyEdits clock i es).applyEdit e (clock (i + es.length)) := by
  induction es with
  | nil => intro s i; simp [Replica.applyEdits]
  | cons a es ih =>
    intro s i
    show (s.applyEdit a (clock i)).applyEdits clock (i + 1) (es ++ [e]) = _
    rw [ih]
    show _ = ((s.applyEdit a (clock i)).applyEdits clock (i + 1) es).applyEdit e
      (clock (i + (es.length + 1)))
    rw [show i + 1 + es.length = i + (es.length + 1) by omega]

theorem applyEdits_reachable (clock : Nat → Int) (es : List Edit) :
    ∀ (s : Replica) (i : Nat), reachable s → reachable (s.applyEdits clock i es) := by
  induction es with
  | nil => intro s i h; exact h
  | cons a es ih =>
    intro s i h
    exact ih _ _ (applyEdit_reachable h a _)

theorem applyEdits_ids_subset (clock : Nat → Int) (es : List Edit) :
    ∀ (s : Replica) (i : Nat), s.tree.ids ⊆ (s.applyEdits clock i es).tree.ids := by
  induction es with
  | nil => intro s i; exact List.Subset.refl _
  | cons a es ih =>
    intro s i
    exact List.Subset.trans (applyEdit_ids_subset s a _) (ih _ _)

theorem applyEdits_countersBelow (clock : Nat → Int) (es : List Edit) :
    ∀ (s : Replica) (i : Nat) (n : Int), 0 ≤ n → s.tree.countersBelow (n + es.length) →
      (s.applyEdits clock i es).tree.countersBelow n := by
  induction es with
  | nil => intro s i n _ h; simpa using h
  | cons a es ih =>
    intro s i n hn h
    apply ih _ _ n hn
    apply applyEdit_countersBelow _ _ _ _ (by omega)
    have : n + ((a :: es).length : Int) = n + (es.length : Int) + 1 := by
      simp only [List.length_cons]; push_cast; ring
    rw [this] at h
    exact h

/-- After a list of edits, a node all of whose edits name the parent `p` has
the candidate parent `p`, provided it had it before or has an edit. -/
theorem applyEdits_cand (clock : Nat → Int) (x p : String) (es : List Edit) :
    ∀ (s : Replica) (i : Nat), s.tree.countersBelow es.length →
      (∀ e ∈ es, e.child = x → e.parent = p) →
      (s.tree.cand x = p ∨ ∃ e ∈ es, e.child = x) →
      (s.applyEdits clock i es).tree.cand x = p := by
  induction es with
  | nil =>
    intro s i _ _ h
    rcases h with h | ⟨e, he, _⟩
    · exact h
    · cases he
  | cons a es ih =>
    intro s i hb hall h
    have hb' : s.tree.countersBelow ((es.length : Int) + 1) := by
      simpa using hb
    have hb1 : s.tree.countersBelow 1 :=
      ⟨by unfold maxInt64; omega, fun y k c hy => by have := hb'.2 y k c hy; omega⟩
    apply ih _ _ (applyEdit_countersBelow s a _ _ (by omega) hb')
      (fun e he => hall e (List.mem_cons_of_mem _ he))
    rw [applyEdit_cand s a _ hb1]
    by_cases hx : x = a.child
    · left
      rw [if_pos hx]
      exact hall a (List.mem_cons_self _ _) hx.symm
    · rw [if_neg hx]
      rcases h with h | ⟨e, he, hec⟩
      · exact Or.inl h
      · rcases List.mem_cons.mp he with rfl | he
        · exact absurd hec.symm hx
        · exact Or.inr ⟨e, he, hec⟩

/-! ## The walks of the planner -/

/-- The walk of `ensureNodeIsRooted` from a node that reaches the root, when
the root has no parent: it ends, and it plans an edit for every node on the
way whose candidate parent is not its parent. -/
theorem ensureNodeIsRooted_spec (t : Tree) (hroot : t.parentOf ROOT = none) (K : Nat) :
    ∀ (start : String) (edits : List Edit) (fuel : Nat),
      walk t.parentOf K start = some ROOT → K + 1 ≤ fuel →
      ∃ new, ensureNodeIsRooted t fuel (some start) edits = some (edits ++ new) ∧
        new.length ≤ K ∧
        (∀ e ∈ new, t.parentOf e.child = some e.parent ∧ reaches t.parentOf start e.child) ∧
        (∀ j x y, j < K → walk t.parentOf j start = some x → t.parentOf x = some y →
          t.cand x = y ∨ Edit.mk x y ∈ new) := by
  induction K with
  | zero =>
    intro start edits fuel hw hf
    simp only [walk, Option.some.injEq] at hw
    subst hw
    obtain ⟨f, rfl⟩ := Nat.exists_eq_add_of_le hf
    refine ⟨[], ?_, Nat.le_refl _, fun e he => (by cases he),
      fun j x y hj => (by omega)⟩
    rw [Nat.add_comm]
    simp [ensureNodeIsRooted, hroot]
  | succ K ih =>
    intro start edits fuel hw hf
    obtain ⟨f, rfl⟩ : ∃ f, fuel = f + 1 := ⟨fuel - 1, by omega⟩
    simp only [walk] at hw
    cases hp : t.parentOf start with
    | none => rw [hp] at hw; cases hw
    | some p =>
      rw [hp] at hw
      simp only at hw
      simp only [ensureNodeIsRooted, hp]
      obtain ⟨new, h1, h2, h3, h4⟩ := ih p
        (if edgeWithLargestCounter (t.edgesOf start) ≠ p then edits ++ [Edit.mk start p]
          else edits) f hw (by omega)
      by_cases hc : edgeWithLargestCounter (t.edgesOf start) = p
      · simp only [hc, ne_eq, not_true_eq_false, if_false] at h1 ⊢
        refine ⟨new, h1, by omega, ?_, ?_⟩
        · intro e he
          exact ⟨(h3 e he).1, reaches_of_parent _ hp (h3 e he).2⟩
        · intro j x y hj hx hy
          cases j with
          | zero =>
            simp only [walk, Option.some.injEq] at hx
            subst hx
            rw [hp] at hy
            cases hy
            exact Or.inl hc
          | succ j =>
            simp only [walk, hp] at hx
            exact h4 j x y (by omega) hx hy
      · simp only [hc, ne_eq, not_false_eq_true, if_true] at h1 ⊢
        refine ⟨Edit.mk start p :: new, by simpa using h1, by simp; omega, ?_, ?_⟩
        · intro e he
          rcases List.mem_cons.mp he with rfl | he
          · exact ⟨hp, reaches_refl _ _⟩
          · exact ⟨(h3 e he).1, reaches_of_parent _ hp (h3 e he).2⟩
        · intro j x y hj hx hy
          cases j with
          | zero =>
            simp only [walk, Option.some.injEq] at hx
            subst hx
            rw [hp] at hy
            cases hy
            exact Or.inr (List.mem_cons_self _ _)
          | succ j =>
            simp only [walk, hp] at hx
            rcases h4 j x y (by omega) hx hy with h | h
            · exact Or.inl h
            · exact Or.inr (List.mem_cons_of_mem _ h)


/-! ## The planner on a rooted target -/

/-- Two parent maps that agree along a walk give the same walk. -/
theorem walk_congr {par par' : String → Option String} (K : Nat) :
    ∀ a : String, (∀ j x, j < K → walk par j a = some x → par' x = par x) →
      walk par' K a = walk par K a := by
  induction K with
  | zero => intro a _; rfl
  | succ K ih =>
    intro a h
    have h0 : par' a = par a := h 0 a (by omega) rfl
    simp only [walk, h0]
    cases hp : par a with
    | none => rfl
    | some p =>
      simp only
      apply ih
      intro j x hj hx
      exact h (j + 1) x (by omega) (by simp only [walk, hp]; exact hx)

theorem reachable_parentsWithin {s : Replica} (hs : reachable s) :
    parentsWithin s.tree.parentOf s.tree.ids := by
  have := recompute_parentsWithin s.tree (reachable_edgesClosed hs)
  rwa [reachable_recompute hs] at this

/-- The first walk of the planner, from the parent of the child. -/
theorem first_walk_ends (s : Replica) (hs : reachable s) (C : String) (hC : C ∈ s.tree.ids)
    (hroot : s.tree.parentOf ROOT = none)
    (hCr : s.tree.parentOf C = none ∨ reaches s.tree.parentOf C ROOT)
    (fuel : Nat) (hfuel : s.tree.nodes.length ≤ fuel) :
    ∃ new, ensureNodeIsRooted s.tree fuel (s.tree.parentOf C) [] = some new ∧
      new.length + 1 ≤ s.tree.nodes.length ∧
      ∀ e ∈ new, s.tree.parentOf e.child = some e.parent := by
  have hlen : 1 ≤ s.tree.nodes.length := by
    rw [← ids_length]; exact List.length_pos_of_mem hC
  cases hp : s.tree.parentOf C with
  | none =>
    obtain ⟨f, rfl⟩ : ∃ f, fuel = f + 1 := ⟨fuel - 1, by omega⟩
    exact ⟨[], by simp [ensureNodeIsRooted], by simpa using hlen, fun e he => by cases he⟩
  | some p0 =>
    have hr : reaches s.tree.parentOf C ROOT := by
      rcases hCr with h | h
      · rw [hp] at h; cases h
      · exact h
    obtain ⟨K, hK, hw⟩ := reaches_bounded _ (reachable_parentsWithin hs) hC hr
    rw [ids_length] at hK
    cases K with
    | zero =>
      simp only [walk, Option.some.injEq] at hw
      rw [hw, hroot] at hp
      cases hp
    | succ K =>
      simp only [walk, hp] at hw
      obtain ⟨new, h1, h2, h3, _⟩ :=
        ensureNodeIsRooted_spec s.tree hroot K p0 [] fuel hw (by omega)
      exact ⟨new, by simpa using h1, by omega, fun e he => (h3 e he).1⟩

/-- The planner on a rooted target: the call returns and the child is under
the target. -/
theorem addChildToParent_rooted (s : Replica) (hs : reachable s) (C P : String)
    (hC : C ∈ s.tree.ids) (hP : P ∈ s.tree.ids)
    (hroot : s.tree.parentOf ROOT = none)
    (hPr : reaches s.tree.parentOf P ROOT)
    (hCP : ¬ reaches s.tree.parentOf P C)
    (hCr : s.tree.parentOf C = none ∨ reaches s.tree.parentOf C ROOT)
    (hb : s.tree.countersBelow (2 * s.tree.nodes.length))
    (fuel : Nat) (hfuel : s.tree.nodes.length ≤ fuel) (clock : Nat → Int) :
    ∃ s', s.addChildToParent fuel clock C P = some s' ∧ s'.tree.parentOf C = some P := by
  have hpw := reachable_parentsWithin hs
  -- the two walks
  obtain ⟨new1, e1, l1, p1⟩ := first_walk_ends s hs C hC hroot hCr fuel hfuel
  obtain ⟨K, hK, hw⟩ := reaches_bounded _ hpw hP hPr
  rw [ids_length] at hK
  obtain ⟨new2, e2, l2, p2, c2⟩ :=
    ensureNodeIsRooted_spec s.tree hroot K P new1 fuel hw (by omega)
  have hplan : planEdits s.tree fuel C P = some (new1 ++ new2 ++ [Edit.mk C P]) := by
    unfold planEdits
    rw [e1]
    simp only
    rw [e2]
  have hlookC : s.tree.lookup C = some C := (s.tree.lookup_eq_some C C).mpr ⟨rfl, hC⟩
  have hlookP : s.tree.lookup P = some P := (s.tree.lookup_eq_some P P).mpr ⟨rfl, hP⟩
  refine ⟨s.applyEdits clock 0 (new1 ++ new2 ++ [Edit.mk C P]), ?_, ?_⟩
  · unfold Replica.addChildToParent
    rw [hlookC, hlookP]
    simp only
    rw [hplan]
  -- the state before the last edit
  rw [applyEdits_append]
  generalize hs1 : s.applyEdits clock 0 (new1 ++ new2) = s1
  generalize clock (0 + (new1 ++ new2).length) = now
  have hlenE : ((new1 ++ new2).length : Int) + 2 ≤ 2 * (s.tree.nodes.length : Int) := by
    rw [List.length_append]; push_cast; omega
  have hbE : s.tree.countersBelow ((new1 ++ new2).length : Int) :=
    ⟨by have := hb.1; omega, fun x k c h => by have := hb.2 x k c h; omega⟩
  have hb1 : s1.tree.countersBelow 1 := by
    rw [← hs1]
    apply applyEdits_countersBelow clock _ s 0 1 (by omega)
    exact ⟨by have := hb.1; omega, fun x k c h => by have := hb.2 x k c h; omega⟩
  have hr1 : reachable s1 := hs1 ▸ applyEdits_reachable clock _ s 0 hs
  have hsub1 : s.tree.ids ⊆ s1.tree.ids := hs1 ▸ applyEdits_ids_subset clock _ s 0
  have hallE : ∀ e ∈ new1 ++ new2, s.tree.parentOf e.child = some e.parent := by
    intro e he
    rcases List.mem_append.mp he with he | he
    · exact p1 e he
    · exact (p2 e he).1
  -- candidate parents along the walk from P, before the last edit
  have hcand1 : ∀ j x y, j < K → walk s.tree.parentOf j P = some x →
      s.tree.parentOf x = some y → s1.tree.cand x = y := by
    intro j x y hj hx hy
    rw [← hs1]
    apply applyEdits_cand clock x y _ s 0 hbE
    · intro e he hec
      have := hallE e he
      rw [hec, hy] at this
      exact (Option.some.inj this).symm
    · rcases c2 j x y hj hx hy with h | h
      · exact Or.inl h
      · exact Or.inr ⟨_, List.mem_append_right _ h, rfl⟩
  -- the state after the last edit
  generalize hs2 : s1.applyEdit (Edit.mk C P) now = s2
  have hr2 : reachable s2 := hs2 ▸ applyEdit_reachable hr1 _ _
  have hsub2 : s.tree.ids ⊆ s2.tree.ids :=
    List.Subset.trans hsub1 (hs2 ▸ applyEdit_ids_subset s1 _ _)
  have hcand2 : ∀ x, s2.tree.cand x = if x = C then P else s1.tree.cand x := by
    intro x; rw [← hs2]; exact applyEdit_cand s1 _ now hb1 x
  have hpar2 : ∀ x, x ∈ s.tree.ids → s2.tree.cand x ∈ s.tree.ids →
      (phase1 s2.tree).parentOf x = some (s2.tree.cand x) := by
    intro x hx hc
    rw [phase1_parentOf, if_pos (hsub2 hx)]
    exact (s2.tree.lookup_eq_some _ _).mpr ⟨rfl, hsub2 hc⟩
  -- the walk from P in the parents of phase 1
  have hwalk2 : walk (phase1 s2.tree).parentOf K P = some ROOT := by
    rw [walk_congr K P, hw]
    intro j x hj hx
    obtain ⟨y, hy⟩ := walk_isSome_of_le _ hw (show j + 1 ≤ K by omega)
    have hxy : s.tree.parentOf x = some y := by
      have := walk_succ s.tree.parentOf j P
      rw [hx, hy] at this
      exact this.symm
    have hxC : x ≠ C := fun h => hCP ⟨j, h ▸ hx⟩
    have hxid : x ∈ s.tree.ids := walk_mem_ids _ hpw hP j x hx
    have hyid : y ∈ s.tree.ids := hpw x y hxy
    have hc : s2.tree.cand x = y := by
      rw [hcand2, if_neg hxC]; exact hcand1 j x y hj hx hxy
    rw [hxy, hpar2 x hxid (hc ▸ hyid), hc]
  have hCpar : (phase1 s2.tree).parentOf C = some P := by
    have hc : s2.tree.cand C = P := by rw [hcand2, if_pos rfl]
    rw [hpar2 C hC (hc ▸ hP), hc]
  have hreach : reaches (phase1 s2.tree).parentOf C ROOT :=
    reaches_of_parent _ hCpar ⟨K, hwalk2⟩
  have hnot : C ∉ nonRootedNodes (phase1 s2.tree) :=
    fun h => (nonRootedNodes_spec _ (phase1_parentsWithin s2.tree) C h).2 hreach
  rw [← reachable_recompute hr2,
    recompute_parentOf_of_rooted s2.tree (reachable_edgesClosed hr2) hnot]
  exact hCpar


/-! ## Independence of the iteration order -/

theorem edgeKey_injective : Function.Injective edgeKey := by
  intro a b h
  have h1 : a.2 = b.2 := congrArg (fun x => (ofLex x).1) h
  have h2 : a.1 = b.1 := congrArg (fun x => (ofLex x).2) h
  exact Prod.ext h2 h1

theorem largestStep_eq (acc e : String × Int) :
    largestStep acc e = if edgeKey acc < edgeKey e then e else acc := by
  unfold largestStep edgeKey
  have : (toLex (acc.2, acc.1) < toLex (e.2, e.1)) ↔
      (e.2 > acc.2 ∨ (e.2 = acc.2 ∧ e.1 > acc.1)) := by
    rw [Prod.Lex.lt_iff]
    simp only [gt_iff_lt]
    constructor
    · rintro (h | ⟨h1, h2⟩)
      · exact Or.inl h
      · exact Or.inr ⟨h1.symm, h2⟩
    · rintro (h | ⟨h1, h2⟩)
      · exact Or.inl h
      · exact Or.inr ⟨h1.symm, h2⟩
  by_cases h : toLex (acc.2, acc.1) < toLex (e.2, e.1)
  · rw [if_pos h, if_pos (this.mp h)]
  · rw [if_neg h, if_neg (fun h' => h (this.mpr h'))]

theorem edgeKey_largestStep (acc e : String × Int) :
    edgeKey (largestStep acc e) = max (edgeKey acc) (edgeKey e) := by
  rw [largestStep_eq]
  split
  · next h => exact (max_eq_right (le_of_lt h)).symm
  · next h => exact (max_eq_left (not_lt.mp h)).symm

theorem largestStep_right_comm (acc a b : String × Int) :
    largestStep (largestStep acc a) b = largestStep (largestStep acc b) a := by
  apply edgeKey_injective
  simp only [edgeKey_largestStep]
  rw [max_assoc, max_comm (edgeKey a), ← max_assoc]

/-- `edgeWithLargestCounter` does not depend on the order of the edge map. -/
theorem edgeWithLargestCounter_perm {es es' : List (String × Int)} (h : es.Perm es') :
    edgeWithLargestCounter es = edgeWithLargestCounter es' := by
  unfold edgeWithLargestCounter
  rw [h.foldl_eq' (fun x _ y _ z => largestStep_right_comm z x y)]

theorem sameMaps_mem_ids {t t' : Tree} (h : t.sameMaps t') (x : String) :
    x ∈ t.ids ↔ x ∈ t'.ids := h.1.mem_iff

theorem sameMaps_lookup {t t' : Tree} (h : t.sameMaps t') (x : String) :
    t.lookup x = t'.lookup x := by
  unfold Tree.lookup
  have : t.has x = t'.has x := by
    rw [Bool.eq_iff_iff, Tree.has_iff, Tree.has_iff]; exact sameMaps_mem_ids h x
  rw [this]

theorem sameMaps_phase1_parentOf {t t' : Tree} (h : t.sameMaps t') (x : String) :
    (phase1 t).parentOf x = (phase1 t').parentOf x := by
  rw [phase1_parentOf, phase1_parentOf, sameMaps_lookup h,
    edgeWithLargestCounter_perm (h.2 x)]
  by_cases hx : x ∈ t.ids
  · rw [if_pos hx, if_pos ((sameMaps_mem_ids h x).mp hx)]
  · rw [if_neg hx, if_neg (fun h' => hx ((sameMaps_mem_ids h x).mpr h'))]

/-- Phase 2 classifies the same nodes as non-rooted in every order. -/
theorem sameMaps_nonRooted {t t' : Tree} (h : t.sameMaps t') (x : String) :
    x ∈ nonRootedNodes (phase1 t) ↔ x ∈ nonRootedNodes (phase1 t') := by
  rw [mem_nonRootedNodes_iff _ (phase1_parentsWithin t),
    mem_nonRootedNodes_iff _ (phase1_parentsWithin t'), phase1_ids, phase1_ids,
    sameMaps_mem_ids h x,
    show (phase1 t).parentOf = (phase1 t').parentOf from funext (sameMaps_phase1_parentOf h)]

/-- A node that phase 2 classifies as rooted gets the same parent in every order. -/
theorem sameMaps_parentOf_of_rooted {t t' : Tree} (h : t.sameMaps t') (hc : t.edgesClosed)
    (hc' : t'.edgesClosed) (x : String) (hx : x ∉ nonRootedNodes (phase1 t)) :
    t.recomputeParentsAndChildren.parentOf x = t'.recomputeParentsAndChildren.parentOf x := by
  rw [recompute_parentOf_of_rooted t hc hx,
    recompute_parentOf_of_rooted t' hc' (fun h' => hx ((sameMaps_nonRooted h x).mpr h')),
    sameMaps_phase1_parentOf h]

theorem sameMaps_edgesClosed {t t' : Tree} (h : t.sameMaps t') (hc : t.edgesClosed) :
    t'.edgesClosed := by
  intro x k c hk
  exact (sameMaps_mem_ids h k).mp (hc x k c ((h.2 x).mem_iff.mpr hk))

theorem sameMaps_nodup {t t' : Tree} (h : t.sameMaps t') (hnd : t.ids.Nodup) : t'.ids.Nodup :=
  h.1.nodup_iff.mp hnd

/-- With unique ids, the node stored under an id is the node of the list with that id. -/
theorem node_eq_some_iff {t : Tree} (hnd : t.ids.Nodup) (x : String) (n : Node) :
    t.node x = some n ↔ n ∈ t.nodes ∧ n.id = x := by
  constructor
  · exact node_mem
  · rintro ⟨hn, rfl⟩; exact node_of_mem hnd hn

/-- Rearranging the node list gives a representation of the same maps. -/
theorem sameMaps_of_nodes_perm {t t' : Tree} (hnd : t.ids.Nodup) (h : t.nodes.Perm t'.nodes) :
    t.sameMaps t' := by
  have hids : t.ids.Perm t'.ids := h.map _
  have hnd' : t'.ids.Nodup := hids.nodup_iff.mp hnd
  refine ⟨hids, fun x => ?_⟩
  have : t.node x = t'.node x := by
    cases hn : t.node x with
    | none =>
      have := (node_eq_none_iff t x).mp hn
      exact ((node_eq_none_iff t' x).mpr (fun h' => this (hids.mem_iff.mpr h'))).symm
    | some n =>
      obtain ⟨h1, h2⟩ := (node_eq_some_iff hnd x n).mp hn
      exact ((node_eq_some_iff hnd' x n).mpr ⟨h.mem_iff.mp h1, h2⟩).symm
  unfold Tree.edgesOf
  rw [this]

theorem sortIds_sorted (ids : List String) : (sortIds ids).Sorted (fun a b => a ≤ b) :=
  List.sorted_insertionSort _ ids

/-- The children list of a node after the recomputation. -/
theorem recompute_childrenOf (u : Tree) (x : String) :
    u.recomputeParentsAndChildren.childrenOf x =
      if x ∈ u.ids then
        sortIds (((phase3 (phase1 u) (nonRootedNodes (phase1 u))).1.nodes.filter
          fun m => m.parent = some x).map fun m => m.id)
      else [] := by
  unfold Tree.childrenOf Tree.recomputeParentsAndChildren
  rw [phase4_node]
  have hids : (phase3 (phase1 u) (nonRootedNodes (phase1 u))).1.ids = u.ids := by
    rw [ids_congr (phase3_skel _ _), phase1_ids]
  cases hn : (phase3 (phase1 u) (nonRootedNodes (phase1 u))).1.node x with
  | none =>
    have := (node_eq_none_iff _ x).mp hn
    rw [hids] at this
    simp [this]
  | some n =>
    have hx : x ∈ u.ids := hids ▸ (node_isSome_iff _ x).mp (by rw [hn]; rfl)
    have hid : n.id = x := (node_mem hn).2
    simp [hx, hid]

theorem childrenOf_nodup (u : Tree) (hnd : u.ids.Nodup) (x : String) :
    (u.recomputeParentsAndChildren.childrenOf x).Nodup := by
  rw [recompute_childrenOf]
  split
  · have hids : (phase3 (phase1 u) (nonRootedNodes (phase1 u))).1.ids = u.ids := by
      rw [ids_congr (phase3_skel _ _), phase1_ids]
    apply (List.perm_insertionSort _ _).nodup_iff.mpr
    have hnd3 : ((phase3 (phase1 u) (nonRootedNodes (phase1 u))).1.nodes.map
        fun m => m.id).Nodup := by
      have := hids ▸ hnd
      exact this
    exact (List.Nodup.sublist (List.Sublist.map _ (List.filter_sublist _)) hnd3)
  · exact List.nodup_nil

theorem mem_childrenOf (u : Tree) (hnd : u.ids.Nodup) (x c : String) :
    c ∈ u.recomputeParentsAndChildren.childrenOf x ↔
      x ∈ u.ids ∧ c ∈ u.ids ∧ u.recomputeParentsAndChildren.parentOf c = some x := by
  have hids : (phase3 (phase1 u) (nonRootedNodes (phase1 u))).1.ids = u.ids := by
    rw [ids_congr (phase3_skel _ _), phase1_ids]
  have hnd3 : (phase3 (phase1 u) (nonRootedNodes (phase1 u))).1.ids.Nodup := hids ▸ hnd
  rw [recompute_childrenOf, recompute_parentOf]
  split
  · next hx =>
    simp only [mem_sortIds, List.mem_map, List.mem_filter, decide_eq_true_eq, hx, true_and]
    constructor
    · rintro ⟨m, ⟨hm, hp⟩, rfl⟩
      exact ⟨hids ▸ List.mem_map_of_mem _ hm, by rw [parentOf_of_mem hnd3 hm]; exact hp⟩
    · rintro ⟨hc, hp⟩
      rw [← hids] at hc
      obtain ⟨m, hm, rfl⟩ := List.mem_map.mp hc
      exact ⟨m, ⟨hm, by rw [← parentOf_of_mem hnd3 hm]; exact hp⟩, rfl⟩
  · next hx => simp [hx]

theorem childrenOf_sorted (u : Tree) (x : String) :
    (u.recomputeParentsAndChildren.childrenOf x).Sorted (fun a b => a ≤ b) := by
  rw [recompute_childrenOf]
  split
  · exact sortIds_sorted _
  · exact List.sorted_nil

/-- When all parents agree, all children lists agree. -/
theorem childrenOf_eq_of_parentOf_eq {t t' : Tree} (hnd : t.ids.Nodup) (hnd' : t'.ids.Nodup)
    (hids : ∀ x, x ∈ t.ids ↔ x ∈ t'.ids)
    (hpar : ∀ x, t.recomputeParentsAndChildren.parentOf x =
      t'.recomputeParentsAndChildren.parentOf x) (x : String) :
    t.recomputeParentsAndChildren.childrenOf x =
      t'.recomputeParentsAndChildren.childrenOf x := by
  apply List.eq_of_perm_of_sorted (r := fun a b : String => a ≤ b) _
    (childrenOf_sorted t x) (childrenOf_sorted t' x)
  rw [List.perm_ext_iff_of_nodup (childrenOf_nodup t hnd x) (childrenOf_nodup t' hnd' x)]
  intro c
  rw [mem_childrenOf t hnd, mem_childrenOf t' hnd', hids x, hids c, hpar c]


/-! ## The loops end within their fuel -/

section Floyd
variable (par : String → Option String)

theorem walk_none_of_le {d k : Nat} {x : String} (h : walk par d x = none) (hk : d ≤ k) :
    walk par k x = none := by
  obtain ⟨e, rfl⟩ := Nat.exists_eq_add_of_le hk
  rw [walk_add, h]; rfl

/-- A walk that stays in a finite set for more steps than the set has members
visits a node twice. -/
theorem walk_collision {ids : List String} (hp : parentsWithin par ids) {x : String}
    (hx : x ∈ ids) (hsome : ∀ j, j ≤ ids.length → ∃ z, walk par j x = some z) :
    ∃ a b, a < b ∧ b ≤ ids.length ∧ walk par a x = walk par b x := by
  classical
  have hc : ids.toFinset.card < (Finset.range (ids.length + 1)).card := by
    rw [Finset.card_range]
    exact Nat.lt_succ_of_le (List.toFinset_card_le ids)
  have hf : ∀ j ∈ Finset.range (ids.length + 1),
      (walk par j x).getD "" ∈ ids.toFinset := by
    intro j hj
    obtain ⟨z, hz⟩ := hsome j (Nat.lt_succ_iff.mp (Finset.mem_range.mp hj))
    rw [hz, Option.getD_some, List.mem_toFinset]
    exact walk_mem_ids par hp hx j z hz
  obtain ⟨a, ha, b, hb, hne, heq⟩ := Finset.exists_ne_map_eq_of_card_lt_of_maps_to hc hf
  have ha' := Nat.lt_succ_iff.mp (Finset.mem_range.mp ha)
  have hb' := Nat.lt_succ_iff.mp (Finset.mem_range.mp hb)
  obtain ⟨za, hza⟩ := hsome a ha'
  obtain ⟨zb, hzb⟩ := hsome b hb'
  rw [hza, hzb, Option.getD_some, Option.getD_some] at heq
  have hw : walk par a x = walk par b x := by rw [hza, hzb, heq]
  rcases Nat.lt_or_gt_of_ne hne with h | h
  · exact ⟨a, b, h, hb', hw⟩
  · exact ⟨b, a, h, ha', hw.symm⟩

theorem walk_periodic {a b : Nat} {x : String} (hab : a ≤ b)
    (h : walk par a x = walk par b x) (i : Nat) (hi : a ≤ i) :
    ∀ m, walk par (i + m * (b - a)) x = walk par i x := by
  have one : ∀ k, a ≤ k → walk par (k + (b - a)) x = walk par k x := by
    intro k hk
    obtain ⟨d, rfl⟩ := Nat.exists_eq_add_of_le hk
    rw [show a + d + (b - a) = b + d by omega, walk_add, ← h, ← walk_add]
  intro m
  induction m with
  | zero => simp
  | succ m ih =>
    rw [show i + (m + 1) * (b - a) = (i + m * (b - a)) + (b - a) by ring,
      one _ (by omega), ih]

/-- The tortoise and the hare meet: there is an iteration `j` with the
tortoise (at step `j`) and the hare (at step `2 j + 1`) on the same node, or
both past the end of the walk. -/
theorem exists_meeting {ids : List String} (hp : parentsWithin par ids) {x : String}
    (hx : x ∈ ids) : ∃ j, j ≤ ids.length ∧ walk par j x = walk par (2 * j + 1) x := by
  by_cases hsome : ∀ j, j ≤ ids.length → ∃ z, walk par j x = some z
  · obtain ⟨a, b, hab, hb, hw⟩ := walk_collision par hp hx hsome
    have hp0 : 0 < b - a := by omega
    have hdm := Nat.div_add_mod a (b - a)
    have hmod := Nat.mod_lt a hp0
    refine ⟨(b - a) * (a / (b - a)) + (b - a) - 1, ?_, ?_⟩
    · generalize (b - a) * (a / (b - a)) = q at *
      omega
    · have key := walk_periodic par (Nat.le_of_lt hab) hw
        ((b - a) * (a / (b - a)) + (b - a) - 1)
        (by generalize (b - a) * (a / (b - a)) = q at *; omega) (a / (b - a) + 1)
      rw [← key]
      congr 1
      rw [Nat.add_mul, Nat.one_mul, Nat.mul_comm (a / (b - a)) (b - a)]
      generalize (b - a) * (a / (b - a)) = q at *
      omega
  · push_neg at hsome
    obtain ⟨d, hd, hnone⟩ := hsome
    have hn : walk par d x = none := by
      cases hw : walk par d x with
      | none => rfl
      | some z => exact absurd hw (hnone z)
    exact ⟨d, hd, by rw [hn, walk_none_of_le par hn (by omega)]⟩

/-- The loop of `isNodeUnderOtherNode` ends when a meeting lies within the fuel. -/
theorem isNodeUnderLoop_ends (other x : String) (fuel : Nat) :
    ∀ i, (∃ j, i ≤ j ∧ j < i + fuel ∧ walk par j x = walk par (2 * j + 1) x) →
      ∃ b, isNodeUnderLoop par other fuel (walk par i x) (walk par (2 * i + 1) x) = some b := by
  induction fuel with
  | zero => rintro i ⟨j, h1, h2, _⟩; omega
  | succ fuel ih =>
    rintro i ⟨j, h1, h2, hj⟩
    unfold isNodeUnderLoop
    cases hh : walk par (2 * i + 1) x with
    | none => exact ⟨false, rfl⟩
    | some h =>
      simp only
      by_cases e1 : h = other
      · exact ⟨true, by rw [if_pos e1]⟩
      · rw [if_neg e1]
        by_cases e2 : walk par i x = some h
        · exact ⟨false, by rw [if_pos e2]⟩
        · rw [if_neg e2]
          have hne : i ≠ j := by
            rintro rfl
            rw [hh] at hj
            exact e2 hj
          have hpar : par h = walk par (2 * i + 2) x := by
            rw [show 2 * i + 2 = 2 * i + 1 + 1 by ring, walk_succ, hh]; rfl
          cases hp : par h with
          | none => exact ⟨false, rfl⟩
          | some h1' =>
            simp only
            by_cases e3 : h1' = other
            · exact ⟨true, by rw [if_pos e3]⟩
            · rw [if_neg e3]
              have t1 : (walk par i x).bind par = walk par (i + 1) x :=
                (walk_succ par i x).symm
              have t2 : par h1' = walk par (2 * (i + 1) + 1) x := by
                rw [show 2 * (i + 1) + 1 = 2 * i + 2 + 1 by ring, walk_succ, ← hpar, hp]; rfl
              rw [t1, t2]
              exact ih (i + 1) ⟨j, by omega, by omega, hj⟩

/-- `isNodeUnderOtherNode` returns within one iteration per node, plus one. -/
theorem isNodeUnder_terminates {ids : List String} (hp : parentsWithin par ids)
    {node : String} (hx : node ∈ ids) (other : String) (fuel : Nat)
    (hfuel : ids.length + 1 ≤ fuel) :
    ∃ b, isNodeUnderOtherNode par fuel node other = some b := by
  unfold isNodeUnderOtherNode
  by_cases h1 : node = other
  · exact ⟨true, by rw [if_pos h1]⟩
  · rw [if_neg h1]
    obtain ⟨j, hj, hm⟩ := exists_meeting par hp hx
    have := isNodeUnderLoop_ends par other node fuel 0 ⟨j, by omega, by omega, hm⟩
    rw [show 2 * 0 + 1 = 1 by rfl, walk_one] at this
    exact this

end Floyd

/-- The test of line 213 is answered within the fuel: `false` stands for the
answer `false` of `isNodeUnderOtherNode`, never for a loop cut short. -/
theorem underRoot_terminates (t : Tree) (hp : parentsWithin t.parentOf t.ids) {x : String}
    (hx : x ∈ t.ids) :
    ∃ b, isNodeUnderOtherNode t.parentOf (t.nodes.length + 1) x ROOT = some b :=
  isNodeUnder_terminates _ hp hx ROOT _ (by rw [ids_length])


/-! ### The walk of phase 2 -/

theorem nodup_subset_length {l ids : List String} (hnd : l.Nodup) (hsub : l ⊆ ids) :
    l.length ≤ ids.length := (hnd.subperm hsub).length_le

/-- More fuel does not change the walk of phase 2: it has ended. -/
theorem markNonRooted_fuel (par : String → Option String) {ids : List String}
    (hp : parentsWithin par ids) (fuel : Nat) :
    ∀ (nr : List String) (start : Option String) (k : Nat), nr.Nodup → nr ⊆ ids →
      (∀ x, start = some x → x ∈ ids) → ids.length + 1 ≤ fuel + nr.length →
      markNonRooted par (fuel + k) nr start = markNonRooted par fuel nr start := by
  induction fuel with
  | zero =>
    intro nr start k hnd hsub _ hlen
    have := nodup_subset_length hnd hsub
    omega
  | succ fuel ih =>
    intro nr start k hnd hsub hs hlen
    rw [show fuel + 1 + k = (fuel + k) + 1 by omega]
    cases start with
    | none => simp [markNonRooted]
    | some n =>
      simp only [markNonRooted]
      split
      · rfl
      · next hn =>
        apply ih
        · rw [List.nodup_append]
          refine ⟨hnd, List.nodup_singleton n, ?_⟩
          intro a ha hb
          rw [List.mem_singleton] at hb
          exact hn (hb ▸ ha)
        · intro x hx
          rcases List.mem_append.mp hx with hx | hx
          · exact hsub hx
          · rw [List.mem_singleton.mp hx]; exact hs n rfl
        · intro x hx; exact hp n x hx
        · rw [List.length_append, List.length_singleton]; omega

/-- In phase 2 every walk starts from a set of distinct nodes of the tree, so
the fuel of one iteration per node, plus one, is enough. -/
theorem markNonRooted_fuel_tree (t : Tree) (hp : parentsWithin t.parentOf t.ids)
    (nr : List String) (x : String) (k : Nat) (hnd : nr.Nodup) (hsub : nr ⊆ t.ids)
    (hx : x ∈ t.ids) :
    markNonRooted t.parentOf (t.nodes.length + 1 + k) nr (some x) =
      markNonRooted t.parentOf (t.nodes.length + 1) nr (some x) :=
  markNonRooted_fuel _ hp _ nr _ k hnd hsub (fun y hy => by cases hy; exact hx)
    (by rw [ids_length]; omega)

/-! ### The heap -/

/-- More fuel does not change `up`: it has ended. -/
theorem up_fuel (fuel : Nat) :
    ∀ (xs : List Edge) (j k : Nat), j < fuel → up (fuel + k) xs j = up fuel xs j := by
  induction fuel with
  | zero => intro xs j k h; omega
  | succ fuel ih =>
    intro xs j k h
    rw [show fuel + 1 + k = (fuel + k) + 1 by omega]
    unfold up
    split
    · rfl
    · next hc =>
      push_neg at hc
      exact ih _ _ k (by have := hc.1; omega)

/-- More fuel does not change `down`: it has ended. -/
theorem down_fuel (fuel : Nat) :
    ∀ (xs : List Edge) (i n k : Nat), n ≤ i + fuel →
      down (fuel + k) xs i n = down fuel xs i n := by
  induction fuel with
  | zero =>
    intro xs i n k h
    cases k with
    | zero => rfl
    | succ k =>
      simp only [Nat.zero_add]
      unfold down
      rw [if_pos (by omega)]
  | succ fuel ih =>
    intro xs i n k h
    rw [show fuel + 1 + k = (fuel + k) + 1 by omega]
    unfold down
    split
    · rfl
    · simp only
      split <;> split <;> first | rfl | (apply ih; omega)

theorem heapPush_fuel (xs : List Edge) (e : Edge) (k : Nat) :
    up (xs.length + 1 + k) (xs ++ [e]) xs.length = heapPush xs e :=
  up_fuel _ _ _ k (Nat.lt_succ_self _)

theorem heapPop_fuel (x : Edge) (rest : List Edge) (k : Nat) :
    down (rest.length + 1 + k) (swap (x :: rest) 0 rest.length) 0 rest.length =
      down (rest.length + 1) (swap (x :: rest) 0 rest.length) 0 rest.length :=
  down_fuel _ _ _ _ k (by omega)

/-! ### The reattachment loop -/

theorem sum_map_erase_of_mem (f : String → Nat) {c : String} {nr : List String} (h : c ∈ nr) :
    (nr.map f).sum = f c + ((nr.erase c).map f).sum := by
  have := ((List.perm_cons_erase h).map f).sum_eq
  simpa using this

/-- Every iteration of the reattachment loop takes one unit off the pending
work, so more fuel than pending work does not change the result: the heap
has drained. -/
theorem reattachLoop_fuel (fuel : Nat) :
    ∀ (t : Tree) (nr : List String) (deferred : String → List Edge) (ready : List Edge)
      (k : Nat), pending nr deferred ready < fuel →
      reattachLoop (fuel + k) t nr deferred ready = reattachLoop fuel t nr deferred ready := by
  induction fuel with
  | zero => intro t nr deferred ready k h; omega
  | succ fuel ih =>
    intro t nr deferred ready k h
    rw [show fuel + 1 + k = (fuel + k) + 1 by omega]
    unfold reattachLoop
    cases hpop : heapPop ready with
    | none => rfl
    | some val =>
      obtain ⟨top, ready1⟩ := val
      have hlen : ready.length = ready1.length + 1 := by
        rw [(heapPop_perm hpop).length_eq]; rfl
      simp only
      split
      · next hin =>
        apply ih
        unfold pending at h ⊢
        rw [(foldl_heapPush_perm _ _).length_eq, List.length_append]
        rw [sum_map_erase_of_mem (fun c => (deferred c).length) hin] at h
        omega
      · apply ih
        unfold pending at h ⊢
        omega


/-! ### The pending work after the seed loop -/

theorem sum_map_update_of_mem (f : String → List Edge) (x : Edge) {k : String} :
    ∀ {nr : List String}, nr.Nodup → k ∈ nr →
      (nr.map fun c => (if c = k then f c ++ [x] else f c).length).sum =
        (nr.map fun c => (f c).length).sum + 1 := by
  intro nr
  induction nr with
  | nil => intro _ h; cases h
  | cons a nr ih =>
    intro hnd hk
    rw [List.nodup_cons] at hnd
    simp only [List.map_cons, List.sum_cons]
    by_cases ha : a = k
    · subst ha
      have hrest : (nr.map fun c => (if c = a then f c ++ [x] else f c).length) =
          nr.map fun c => (f c).length := by
        apply List.map_congr_left
        intro c hc
        rw [if_neg (fun (h : c = a) => hnd.1 (h ▸ hc))]
      rw [hrest, if_pos rfl, List.length_append, List.length_singleton]
      omega
    · have hk' : k ∈ nr := by
        rcases List.mem_cons.mp hk with h | h
        · exact absurd h.symm ha
        · exact h
      rw [ih hnd.2 hk', if_neg ha]
      omega

theorem seedEdge_pending (nr : List String) (hnd : nr.Nodup) (child : String) (q : Queues)
    (e : String × Int) :
    pending nr (seedEdge nr child q e).deferred (seedEdge nr child q e).ready =
      pending nr q.deferred q.ready + 1 := by
  unfold seedEdge pending
  split
  · next hin =>
    simp only
    rw [sum_map_update_of_mem q.deferred _ hnd hin]
    omega
  · simp only
    rw [(heapPush_perm _ _).length_eq, List.length_cons]
    omega

theorem seedEdges_pending (nr : List String) (hnd : nr.Nodup) (child : String) :
    ∀ (es : List (String × Int)) (q : Queues),
      pending nr (es.foldl (seedEdge nr child) q).deferred
          (es.foldl (seedEdge nr child) q).ready =
        pending nr q.deferred q.ready + es.length := by
  intro es
  induction es with
  | nil => intro q; rfl
  | cons e es ih =>
    intro q
    simp only [List.foldl_cons, List.length_cons]
    rw [ih, seedEdge_pending nr hnd]
    omega

theorem seed_fold_pending (t : Tree) (nr : List String) (hnd : nr.Nodup) :
    ∀ (l : List String) (q : Queues),
      pending nr
          (l.foldl (fun q child => (t.edgesOf child).foldl (seedEdge nr child) q) q).deferred
          (l.foldl (fun q child => (t.edgesOf child).foldl (seedEdge nr child) q) q).ready =
        pending nr q.deferred q.ready + (l.map fun c => (t.edgesOf c).length).sum := by
  intro l
  induction l with
  | nil => intro q; rfl
  | cons c l ih =>
    intro q
    simp only [List.foldl_cons, List.map_cons, List.sum_cons]
    rw [ih, seedEdges_pending nr hnd]
    omega

/-- After the seed loop the pending work is the number of edges of the
non-rooted nodes. -/
theorem seed_pending (t : Tree) (nr : List String) (hnd : nr.Nodup) :
    pending nr (seed t nr).deferred (seed t nr).ready =
      (nr.map fun c => (t.edgesOf c).length).sum := by
  unfold seed
  rw [seed_fold_pending t nr hnd]
  simp [pending]

theorem edgesOf_of_mem {t : Tree} (hnd : t.ids.Nodup) {n : Node} (hn : n ∈ t.nodes) :
    t.edgesOf n.id = n.edges := by
  unfold Tree.edgesOf; rw [node_of_mem hnd hn]

theorem edgeCount_eq_sum_ids (t : Tree) (hnd : t.ids.Nodup) :
    t.edgeCount = (t.ids.map fun c => (t.edgesOf c).length).sum := by
  unfold Tree.edgeCount Tree.ids
  rw [List.map_map]
  congr 1
  apply List.map_congr_left
  intro n hn
  simp only [Function.comp]
  rw [edgesOf_of_mem hnd hn]

/-- The edges of a set of distinct nodes are at most the edges of the tree. -/
theorem sum_edges_le_edgeCount (t : Tree) (hnd : t.ids.Nodup) {nr : List String}
    (hnr : nr.Nodup) (hsub : nr ⊆ t.ids) :
    (nr.map fun c => (t.edgesOf c).length).sum ≤ t.edgeCount := by
  rw [edgeCount_eq_sum_ids t hnd]
  obtain ⟨l, hl, hs⟩ := hnr.subperm hsub
  rw [← (hl.map _).sum_eq]
  exact (hs.map _).sum_le_sum (fun _ _ => Nat.zero_le _)

/-- The fuel of phase 3, one pop per edge of the tree plus one, is enough:
with more fuel the loop gives the same result. -/
theorem phase3_fuel (t : Tree) (hnd : t.ids.Nodup) (nr : List String) (hnr : nr.Nodup)
    (hsub : nr ⊆ t.ids) (k : Nat) :
    reattachLoop (t.edgeCount + 1 + k) t nr (seed t nr).deferred (seed t nr).ready =
      reattachLoop (t.edgeCount + 1) t nr (seed t nr).deferred (seed t nr).ready := by
  apply reattachLoop_fuel
  rw [seed_pending t nr hnr]
  exact Nat.lt_succ_of_le (sum_edges_le_edgeCount t hnd hnr hsub)


/-! ## The heap property -/

theorem Less_iff (a b : Edge) : Less a b = true ↔ prio b < prio a := by
  unfold Less prio
  rw [Prod.Lex.lt_iff, decide_eq_true_iff]
  simp only [gt_iff_lt]
  constructor
  · rintro (h | ⟨h1, h2⟩)
    · exact Or.inl h
    · exact Or.inr ⟨h1.symm, h2⟩
  · rintro (h | ⟨h1, h2⟩)
    · exact Or.inl h
    · exact Or.inr ⟨h1.symm, h2⟩

theorem getD_eq_of_lt (xs : List Edge) {j : Nat} (h : j < xs.length) (d : Edge) :
    xs.getD j d = xs[j] := by
  simp [List.getD, List.getElem?_eq_getElem h]

theorem lessAt_iff (xs : List Edge) {i j : Nat} (hi : i < xs.length) (hj : j < xs.length) :
    lessAt xs j i = true ↔ prioAt xs i < prioAt xs j := by
  unfold lessAt prioAt
  rw [List.getElem?_eq_getElem hi, List.getElem?_eq_getElem hj, getD_eq_of_lt xs hi,
    getD_eq_of_lt xs hj]
  exact Less_iff _ _

theorem swap_getD (xs : List Edge) {i j : Nat} (hi : i < xs.length) (hj : j < xs.length)
    (k : Nat) (d : Edge) :
    (swap xs i j).getD k d =
      if k = j then xs.getD i d else if k = i then xs.getD j d else xs.getD k d := by
  unfold swap
  rw [List.getElem?_eq_getElem hi, List.getElem?_eq_getElem hj]
  simp only [List.getD, List.getElem?_set]
  by_cases hkj : k = j
  · subst hkj
    simp [hi, hj, List.getElem?_eq_getElem]
  · by_cases hki : k = i
    · subst hki
      simp [hi, hj, hkj, Ne.symm hkj, List.getElem?_eq_getElem]
    · simp [hkj, hki, Ne.symm hkj, Ne.symm hki]

theorem prioAt_swap (xs : List Edge) {i j : Nat} (hi : i < xs.length) (hj : j < xs.length)
    (k : Nat) :
    prioAt (swap xs i j) k =
      if k = j then prioAt xs i else if k = i then prioAt xs j else prioAt xs k := by
  unfold prioAt
  rw [swap_getD xs hi hj]
  split
  · rfl
  · split <;> rfl

theorem up_length (fuel : Nat) (xs : List Edge) (j : Nat) : (up fuel xs j).length = xs.length :=
  (up_perm fuel xs j).length_eq

theorem down_length (fuel : Nat) (xs : List Edge) (i n : Nat) :
    (down fuel xs i n).length = xs.length :=
  (down_perm fuel xs i n).length_eq

/-- Sifting up restores the heap property when it fails only between `j`
and its parent. -/
theorem up_heap (fuel : Nat) :
    ∀ (xs : List Edge) (j : Nat), j < fuel → j < xs.length →
      (∀ c, 0 < c → c < xs.length → c ≠ j → prioAt xs c ≤ prioAt xs ((c - 1) / 2)) →
      (∀ c, 0 < c → c < xs.length → (c - 1) / 2 = j → 0 < j →
        prioAt xs c ≤ prioAt xs ((j - 1) / 2)) →
      heapUpTo (up fuel xs j) xs.length := by
  induction fuel with
  | zero => intro xs j h; omega
  | succ fuel ih =>
    intro xs j hf hj h1 h2
    unfold up
    split
    · next hstop =>
      intro c hc0 hcn
      by_cases hcj : c = j
      · subst hcj
        rcases hstop with hs | hs
        · omega
        · have hi : (c - 1) / 2 < xs.length := by omega
          rw [lessAt_iff xs hi hj] at hs
          exact not_lt.mp hs
      · exact h1 c hc0 hcn hcj
    · next hgo =>
      push_neg at hgo
      obtain ⟨hne, hless⟩ := hgo
      have hj0 : 0 < j := by omega
      have hi : (j - 1) / 2 < xs.length := by omega
      have hlt : prioAt xs ((j - 1) / 2) < prioAt xs j := (lessAt_iff xs hi hj).mp hless
      have hlen := swap_length xs ((j - 1) / 2) j
      have key := ih (swap xs ((j - 1) / 2) j) ((j - 1) / 2) (by omega) (by omega) ?_ ?_
      · rw [hlen] at key; exact key
      · intro c hc0 hcn hci
        rw [hlen] at hcn
        rw [prioAt_swap xs hi hj, prioAt_swap xs hi hj]
        by_cases hcj : c = j
        · subst hcj
          rw [if_pos rfl, if_neg hne, if_pos rfl]
          exact le_of_lt hlt
        · rw [if_neg hcj, if_neg hci]
          by_cases hpj : (c - 1) / 2 = j
          · rw [if_pos hpj]
            exact h2 c hc0 hcn hpj hj0
          · rw [if_neg hpj]
            by_cases hpi : (c - 1) / 2 = (j - 1) / 2
            · rw [if_pos hpi]
              exact le_trans (hpi ▸ h1 c hc0 hcn hcj) (le_of_lt hlt)
            · rw [if_neg hpi]
              exact h1 c hc0 hcn hcj
      · intro c hc0 hcn hpc hi0
        rw [hlen] at hcn
        rw [prioAt_swap xs hi hj, prioAt_swap xs hi hj]
        have hpi1 : ((j - 1) / 2 - 1) / 2 ≠ j := by omega
        have hpi2 : ((j - 1) / 2 - 1) / 2 ≠ (j - 1) / 2 := by omega
        rw [if_neg hpi1, if_neg hpi2]
        have hiup := h1 ((j - 1) / 2) hi0 hi (by omega)
        by_cases hcj : c = j
        · rw [if_pos hcj]
          exact hiup
        · have hci : c ≠ (j - 1) / 2 := by omega
          rw [if_neg hcj, if_neg hci]
          exact le_trans (hpc ▸ h1 c hc0 hcn hcj) hiup


/-- Sifting down restores the heap property on the first `n` entries when it
fails only between `i` and its children. -/
theorem down_heap (fuel : Nat) :
    ∀ (xs : List Edge) (i n : Nat), n ≤ i + fuel → n ≤ xs.length →
      (∀ c, 0 < c → c < n → (c - 1) / 2 ≠ i → prioAt xs c ≤ prioAt xs ((c - 1) / 2)) →
      (∀ c, 0 < c → c < n → (c - 1) / 2 = i → 0 < i →
        prioAt xs c ≤ prioAt xs ((i - 1) / 2)) →
      heapUpTo (down fuel xs i n) n := by
  induction fuel with
  | zero =>
    intro xs i n hf _ h1 _ c hc0 hcn
    exact h1 c hc0 hcn (by omega)
  | succ fuel ih =>
    intro xs i n hf hn h1 h2
    unfold down
    split
    · next hstop =>
      intro c hc0 hcn
      exact h1 c hc0 hcn (by omega)
    · next hgo =>
      have hj1 : 2 * i + 1 < n := by omega
      have hi : i < xs.length := by omega
      simp only
      split
      · next hc2 =>
        -- the right child has the higher priority
        obtain ⟨hj2, hl21⟩ := hc2
        have hlt21 : prioAt xs (2 * i + 1) < prioAt xs (2 * i + 2) :=
          (lessAt_iff xs (by omega) (by omega)).mp hl21
        split
        · next hstop =>
          rw [lessAt_iff xs hi (by omega)] at hstop
          have hle := not_lt.mp hstop
          intro c hc0 hcn
          by_cases hp : (c - 1) / 2 = i
          · rw [hp]
            rcases (show c = 2 * i + 1 ∨ c = 2 * i + 2 by omega) with rfl | rfl
            · exact le_trans (le_of_lt hlt21) hle
            · exact hle
          · exact h1 c hc0 hcn hp
        · next hsw =>
          rw [not_not, lessAt_iff xs hi (by omega)] at hsw
          have hjl : 2 * i + 2 < xs.length := by omega
          have hlen := swap_length xs i (2 * i + 2)
          apply ih (swap xs i (2 * i + 2)) (2 * i + 2) n (by omega) (by omega)
          · intro c hc0 hcn hp
            rw [prioAt_swap xs hi hjl, prioAt_swap xs hi hjl]
            by_cases hcj : c = 2 * i + 2
            · have e1 : (c - 1) / 2 = i := by omega
              rw [if_pos hcj, if_neg hp, if_pos e1]
              exact le_of_lt hsw
            rw [if_neg hcj, if_neg hp]
            by_cases hci : c = i
            · have hi0 : 0 < i := by omega
              have hpi : (c - 1) / 2 ≠ i := by omega
              rw [if_pos hci, if_neg hpi, hci]
              exact h2 (2 * i + 2) (by omega) hj2 (by omega) hi0
            · rw [if_neg hci]
              by_cases hpi : (c - 1) / 2 = i
              · rw [if_pos hpi]
                rcases (show c = 2 * i + 1 ∨ c = 2 * i + 2 by omega) with rfl | rfl
                · exact le_of_lt hlt21
                · exact absurd rfl hcj
              · rw [if_neg hpi]
                exact h1 c hc0 hcn hpi
          · intro c hc0 hcn hp _
            rw [prioAt_swap xs hi hjl, prioAt_swap xs hi hjl]
            have e : (2 * i + 2 - 1) / 2 = i := by omega
            rw [e, if_neg (by omega), if_neg (by omega), if_neg (by omega), if_pos rfl]
            have := h1 c hc0 hcn (by omega)
            rw [hp] at this
            exact this
      · next hc2 =>
        -- the left child has the higher priority, or is the only child
        have hle21 : 2 * i + 2 < n → prioAt xs (2 * i + 2) ≤ prioAt xs (2 * i + 1) := by
          intro h
          have : ¬ lessAt xs (2 * i + 2) (2 * i + 1) = true := fun h' => hc2 ⟨h, h'⟩
          rw [lessAt_iff xs (by omega) (by omega)] at this
          exact not_lt.mp this
        split
        · next hstop =>
          rw [lessAt_iff xs hi (by omega)] at hstop
          have hle := not_lt.mp hstop
          intro c hc0 hcn
          by_cases hp : (c - 1) / 2 = i
          · rw [hp]
            rcases (show c = 2 * i + 1 ∨ c = 2 * i + 2 by omega) with rfl | rfl
            · exact hle
            · exact le_trans (hle21 hcn) hle
          · exact h1 c hc0 hcn hp
        · next hsw =>
          rw [not_not, lessAt_iff xs hi (by omega)] at hsw
          have hjl : 2 * i + 1 < xs.length := by omega
          have hlen := swap_length xs i (2 * i + 1)
          apply ih (swap xs i (2 * i + 1)) (2 * i + 1) n (by omega) (by omega)
          · intro c hc0 hcn hp
            rw [prioAt_swap xs hi hjl, prioAt_swap xs hi hjl]
            by_cases hcj : c = 2 * i + 1
            · have e1 : (c - 1) / 2 = i := by omega
              rw [if_pos hcj, if_neg hp, if_pos e1]
              exact le_of_lt hsw
            rw [if_neg hcj, if_neg hp]
            by_cases hci : c = i
            · have hi0 : 0 < i := by omega
              have hpi : (c - 1) / 2 ≠ i := by omega
              rw [if_pos hci, if_neg hpi, hci]
              exact h2 (2 * i + 1) (by omega) hj1 (by omega) hi0
            · rw [if_neg hci]
              by_cases hpi : (c - 1) / 2 = i
              · rw [if_pos hpi]
                rcases (show c = 2 * i + 1 ∨ c = 2 * i + 2 by omega) with rfl | rfl
                · exact absurd rfl hcj
                · exact hle21 hcn
              · rw [if_neg hpi]
                exact h1 c hc0 hcn hpi
          · intro c hc0 hcn hp _
            rw [prioAt_swap xs hi hjl, prioAt_swap xs hi hjl]
            have e : (2 * i + 1 - 1) / 2 = i := by omega
            rw [e, if_neg (by omega), if_neg (by omega), if_neg (by omega), if_pos rfl]
            have := h1 c hc0 hcn (by omega)
            rw [hp] at this
            exact this

/-- Sifting down leaves the entries from `n` on untouched. -/
theorem down_prioAt_ge (fuel : Nat) :
    ∀ (xs : List Edge) (i n k : Nat), n ≤ xs.length → n ≤ k →
      prioAt (down fuel xs i n) k = prioAt xs k := by
  induction fuel with
  | zero => intros; rfl
  | succ fuel ih =>
    intro xs i n k hn hk
    unfold down
    split
    · rfl
    · simp only
      split <;> split <;>
        first
        | rfl
        | (rw [ih _ _ _ _ (by rw [swap_length]; exact hn) hk,
            prioAt_swap xs (by omega) (by omega), if_neg (by omega), if_neg (by omega)])

/-- In a heap the first entry has the highest priority. -/
theorem heap_root_max {xs : List Edge} {n : Nat} (h : heapUpTo xs n) :
    ∀ c, c < n → prioAt xs c ≤ prioAt xs 0 := by
  intro c
  induction c using Nat.strong_induction_on with
  | _ c ih =>
    intro hc
    rcases Nat.eq_zero_or_pos c with h0 | h0
    · rw [h0]
    · exact le_trans (h c h0 hc) (ih ((c - 1) / 2) (by omega) (by omega))

theorem prioAt_append_left (xs ys : List Edge) {c : Nat} (h : c < xs.length) :
    prioAt (xs ++ ys) c = prioAt xs c := by
  unfold prioAt
  rw [getD_eq_of_lt _ (by rw [List.length_append]; omega), getD_eq_of_lt _ h,
    List.getElem_append_left h]

/-- `heap.Push` keeps the heap property. -/
theorem heapPush_heap (xs : List Edge) (e : Edge) (h : heapUpTo xs xs.length) :
    heapUpTo (heapPush xs e) (heapPush xs e).length := by
  have hlen : (xs ++ [e]).length = xs.length + 1 := by simp
  have key := up_heap (xs.length + 1) (xs ++ [e]) xs.length (by omega) (by omega) ?_ ?_
  · unfold heapPush
    rw [up_length]
    exact key
  · intro c hc0 hcn hne
    rw [hlen] at hcn
    rw [prioAt_append_left xs [e] (show c < xs.length by omega),
      prioAt_append_left xs [e] (show (c - 1) / 2 < xs.length by omega)]
    exact h c hc0 (by omega)
  · intro c hc0 hcn hp _
    rw [hlen] at hcn
    omega

theorem foldl_heapPush_heap (es : List Edge) :
    ∀ xs : List Edge, heapUpTo xs xs.length →
      heapUpTo (es.foldl heapPush xs) (es.foldl heapPush xs).length := by
  induction es with
  | nil => intro xs h; exact h
  | cons e es ih => intro xs h; exact ih _ (heapPush_heap xs e h)

theorem mem_iff_prioAt {xs : List Edge} {e : Edge} (h : e ∈ xs) :
    ∃ c, c < xs.length ∧ prioAt xs c = prio e := by
  obtain ⟨c, hc, rfl⟩ := List.mem_iff_getElem.mp h
  exact ⟨c, hc, by unfold prioAt; rw [getD_eq_of_lt xs hc]⟩


theorem prioAt_dropLast (zs : List Edge) {c : Nat} (h : c < zs.length - 1) :
    prioAt zs.dropLast c = prioAt zs c := by
  unfold prioAt
  rw [getD_eq_of_lt _ (by rw [List.length_dropLast]; exact h), getD_eq_of_lt _ (by omega),
    List.getElem_dropLast]

/-- `heap.Pop` returns an entry of the highest priority and keeps the heap
property on the rest. -/
theorem heapPop_heap {xs : List Edge} {top : Edge} {rest : List Edge}
    (h : heapUpTo xs xs.length) (hpop : heapPop xs = some (top, rest)) :
    heapUpTo rest rest.length ∧ ∀ e ∈ xs, prio e ≤ prio top := by
  cases xs with
  | nil => simp [heapPop] at hpop
  | cons x r =>
    simp only [heapPop] at hpop
    have h0 : 0 < (x :: r).length := by simp
    have hn : r.length < (x :: r).length := by simp
    have hslen : (swap (x :: r) 0 r.length).length = r.length + 1 := by
      rw [swap_length]; simp
    have hheap : heapUpTo (down (r.length + 1) (swap (x :: r) 0 r.length) 0 r.length)
        r.length := by
      apply down_heap _ _ _ _ (by omega) (by omega)
      · intro c hc0 hcn hp
        rw [prioAt_swap _ h0 hn, prioAt_swap _ h0 hn, if_neg (by omega), if_neg (by omega),
          if_neg (by omega), if_neg hp]
        exact h c hc0 (by simp; omega)
      · intro c _ _ _ h'; omega
    have hzlen : (down (r.length + 1) (swap (x :: r) 0 r.length) 0 r.length).length =
        r.length + 1 := by rw [down_length, hslen]
    cases hl : (down (r.length + 1) (swap (x :: r) 0 r.length) 0 r.length).getLast? with
    | none => rw [hl] at hpop; cases hpop
    | some top' =>
      rw [hl] at hpop
      simp only [Option.some.injEq, Prod.mk.injEq] at hpop
      obtain ⟨rfl, rfl⟩ := hpop
      have htop : prio top' = prioAt (x :: r) 0 := by
        rw [List.getLast?_eq_getElem?, hzlen, Nat.add_sub_cancel] at hl
        have e1 : prioAt (down (r.length + 1) (swap (x :: r) 0 r.length) 0 r.length) r.length
            = prio top' := by
          unfold prioAt
          rw [List.getD_eq_getElem?_getD, hl]; rfl
        rw [← e1, down_prioAt_ge _ _ _ _ _ (by omega) (Nat.le_refl _),
          prioAt_swap _ h0 hn, if_pos rfl]
      constructor
      · intro c hc0 hcn
        rw [List.length_dropLast, hzlen, Nat.add_sub_cancel] at hcn
        rw [prioAt_dropLast _ (by rw [hzlen]; omega), prioAt_dropLast _ (by rw [hzlen]; omega)]
        exact hheap c hc0 hcn
      · intro e he
        obtain ⟨c, hc, hce⟩ := mem_iff_prioAt he
        rw [← hce, htop]
        exact heap_root_max h c hc


/-! ## Phase 3 without queues -/

theorem prio_eq_iff (a b : Edge) : prio a = prio b ↔ a.counter = b.counter ∧ a.parent = b.parent := by
  unfold prio
  constructor
  · intro h
    exact ⟨congrArg (fun x => (ofLex x).1) h, congrArg (fun x => (ofLex x).2) h⟩
  · rintro ⟨h1, h2⟩; rw [h1, h2]

theorem noTie_mono {E : Edge → Prop} {S S' : String → Prop} (h : noTie E S)
    (hsub : ∀ x, S' x → S x) : noTie E S' :=
  fun e e' he he' hs hs' => h e e' he he' (hsub _ hs) (hsub _ hs')

/-- When no two nodes tie, the result of phase 3 is determined by the
parents, the set of non-rooted nodes and the edges. -/
theorem reattach_deterministic {E : Edge → Prop} {par p1 : String → Option String}
    {S S1 : String → Prop} (h1 : Reattach E par S p1 S1) :
    ∀ {p2 : String → Option String} {S2 : String → Prop}, noTie E S →
      Reattach E par S p2 S2 → p1 = p2 ∧ S1 = S2 := by
  induction h1 with
  | done hnone =>
    intro p2 S2 _ h2
    cases h2 with
    | done _ => exact ⟨rfl, rfl⟩
    | step e he hc hp _ _ => exact absurd (hnone e he hc hp) id
  | step e he hc hp hmax _ ih =>
    intro p2 S2 hnt h2
    cases h2 with
    | done hnone => exact absurd (hnone e he hc hp) id
    | step e' he' hc' hp' hmax' hrest =>
      have hpr : prio e = prio e' := le_antisymm (hmax' e he hc hp) (hmax e' he' hc' hp')
      obtain ⟨hcnt, hpar⟩ := (prio_eq_iff e e').mp hpr
      have hch : e.child = e'.child := hnt e e' he he' hc hc' hpar hcnt
      have hee : e = e' := by
        cases e; cases e'; simp_all
      subst hee
      exact ih (noTie_mono hnt (fun x hx => hx.1)) hrest


/-! ### The seed loop queues every edge -/

theorem seedEdge_ready_mono (nr : List String) (child : String) (q : Queues) (e : String × Int)
    {x : Edge} (hx : x ∈ q.ready) : x ∈ (seedEdge nr child q e).ready := by
  unfold seedEdge
  split
  · exact hx
  · exact (mem_heapPush _ _ _).mpr (Or.inr hx)

theorem seedEdge_deferred_mono (nr : List String) (child : String) (q : Queues)
    (e : String × Int) {k : String} {x : Edge} (hx : x ∈ q.deferred k) :
    x ∈ (seedEdge nr child q e).deferred k := by
  unfold seedEdge
  split
  · simp only
    split
    · exact List.mem_append_left _ hx
    · exact hx
  · exact hx

theorem seedEdge_places (nr : List String) (child : String) (q : Queues) (e : String × Int) :
    (e.1 ∉ nr → Edge.mk child e.1 e.2 ∈ (seedEdge nr child q e).ready) ∧
    (e.1 ∈ nr → Edge.mk child e.1 e.2 ∈ (seedEdge nr child q e).deferred e.1) := by
  unfold seedEdge
  constructor
  · intro h
    rw [if_neg h]
    exact (mem_heapPush _ _ _).mpr (Or.inl rfl)
  · intro h
    rw [if_pos h]
    simp

theorem seedEdge_heap (nr : List String) (child : String) (q : Queues) (e : String × Int)
    (h : heapUpTo q.ready q.ready.length) :
    heapUpTo (seedEdge nr child q e).ready (seedEdge nr child q e).ready.length := by
  unfold seedEdge
  split
  · exact h
  · exact heapPush_heap _ _ h

/-- What the seed loop has done after the nodes `done` and the edges `es` of
`child`: all their edges are queued. -/
theorem seedEdges_full (nr : List String) (child : String) :
    ∀ (es : List (String × Int)) (q : Queues) (P : Edge → Prop),
      heapUpTo q.ready q.ready.length →
      (∀ x, P x → (x.parent ∉ nr → x ∈ q.ready) ∧ (x.parent ∈ nr → x ∈ q.deferred x.parent)) →
      heapUpTo (es.foldl (seedEdge nr child) q).ready
          (es.foldl (seedEdge nr child) q).ready.length ∧
      ∀ x, (P x ∨ (x.child = child ∧ (x.parent, x.counter) ∈ es)) →
        (x.parent ∉ nr → x ∈ (es.foldl (seedEdge nr child) q).ready) ∧
        (x.parent ∈ nr → x ∈ (es.foldl (seedEdge nr child) q).deferred x.parent) := by
  intro es
  induction es with
  | nil =>
    intro q P hh hP
    refine ⟨hh, fun x hx => ?_⟩
    rcases hx with hx | ⟨_, hx⟩
    · exact hP x hx
    · cases hx
  | cons e es ih =>
    intro q P hh hP
    simp only [List.foldl_cons]
    have hP' : ∀ x, (P x ∨ (x.child = child ∧ (x.parent, x.counter) = e)) →
        (x.parent ∉ nr → x ∈ (seedEdge nr child q e).ready) ∧
        (x.parent ∈ nr → x ∈ (seedEdge nr child q e).deferred x.parent) := by
      intro x hx
      rcases hx with hx | ⟨hc, hx⟩
      · exact ⟨fun h => seedEdge_ready_mono nr child q e ((hP x hx).1 h),
          fun h => seedEdge_deferred_mono nr child q e ((hP x hx).2 h)⟩
      · have hxe : x = Edge.mk child e.1 e.2 := by
          cases x; cases hx; simp_all
        rw [hxe]
        exact seedEdge_places nr child q e
    obtain ⟨h1, h2⟩ := ih (seedEdge nr child q e)
      (fun x => P x ∨ (x.child = child ∧ (x.parent, x.counter) = e))
      (seedEdge_heap nr child q e hh) hP'
    refine ⟨h1, fun x hx => ?_⟩
    apply h2
    rcases hx with hx | ⟨hc, hx⟩
    · exact Or.inl (Or.inl hx)
    · rcases List.mem_cons.mp hx with hx | hx
      · exact Or.inl (Or.inr ⟨hc, hx⟩)
      · exact Or.inr ⟨hc, hx⟩

theorem seed_fold_full (t : Tree) (nr : List String) :
    ∀ (l : List String) (q : Queues) (P : Edge → Prop),
      heapUpTo q.ready q.ready.length →
      (∀ x, P x → (x.parent ∉ nr → x ∈ q.ready) ∧ (x.parent ∈ nr → x ∈ q.deferred x.parent)) →
      heapUpTo
          (l.foldl (fun q child => (t.edgesOf child).foldl (seedEdge nr child) q) q).ready
          (l.foldl (fun q child => (t.edgesOf child).foldl (seedEdge nr child) q) q).ready.length ∧
      ∀ x, (P x ∨ (x.child ∈ l ∧ t.isEdge x)) →
        (x.parent ∉ nr →
          x ∈ (l.foldl (fun q child => (t.edgesOf child).foldl (seedEdge nr child) q) q).ready) ∧
        (x.parent ∈ nr →
          x ∈ (l.foldl (fun q child => (t.edgesOf child).foldl (seedEdge nr child) q)
            q).deferred x.parent) := by
  intro l
  induction l with
  | nil =>
    intro q P hh hP
    refine ⟨hh, fun x hx => ?_⟩
    rcases hx with hx | ⟨hx, _⟩
    · exact hP x hx
    · cases hx
  | cons c l ih =>
    intro q P hh hP
    simp only [List.foldl_cons]
    obtain ⟨g1, g2⟩ := seedEdges_full nr c (t.edgesOf c) q P hh hP
    obtain ⟨h1, h2⟩ := ih _ (fun x => P x ∨ (x.child = c ∧ (x.parent, x.counter) ∈ t.edgesOf c))
      g1 g2
    refine ⟨h1, fun x hx => ?_⟩
    apply h2
    rcases hx with hx | ⟨hc, hx⟩
    · exact Or.inl (Or.inl hx)
    · rcases List.mem_cons.mp hc with hc | hc
      · left; right
        refine ⟨hc, ?_⟩
        unfold Tree.isEdge at hx
        rw [hc] at hx
        exact hx
      · exact Or.inr ⟨hc, hx⟩

/-- After the seed loop every edge of every non-rooted node is queued, and
the ready edges form a heap. -/
theorem seed_full (t : Tree) (nr : List String) : QueueFull t nr (seed t nr) := by
  unfold seed
  obtain ⟨h1, h2⟩ := seed_fold_full t nr nr ⟨[], fun _ => []⟩ (fun _ => False)
    (fun c _ hc => by simp at hc) (fun x hx => absurd hx id)
  exact ⟨fun e he hc hp => (h2 e (Or.inr ⟨hc, he⟩)).1 hp,
    fun e he hc hp => (h2 e (Or.inr ⟨hc, he⟩)).2 hp, h1⟩


/-! ### The reattachment loop follows the description without queues -/

theorem setParent_parentOf_fun (t : Tree) {c : String} (p : String) (hc : c ∈ t.ids) :
    (t.setParent c p).parentOf = fun x => if x = c then some p else t.parentOf x := by
  funext x
  rw [setParent_parentOf]
  by_cases h : x = c
  · rw [if_pos ⟨h, h ▸ hc⟩, if_pos h]
  · rw [if_neg (fun h' => h h'.1), if_neg h]

theorem mem_erase_fun {nr : List String} (hnd : nr.Nodup) (c : String) :
    (fun x => x ∈ nr.erase c) = fun x => x ∈ nr ∧ x ≠ c := by
  funext x
  apply propext
  rw [hnd.mem_erase_iff]
  exact And.comm

theorem reattachLoop_run (t0 : Tree) (nr0 : List String) (hids : nr0 ⊆ t0.ids) (fuel : Nat) :
    ∀ (t : Tree) (nr : List String) (q : Queues), t.skel = t0.skel → nr ⊆ nr0 → nr.Nodup →
      QueueInv t0 nr0 nr q → QueueFull t0 nr q → pending nr q.deferred q.ready < fuel →
      Reattach t0.isEdge t.parentOf (fun x => x ∈ nr)
        (reattachLoop fuel t nr q.deferred q.ready).1.parentOf
        (fun x => x ∈ (reattachLoop fuel t nr q.deferred q.ready).2) := by
  induction fuel with
  | zero => intro t nr q _ _ _ _ _ h; omega
  | succ fuel ih =>
    intro t nr q hskel hsub hnd hq hfull hpend
    unfold reattachLoop
    cases hpop : heapPop q.ready with
    | none =>
      have hnil : q.ready = [] := (heapPop_none _).mp hpop
      apply Reattach.done
      intro e he hc hp
      have := hfull.ready_all e he hc hp
      rw [hnil] at this
      cases this
    | some val =>
      obtain ⟨top, ready1⟩ := val
      have hperm := heapPop_perm hpop
      have htop : top ∈ q.ready := hperm.mem_iff.mpr (List.mem_cons_self _ _)
      have hrest : ∀ e ∈ ready1, e ∈ q.ready :=
        fun e he => hperm.mem_iff.mpr (List.mem_cons_of_mem _ he)
      obtain ⟨hheap1, hmax⟩ := heapPop_heap hfull.heap hpop
      obtain ⟨htc, hte, htp⟩ := hq.ready_ok top htop
      have hlen : q.ready.length = ready1.length + 1 := by
        rw [hperm.length_eq]; rfl
      simp only
      split
      · next hin =>
        have hcid : top.child ∈ t.ids := by rw [ids_congr hskel]; exact hids htc
        have hnd' : top.child ∉ nr.erase top.child := hnd.not_mem_erase
        apply Reattach.step top hte hin htp
        · intro e' he' hc' hp'
          exact hmax e' (hfull.ready_all e' he' hc' hp')
        · rw [← setParent_parentOf_fun t top.parent hcid, ← mem_erase_fun hnd top.child]
          apply ih (t.setParent top.child top.parent) (nr.erase top.child)
            ⟨(q.deferred top.child).foldl heapPush ready1, q.deferred⟩
          · rw [setParent_skel]; exact hskel
          · exact fun x hx => hsub (List.mem_of_mem_erase hx)
          · exact hnd.erase _
          · refine ⟨?_, hq.deferred_ok⟩
            intro e he
            simp only at he
            rcases List.mem_append.mp ((foldl_heapPush_perm _ _).mem_iff.mp he) with he | he
            · obtain ⟨h1, h2, h3⟩ := hq.deferred_ok top.child e he
              exact ⟨h1, h2, h3 ▸ hnd'⟩
            · obtain ⟨h1, h2, h3⟩ := hq.ready_ok e (hrest e he)
              exact ⟨h1, h2, fun h => h3 (List.mem_of_mem_erase h)⟩
          · refine ⟨?_, ?_, foldl_heapPush_heap _ _ hheap1⟩
            · intro e he hc hp
              simp only
              rw [(foldl_heapPush_perm _ _).mem_iff, List.mem_append]
              have hc1 := (hnd.mem_erase_iff.mp hc)
              by_cases hpn : e.parent ∈ nr
              · have hpe : e.parent = top.child := by
                  by_contra hne
                  exact hp (hnd.mem_erase_iff.mpr ⟨hne, hpn⟩)
                left
                rw [← hpe]
                exact hfull.deferred_all e he hc1.2 hpn
              · right
                have hmem := hfull.ready_all e he hc1.2 hpn
                rcases List.mem_cons.mp (hperm.mem_iff.mp hmem) with h | h
                · exact absurd (h ▸ rfl : e.child = top.child) hc1.1
                · exact h
            · intro e he hc hp
              exact hfull.deferred_all e he (List.mem_of_mem_erase hc)
                (List.mem_of_mem_erase hp)
          · unfold pending at hpend ⊢
            simp only
            rw [(foldl_heapPush_perm _ _).length_eq, List.length_append]
            rw [sum_map_erase_of_mem (fun c => (q.deferred c).length) hin] at hpend
            omega
      · next hout =>
        apply ih t nr ⟨ready1, q.deferred⟩ hskel hsub hnd
        · exact ⟨fun e he => hq.ready_ok e (hrest e he), hq.deferred_ok⟩
        · refine ⟨?_, hfull.deferred_all, hheap1⟩
          intro e he hc hp
          have hmem := hfull.ready_all e he hc hp
          rcases List.mem_cons.mp (hperm.mem_iff.mp hmem) with h | h
          · exact absurd (h ▸ hc) hout
          · exact h
        · unfold pending at hpend ⊢
          simp only
          omega

/-- Phase 3, iterated over `nr`, follows the description without queues. -/
theorem phase3_run (t0 : Tree) (hnd : t0.ids.Nodup) (nr : List String) (hnr : nr.Nodup)
    (hsub : nr ⊆ t0.ids) :
    Reattach t0.isEdge t0.parentOf (fun x => x ∈ nr) (phase3 t0 nr).1.parentOf
      (fun x => x ∈ (phase3 t0 nr).2) := by
  unfold phase3
  split
  · apply reattachLoop_run t0 nr hsub _ t0 nr (seed t0 nr) rfl (List.Subset.refl _) hnr
      (seed_inv t0 nr) (seed_full t0 nr)
    rw [seed_pending t0 nr hnr]
    exact Nat.lt_succ_of_le (sum_edges_le_edgeCount t0 hnd hnr hsub)
  · next h =>
    have hnil : nr = [] := by
      cases nr with
      | nil => rfl
      | cons a l => simp at h
    subst hnil
    apply Reattach.done
    intro e _ hc _
    cases hc


/-! ### Child lists after phase 4 -/

theorem phase4_childrenOf (u : Tree) (x : String) :
    (phase4 u).childrenOf x =
      if x ∈ u.ids then
        sortIds ((u.nodes.filter fun m => m.parent = some x).map fun m => m.id)
      else [] := by
  unfold Tree.childrenOf
  rw [phase4_node]
  cases hn : u.node x with
  | none =>
    have := (node_eq_none_iff _ x).mp hn
    simp [this]
  | some n =>
    have hx : x ∈ u.ids := (node_isSome_iff _ x).mp (by rw [hn]; rfl)
    have hid : n.id = x := (node_mem hn).2
    simp [hx, hid]

theorem phase4_childrenOf_nodup (u : Tree) (hnd : u.ids.Nodup) (x : String) :
    ((phase4 u).childrenOf x).Nodup := by
  rw [phase4_childrenOf]
  split
  · apply (List.perm_insertionSort _ _).nodup_iff.mpr
    exact (List.Nodup.sublist (List.Sublist.map _ (List.filter_sublist _)) hnd)
  · exact List.nodup_nil

theorem phase4_childrenOf_sorted (u : Tree) (x : String) :
    ((phase4 u).childrenOf x).Sorted (fun a b => a ≤ b) := by
  rw [phase4_childrenOf]
  split
  · exact sortIds_sorted _
  · exact List.sorted_nil

theorem mem_phase4_childrenOf (u : Tree) (hnd : u.ids.Nodup) (x c : String) :
    c ∈ (phase4 u).childrenOf x ↔ x ∈ u.ids ∧ c ∈ u.ids ∧ u.parentOf c = some x := by
  rw [phase4_childrenOf]
  split
  · next hx =>
    simp only [mem_sortIds, List.mem_map, List.mem_filter, decide_eq_true_eq, hx, true_and]
    constructor
    · rintro ⟨m, ⟨hm, hp⟩, rfl⟩
      exact ⟨List.mem_map_of_mem _ hm, by rw [parentOf_of_mem hnd hm]; exact hp⟩
    · rintro ⟨hc, hp⟩
      obtain ⟨m, hm, rfl⟩ := List.mem_map.mp hc
      exact ⟨m, ⟨hm, by rw [← parentOf_of_mem hnd hm]; exact hp⟩, rfl⟩
  · next hx => simp [hx]

/-- Phase 4 gives the same child lists to trees with the same nodes and the
same parents. -/
theorem phase4_childrenOf_congr {u u' : Tree} (hnd : u.ids.Nodup) (hnd' : u'.ids.Nodup)
    (hids : ∀ x, x ∈ u.ids ↔ x ∈ u'.ids) (hpar : ∀ x, u.parentOf x = u'.parentOf x)
    (x : String) : (phase4 u).childrenOf x = (phase4 u').childrenOf x := by
  apply List.eq_of_perm_of_sorted (r := fun a b : String => a ≤ b) _
    (phase4_childrenOf_sorted u x) (phase4_childrenOf_sorted u' x)
  rw [List.perm_ext_iff_of_nodup (phase4_childrenOf_nodup u hnd x)
    (phase4_childrenOf_nodup u' hnd' x)]
  intro c
  rw [mem_phase4_childrenOf u hnd, mem_phase4_childrenOf u' hnd', hids x, hids c, hpar c]

/-! ### The recomputation without ties -/

theorem phase3_ids (t : Tree) (nr : List String) : (phase3 t nr).1.ids = t.ids :=
  ids_congr (phase3_skel t nr)

theorem sameMaps_isEdge {t t' : Tree} (h : t.sameMaps t') :
    (phase1 t).isEdge = (phase1 t').isEdge := by
  funext e
  apply propext
  unfold Tree.isEdge
  rw [edgesOf_congr (phase1_skel t), edgesOf_congr (phase1_skel t')]
  exact (h.2 e.child).mem_iff

/-- Without ties the recomputation gives the same parents and the same child
lists in every order of iteration of the node map, of the edge maps and of
the set of non-rooted nodes. -/
theorem recomputeWith_order_independent {t t' : Tree} (h : t.sameMaps t') (hnd : t.ids.Nodup)
    (nr nr' : List String) (hnr : nr.Nodup) (hnr' : nr'.Nodup)
    (hmem : ∀ x, x ∈ nr ↔ x ∈ nonRootedNodes (phase1 t))
    (hmem' : ∀ x, x ∈ nr' ↔ x ∈ nonRootedNodes (phase1 t'))
    (hnt : noTie (phase1 t).isEdge (fun x => x ∈ nonRootedNodes (phase1 t))) (x : String) :
    (t.recomputeWith nr).parentOf x = (t'.recomputeWith nr').parentOf x ∧
    (t.recomputeWith nr).childrenOf x = (t'.recomputeWith nr').childrenOf x := by
  have hnd' : t'.ids.Nodup := sameMaps_nodup h hnd
  have hsub : nr ⊆ (phase1 t).ids := fun y hy =>
    (nonRootedNodes_spec _ (phase1_parentsWithin t) y ((hmem y).mp hy)).1
  have hsub' : nr' ⊆ (phase1 t').ids := fun y hy =>
    (nonRootedNodes_spec _ (phase1_parentsWithin t') y ((hmem' y).mp hy)).1
  have r1 := phase3_run (phase1 t) (by rw [phase1_ids]; exact hnd) nr hnr hsub
  have r2 := phase3_run (phase1 t') (by rw [phase1_ids]; exact hnd') nr' hnr' hsub'
  have hS : (fun x => x ∈ nr') = fun x => x ∈ nr := by
    funext y
    apply propext
    rw [hmem, hmem', sameMaps_nonRooted h]
  have hS0 : (fun x => x ∈ nonRootedNodes (phase1 t)) = fun x => x ∈ nr := by
    funext y; exact propext (hmem y).symm
  have hpar0 : (phase1 t').parentOf = (phase1 t).parentOf :=
    funext fun y => (sameMaps_phase1_parentOf h y).symm
  rw [← sameMaps_isEdge h, hS, hpar0] at r2
  rw [hS0] at hnt
  obtain ⟨hp, _⟩ := reattach_deterministic r1 hnt r2
  have hpx : ∀ y, (phase3 (phase1 t) nr).1.parentOf y = (phase3 (phase1 t') nr').1.parentOf y :=
    fun y => congrFun hp y
  constructor
  · unfold Tree.recomputeWith
    rw [phase4_parentOf, phase4_parentOf]
    exact hpx x
  · unfold Tree.recomputeWith
    apply phase4_childrenOf_congr _ _ _ hpx
    · rw [phase3_ids, phase1_ids]; exact hnd
    · rw [phase3_ids, phase1_ids]; exact hnd'
    · intro y
      rw [phase3_ids, phase1_ids, phase3_ids, phase1_ids]
      exact sameMaps_mem_ids h y

theorem recomputeWith_nonRooted (t : Tree) :
    t.recomputeWith (nonRootedNodes (phase1 t)) = t.recomputeParentsAndChildren := rfl


/-! ## Claims about the register store -/

/-- Claim C2. LWW accept rule of `DB.apply`: the row at `(op.ID, op.Key)` is
replaced by `{op.Value, op.Peer, op.Timestamp}` exactly when no row is stored
there that dominates the op (a later timestamp, or the same timestamp and a
greater peer); when such a row exists it is left as it was; rows at other keys
are never touched; and an op on a key without a row is always stored. -/
theorem lww_accept_rule (db : DB) (op : Op) :
    (¬ rejected db op →
      (db.apply op).rows (IdKey.mk op.ID op.Key) =
        some (Row.mk op.Value op.Peer op.Timestamp)) ∧
    (rejected db op →
      (db.apply op).rows (IdKey.mk op.ID op.Key) = db.rows (IdKey.mk op.ID op.Key)) ∧
    (∀ k, k ≠ IdKey.mk op.ID op.Key → (db.apply op).rows k = db.rows k) ∧
    (db.rows (IdKey.mk op.ID op.Key) = none →
      (db.apply op).rows (IdKey.mk op.ID op.Key) =
        some (Row.mk op.Value op.Peer op.Timestamp)) := by
  refine ⟨fun h => ?_, fun h => ?_, fun k hk => ?_, fun h => ?_⟩
  · simp [apply_rows, h]
  · simp [apply_rows, h]
  · simp [apply_rows, hk]
  · simp [apply_rows, not_rejected_of_none db op h]

/-- Witness for claim C2: a tie on the timestamp with a smaller peer is
rejected and leaves the row, a tie with a greater peer replaces it, and an op
with timestamp 0 and the empty peer on an empty store is stored. -/
theorem lww_accept_rule_witness :
    (((newDB "p1").apply (Op.mk "A" "B" 3 "p2" 10)).apply (Op.mk "A" "B" 4 "p1" 10)).rows
        (IdKey.mk "A" "B") = some (Row.mk 3 "p2" 10) ∧
    (((newDB "p1").apply (Op.mk "A" "B" 3 "p2" 10)).apply (Op.mk "A" "B" 4 "p3" 10)).rows
        (IdKey.mk "A" "B") = some (Row.mk 4 "p3" 10) ∧
    ((newDB "p1").apply (Op.mk "A" "B" 7 "" 0)).rows (IdKey.mk "A" "B") =
      some (Row.mk 7 "" 0) :=
  ⟨((lww_accept_rule ((newDB "p1").apply (Op.mk "A" "B" 3 "p2" 10))
      (Op.mk "A" "B" 4 "p1" 10)).2.1 (by decide)).trans (by decide),
   (lww_accept_rule ((newDB "p1").apply (Op.mk "A" "B" 3 "p2" 10))
      (Op.mk "A" "B" 4 "p3" 10)).1 (by decide),
   (lww_accept_rule (newDB "p1") (Op.mk "A" "B" 7 "" 0)).2.2.2 rfl⟩

/-- Claim C3. LWW monotonicity: after a non-empty list of ops on one key has
been applied to an empty store, in whatever order the list has, the row
stored at that key carries a (timestamp, peer) pair that is an upper bound, in
the lexicographic order, of the pairs of all the ops, and the row is the row
of one of the ops. -/
theorem lww_monotonicity (peer : String) (k : IdKey) (ops : List Op)
    (hne : ops ≠ []) (hkey : ∀ o ∈ ops, o.ID = k.ID ∧ o.Key = k.Key) :
    ∃ row, ((newDB peer).applyAll ops).rows k = some row ∧
      (∀ o ∈ ops, stampLe o.Timestamp o.Peer row.timestamp row.peer) ∧
      (∃ o ∈ ops, o.Timestamp = row.timestamp ∧ o.Peer = row.peer ∧ o.Value = row.value) := by
  obtain ⟨o0, ho0⟩ := List.exists_mem_of_ne_nil ops hne
  obtain ⟨row, hrow, _⟩ :=
    applyAll_upper k ops (newDB peer) o0 ho0 (hkey o0 ho0).1 (hkey o0 ho0).2
  refine ⟨row, hrow, fun o ho => ?_, ?_⟩
  · obtain ⟨r', e1, l1⟩ := applyAll_upper k ops (newDB peer) o ho (hkey o ho).1 (hkey o ho).2
    rw [hrow] at e1; cases e1; exact l1
  · rcases applyAll_attained k ops (newDB peer) row hrow with h | ⟨o, ho, _, _, h⟩
    · cases h
    · exact ⟨o, ho, h⟩

/-- Witness for claim C3 on three ops on the key (A, B). -/
theorem lww_monotonicity_witness :
    ∃ row, ((newDB "p").applyAll
        [Op.mk "A" "B" 1 "p1" 5, Op.mk "A" "B" 2 "p2" 5, Op.mk "A" "B" 3 "p1" 4]).rows
          (IdKey.mk "A" "B") = some row ∧
      (∀ o ∈ [Op.mk "A" "B" 1 "p1" 5, Op.mk "A" "B" 2 "p2" 5, Op.mk "A" "B" 3 "p1" 4],
        stampLe o.Timestamp o.Peer row.timestamp row.peer) ∧
      (∃ o ∈ [Op.mk "A" "B" 1 "p1" 5, Op.mk "A" "B" 2 "p2" 5, Op.mk "A" "B" 3 "p1" 4],
        o.Timestamp = row.timestamp ∧ o.Peer = row.peer ∧ o.Value = row.value) :=
  lww_monotonicity "p" (IdKey.mk "A" "B") _ (by decide) (by decide)

/-- Claim C9, evaluated where it fails.  The store holds a row at (A, B) with
the largest `int64` timestamp.  `setValue((A, B), 1)` at the clock reading
1700000000000000000 computes `timestamp + 1`, which wraps to the smallest
`int64`, so the op keeps the clock reading as its timestamp; `apply` rejects
it, and `getValue` still returns the old value 0 with the old timestamp. -/
theorem setValue_rejected_at_max_timestamp :
    overflowDB.getValue (IdKey.mk "A" "B") = (0, true) ∧
    overflowDB.setValueOp (IdKey.mk "A" "B") 1 1700000000000000000 =
      Op.mk "A" "B" 1 "p1" 1700000000000000000 ∧
    (overflowDB.setValue (IdKey.mk "A" "B") 1 1700000000000000000).getValue
      (IdKey.mk "A" "B") = (0, true) ∧
    (overflowDB.setValue (IdKey.mk "A" "B") 1 1700000000000000000).getTimestamp
      (IdKey.mk "A" "B") = (maxInt64, true) := by
  decide

/-- Counterexample to claim C10.  On the store that holds the row of
`(A, B, 1, p1, 5)`, the op `(A, B, 2, p1, 5)` ties on timestamp and peer, is
accepted and changes the stored value; and the two ops applied in the two
orders leave different rows. -/
theorem tie_overwrites_value :
    ((newDB "p").apply (Op.mk "A" "B" 1 "p1" 5)).rows (IdKey.mk "A" "B") =
      some (Row.mk 1 "p1" 5) ∧
    (((newDB "p").apply (Op.mk "A" "B" 1 "p1" 5)).apply (Op.mk "A" "B" 2 "p1" 5)).rows
      (IdKey.mk "A" "B") = some (Row.mk 2 "p1" 5) ∧
    (((newDB "p").apply (Op.mk "A" "B" 2 "p1" 5)).apply (Op.mk "A" "B" 1 "p1" 5)).rows
      (IdKey.mk "A" "B") = some (Row.mk 1 "p1" 5) ∧
    (((newDB "p").apply (Op.mk "A" "B" 1 "p1" 5)).apply (Op.mk "A" "B" 2 "p1" 5)).rows ≠
      (((newDB "p").apply (Op.mk "A" "B" 2 "p1" 5)).apply (Op.mk "A" "B" 1 "p1" 5)).rows := by
  refine ⟨by decide, by decide, by decide, fun h => ?_⟩
  have h' := congrFun h (IdKey.mk "A" "B")
  revert h'
  decide

/-- Claim C10, amended.  An op whose timestamp, peer and value all equal those
of the row stored at its key leaves the rows map unchanged; and two ops that
are on different keys, or differ in timestamp or peer, or carry the same
value, leave the same rows map in both orders of application. -/
theorem ties_and_store_commutativity (db : DB) :
    (∀ (op : Op) (row : Row), db.rows (IdKey.mk op.ID op.Key) = some row →
      row.timestamp = op.Timestamp → row.peer = op.Peer → row.value = op.Value →
      (db.apply op).rows = db.rows) ∧
    (∀ a b : Op,
      (a.ID ≠ b.ID ∨ a.Key ≠ b.Key ∨ a.Timestamp ≠ b.Timestamp ∨ a.Peer ≠ b.Peer ∨
        a.Value = b.Value) →
      ((db.apply a).apply b).rows = ((db.apply b).apply a).rows) :=
  ⟨fun op row h ht hp hv => apply_tie_same_value db op row h ht hp hv,
   fun a b h => apply_comm_rows db a b h⟩

/-- Witness for the amended claim C10: an identical op is a no-op, and two
ops on one key with different timestamps commute. -/
theorem ties_and_store_commutativity_witness :
    (((newDB "p").apply (Op.mk "A" "B" 1 "p1" 5)).apply (Op.mk "A" "B" 1 "p1" 5)).rows =
      ((newDB "p").apply (Op.mk "A" "B" 1 "p1" 5)).rows ∧
    (((newDB "p").apply (Op.mk "A" "B" 1 "p1" 5)).apply (Op.mk "A" "B" 2 "p1" 6)).rows =
      (((newDB "p").apply (Op.mk "A" "B" 2 "p1" 6)).apply (Op.mk "A" "B" 1 "p1" 5)).rows :=
  ⟨(ties_and_store_commutativity ((newDB "p").apply (Op.mk "A" "B" 1 "p1" 5))).1
      (Op.mk "A" "B" 1 "p1" 5) (Row.mk 1 "p1" 5) (by decide) rfl rfl rfl,
   (ties_and_store_commutativity (newDB "p")).2 (Op.mk "A" "B" 1 "p1" 5)
      (Op.mk "A" "B" 2 "p1" 6) (by decide)⟩

/-! ## Claims about the tree view -/

theorem walk_self {par : String → Option String} {x : String} (h : par x = some x) :
    ∀ k, walk par k x = some x := by
  intro k
  induction k with
  | zero => rfl
  | succ k ih => simp only [walk, h]; exact ih

/-- Claim C1, evaluated where it fails.  The ops `a = (A, ROOT, 0, p1, t=2)`
and `b = (A, ROOT, -1, p1, t=1)` are applied to two fresh replicas, in the
order `a, b` on the first and `b, a` on the second.  The stores agree (`a`
wins on both), but on the first replica the observer also runs for the
rejected `b` and deletes the edge, so `A` has no parent there while its
parent is the root on the second; the children of the root differ too. -/
theorem convergence_fails_on_rejected_op :
    ((newReplica "r1").applyAll
        [Op.mk "A" ROOT 0 "p1" 2, Op.mk "A" ROOT (-1) "p1" 1]).db.rows (IdKey.mk "A" ROOT) =
      some (Row.mk 0 "p1" 2) ∧
    ((newReplica "r2").applyAll
        [Op.mk "A" ROOT (-1) "p1" 1, Op.mk "A" ROOT 0 "p1" 2]).db.rows (IdKey.mk "A" ROOT) =
      some (Row.mk 0 "p1" 2) ∧
    ((newReplica "r1").applyAll
        [Op.mk "A" ROOT 0 "p1" 2, Op.mk "A" ROOT (-1) "p1" 1]).tree.parentOf "A" = none ∧
    ((newReplica "r2").applyAll
        [Op.mk "A" ROOT (-1) "p1" 1, Op.mk "A" ROOT 0 "p1" 2]).tree.parentOf "A" = some ROOT ∧
    ((newReplica "r1").applyAll
        [Op.mk "A" ROOT 0 "p1" 2, Op.mk "A" ROOT (-1) "p1" 1]).tree.childrenOf ROOT = [] ∧
    ((newReplica "r2").applyAll
        [Op.mk "A" ROOT (-1) "p1" 1, Op.mk "A" ROOT 0 "p1" 2]).tree.childrenOf ROOT = ["A"] := by
  decide

/-- Counterexample to claim C4.  After the op `(A, A, 0)` the node `A` is its
own parent.  After the ops `(A, B, 0)` and `(B, A, 0)` the nodes `A` and `B`
are each other's parent: the walk from `A` never reaches the root and never
ends; both nodes are left in `nonRootedNodes`. -/
theorem island_keeps_cycle :
    ((newReplica "p").applyAll [Op.mk "A" "A" 0 "p" 1]).tree.parentOf "A" = some "A" ∧
    ((newReplica "p").applyAll
        [Op.mk "A" "B" 0 "p" 1, Op.mk "B" "A" 0 "p" 2]).tree.parentOf "A" = some "B" ∧
    ((newReplica "p").applyAll
        [Op.mk "A" "B" 0 "p" 1, Op.mk "B" "A" 0 "p" 2]).tree.parentOf "B" = some "A" ∧
    ((newReplica "p").applyAll
        [Op.mk "A" "B" 0 "p" 1, Op.mk "B" "A" 0 "p" 2]).tree.island = ["A", "B"] := by
  decide

/-- Claim C4, amended.  In every state reached from a fresh replica, a node
that the recomputation does not leave in `nonRootedNodes` reaches the root by
following `parent` in fewer steps than the tree has nodes, on a walk that
visits no node twice, and unless it is the root it is not its own parent.  A
node that is left in `nonRootedNodes` keeps the parent of phase 1, the entry
of `tree.nodes` under its `edgeWithLargestCounter`. -/
theorem rooted_forest_outside_island (s : Replica) (hs : reachable s) (x : String)
    (hx : x ∈ s.tree.ids) :
    (x ∉ s.tree.island →
      (∃ k, k < s.tree.ids.length ∧ walk s.tree.parentOf k x = some ROOT ∧
        ∀ i j, i < j → j ≤ k → walk s.tree.parentOf i x ≠ walk s.tree.parentOf j x) ∧
      (x ≠ ROOT → s.tree.parentOf x ≠ some x)) ∧
    (x ∈ s.tree.island →
      s.tree.parentOf x = s.tree.lookup (edgeWithLargestCounter (s.tree.edgesOf x))) := by
  have hfix := reachable_recompute hs
  have hclosed := reachable_edgesClosed hs
  constructor
  · intro hxi
    obtain ⟨k0, _, hk0⟩ := recompute_reaches_root s.tree hclosed hx hxi
    rw [hfix] at hk0
    have hpw : parentsWithin s.tree.parentOf s.tree.ids := by
      have := recompute_parentsWithin s.tree hclosed
      rwa [hfix] at this
    obtain ⟨K, hK, hmin⟩ := exists_minimal_walk s.tree.parentOf ⟨k0, hk0⟩
    refine ⟨⟨K, minimal_walk_lt_length _ hpw hx hK hmin, hK,
      fun i j hij hj => walk_injective_of_minimal _ hK hmin hij hj⟩, ?_⟩
    intro hne hself
    rw [walk_self hself K] at hK
    exact hne (Option.some.inj hK)
  · intro hxi
    have := recompute_parentOf_of_island s.tree hclosed hxi
    rw [hfix, phase1_parentOf, if_pos hx] at this
    exact this

/-- Witness for the amended claim C4: in the tree ROOT, A, B of the ops
`(A, ROOT, 0)`, `(B, A, 0)` the node `B` is outside the island. -/
theorem rooted_forest_outside_island_witness :
    (∃ k, k < ((newReplica "p").applyAll
          [Op.mk "A" ROOT 0 "p" 1, Op.mk "B" "A" 0 "p" 2]).tree.ids.length ∧
        walk ((newReplica "p").applyAll
          [Op.mk "A" ROOT 0 "p" 1, Op.mk "B" "A" 0 "p" 2]).tree.parentOf k "B" = some ROOT ∧
        ∀ i j, i < j → j ≤ k →
          walk ((newReplica "p").applyAll
            [Op.mk "A" ROOT 0 "p" 1, Op.mk "B" "A" 0 "p" 2]).tree.parentOf i "B" ≠
          walk ((newReplica "p").applyAll
            [Op.mk "A" ROOT 0 "p" 1, Op.mk "B" "A" 0 "p" 2]).tree.parentOf j "B") ∧
      ("B" ≠ ROOT →
        ((newReplica "p").applyAll
          [Op.mk "A" ROOT 0 "p" 1, Op.mk "B" "A" 0 "p" 2]).tree.parentOf "B" ≠ some "B") :=
  (rooted_forest_outside_island
    ((newReplica "p").applyAll [Op.mk "A" ROOT 0 "p" 1, Op.mk "B" "A" 0 "p" 2])
    ⟨"p", _, rfl⟩ "B" (by decide)).1 (by decide)

/-- The run in which the second application of an op ranges over every map in
the order of the first: the second application leaves the store and the tree
(nodes, edges, parents, children) as they are after the first.  Go leaves the
order of a range open; `apply_twice` is about the runs in other orders. -/
theorem apply_idempotent (s : Replica) (op : Op) : (s.apply op).apply op = s.apply op := by
  show Replica.mk ((s.db.apply op).apply op) ((s.tree.afterApply op).afterApply op) =
    Replica.mk (s.db.apply op) (s.tree.afterApply op)
  rw [apply_idem_db, afterApply_idem]

/-- Counterexample to claim C8.  After the op `(ROOT, A, 0)`, whose ID is the
root identifier, the root has the parent `A` and is in the children of `A`.
After the op `(A, "", 0)`, which names the empty identifier, the root has the
node with the empty id as its parent. -/
theorem root_gets_parent :
    ((newReplica "p").applyAll [Op.mk ROOT "A" 0 "p" 1]).tree.parentOf ROOT = some "A" ∧
    ((newReplica "p").applyAll [Op.mk ROOT "A" 0 "p" 1]).tree.childrenOf "A" = [ROOT] ∧
    ((newReplica "p").applyAll [Op.mk "A" "" 0 "p" 1]).tree.parentOf ROOT = some "" := by
  decide

/-- Claim C8, amended.  In every state reached from a fresh replica by ops
none of which has the root identifier as its ID and none of which has the
empty string as ID or Key, the derived parent of the root is nil and the root
is in the children list of no node. -/
theorem root_has_no_parent (peer : String) (ops : List Op)
    (h : ∀ o ∈ ops, o.ID ≠ ROOT ∧ o.ID ≠ "" ∧ o.Key ≠ "") :
    ((newReplica peer).applyAll ops).tree.parentOf ROOT = none ∧
    ∀ n ∈ ((newReplica peer).applyAll ops).tree.nodes, ROOT ∉ n.children :=
  ⟨root_parent_none peer ops h, root_not_child peer ops h⟩

/-- Witness for the amended claim C8 on the ops `(A, ROOT, 0)`, `(B, A, 0)`. -/
theorem root_has_no_parent_witness :
    ((newReplica "p").applyAll
      [Op.mk "A" ROOT 0 "p" 1, Op.mk "B" "A" 0 "p" 2]).tree.parentOf ROOT = none ∧
    ∀ n ∈ ((newReplica "p").applyAll
      [Op.mk "A" ROOT 0 "p" 1, Op.mk "B" "A" 0 "p" 2]).tree.nodes, ROOT ∉ n.children :=
  root_has_no_parent "p" [Op.mk "A" ROOT 0 "p" 1, Op.mk "B" "A" 0 "p" 2] (by decide)

/-! ## Claims about the edit planner and the iteration order -/

theorem countersBelow_of_nodes (t : Tree) (n : Int) (hn : n ≤ maxInt64)
    (h : ∀ m ∈ t.nodes, ∀ e ∈ m.edges, e.2 + n ≤ maxInt64) : t.countersBelow n := by
  refine ⟨hn, fun x k c hk => ?_⟩
  unfold Tree.edgesOf at hk
  cases hx : t.node x with
  | none => rw [hx] at hk; cases hk
  | some m =>
    rw [hx] at hk
    exact h m (node_mem hx).1 (k, c) hk

/-- Counterexample to claim C5.  On the chain ROOT, A, B the call
`addChildToParent(A, B)` returns, writes the edge `A -> B` with counter 1,
and the cycle between `A` and `B` is broken by phase 3 in favour of the old
edge: the derived parent of `A` is still the root.  On the replica where `P`
is a node outside the subtree of the root, `addChildToParent(C, P)` returns
and the derived parent of `C` is still the root. -/
theorem planner_loses_to_cycle_break :
    (chainReplica.addChildToParent 10 (fun _ => 100) "A" "B").map
        (fun s => (s.tree.edgesOf "A", s.tree.parentOf "A")) =
      some ([(ROOT, 0), ("B", 1)], some ROOT) ∧
    (orphanReplica.addChildToParent 10 (fun _ => 100) "C" "P").map
        (fun s => (s.tree.edgesOf "C", s.tree.parentOf "C")) =
      some ([(ROOT, 0), ("P", 1)], some ROOT) := by
  decide

/-- Counterexample to claim C7.  `tieTree` and `tieTreeSwapped` hold the same
node index and the same edge maps; they differ in the order in which the node
map is iterated.  Both `c1` and `c2` are non-rooted (each prefers its own
self-edge), and their ready edges `(c1, ROOT, 0)` and `(c2, ROOT, 0)` tie on
counter and parent id.  The heap pops the one pushed first: in one order `c2`
ends under `c1`, in the other under the root. -/
theorem reattachment_depends_on_order :
    tieTree.sameMaps tieTreeSwapped ∧
    tieTree.recomputeParentsAndChildren.parentOf "c2" = some "c1" ∧
    tieTreeSwapped.recomputeParentsAndChildren.parentOf "c2" = some ROOT ∧
    tieTree.recomputeParentsAndChildren.childrenOf ROOT = ["c1"] ∧
    tieTreeSwapped.recomputeParentsAndChildren.childrenOf ROOT = ["c1", "c2"] :=
  ⟨sameMaps_of_nodes_perm (by decide) (List.Perm.cons _ (List.Perm.swap _ _ _)),
    by decide, by decide, by decide, by decide⟩

theorem noTie_of_forall (t : Tree) (nr : List String)
    (h : ∀ c ∈ nr, ∀ c' ∈ nr, ∀ e ∈ t.edgesOf c, ∀ e' ∈ t.edgesOf c', e = e' → c = c') :
    noTie t.isEdge (fun x => x ∈ nr) := by
  intro e e' he he' hc hc' hp hk
  exact h e.child hc e'.child hc' _ he _ he' (by rw [hp, hk])

theorem isEdge_phase1 (t : Tree) : (phase1 t).isEdge = t.isEdge := by
  funext e
  unfold Tree.isEdge
  rw [edgesOf_congr (phase1_skel t)]

/-! ## Node index and edge keys -/

/-- The tree on which the observer calls `recomputeParentsAndChildren` has an
entry for every key of every edge map. -/
theorem observed_edgesClosed (t : Tree) (op : Op) (h : t.edgesClosed) :
    (((t.ensure op.ID).ensure op.Key).updateEdge op).edgesClosed := by
  intro x k c hk
  have h1 := afterApply_edgesClosed t op h x k c
  unfold Tree.afterApply at h1
  rw [edgesOf_congr (recompute_skel _), ids_congr (recompute_skel _)] at h1
  exact h1 hk

/-- The ID and the Key of every applied op have entries in the node index. -/
theorem applied_ids_mem (peer : String) (ops : List Op) :
    ∀ o ∈ ops, o.ID ∈ ((newReplica peer).applyAll ops).tree.ids ∧
      o.Key ∈ ((newReplica peer).applyAll ops).tree.ids := by
  induction ops using List.reverseRecOn with
  | nil => intro o ho; cases ho
  | append_singleton ops op ih =>
    intro o ho
    rw [applyAll_append]
    show o.ID ∈ (((newReplica peer).applyAll ops).tree.afterApply op).ids ∧
      o.Key ∈ (((newReplica peer).applyAll ops).tree.afterApply op).ids
    rw [mem_afterApply_ids, mem_afterApply_ids]
    rcases List.mem_append.mp ho with ho | ho
    · exact ⟨Or.inl (ih o ho).1, Or.inl (ih o ho).2⟩
    · rw [List.mem_singleton] at ho
      subst ho
      exact ⟨Or.inr (Or.inl rfl), Or.inr (Or.inr rfl)⟩

/-- Without the empty identifier in the ops, no node has the empty id. -/
theorem empty_id_absent (peer : String) (ops : List Op)
    (h : ∀ o ∈ ops, o.ID ≠ "" ∧ o.Key ≠ "") :
    "" ∉ ((newReplica peer).applyAll ops).tree.ids := by
  apply applyAll_induction (fun s => "" ∉ s.tree.ids) (fun o => o.ID ≠ "" ∧ o.Key ≠ "")
    peer _ _ ops h
  · exact (by decide : "" ∉ newTree.ids)
  · intro s op _ hq ih
    show "" ∉ (s.tree.afterApply op).ids
    rw [mem_afterApply_ids]
    rintro (h' | h' | h')
    · exact ih h'
    · exact hq.1 h'.symm
    · exact hq.2 h'.symm

/-- After the recomputation a node without edges has the parent that the
lookup of the empty identifier yields. -/
theorem recompute_parentOf_of_no_edges (u : Tree) (hclosed : u.edgesClosed) {x : String}
    (he : u.edgesOf x = []) :
    u.recomputeParentsAndChildren.parentOf x = if x ∈ u.ids then u.lookup "" else none := by
  by_cases hnr : x ∈ nonRootedNodes (phase1 u)
  · by_cases hi : x ∈ u.island
    · rw [recompute_parentOf_of_island u hclosed hi, phase1_parentOf, he]; rfl
    · obtain ⟨p, c, _, hpc⟩ := recompute_parentOf_of_reattached u hclosed hnr hi
      rw [he] at hpc
      cases hpc
  · rw [recompute_parentOf_of_rooted u hclosed hnr, phase1_parentOf, he]; rfl

/-! ## Parent selection -/

/-- The result of the loop of `edgeWithLargestCounter` is its start value or
an entry of the map, and no entry and not the start value is above it. -/
theorem largest_fold_spec (es : List (String × Int)) :
    ∀ acc : String × Int,
      (es.foldl largestStep acc = acc ∨ es.foldl largestStep acc ∈ es) ∧
      edgeKey acc ≤ edgeKey (es.foldl largestStep acc) ∧
      ∀ e ∈ es, edgeKey e ≤ edgeKey (es.foldl largestStep acc) := by
  induction es with
  | nil => intro acc; exact ⟨Or.inl rfl, le_refl _, fun e he => by cases he⟩
  | cons a es ih =>
    intro acc
    rw [List.foldl_cons]
    obtain ⟨h1, h2, h3⟩ := ih (largestStep acc a)
    have hk := edgeKey_largestStep acc a
    refine ⟨?_, ?_, ?_⟩
    · rcases h1 with h1 | h1
      · rw [h1, largestStep_eq]
        split
        · exact Or.inr (List.mem_cons_self _ _)
        · exact Or.inl rfl
      · exact Or.inr (List.mem_cons_of_mem _ h1)
    · exact le_trans (hk ▸ le_max_left _ _) h2
    · intro e he
      rcases List.mem_cons.mp he with rfl | he
      · exact le_trans (hk ▸ le_max_right _ _) h2
      · exact h3 e he

theorem edgeKey_le_iff (a b : String × Int) :
    edgeKey a ≤ edgeKey b ↔ a.2 < b.2 ∨ (a.2 = b.2 ∧ a.1 ≤ b.1) := by
  unfold edgeKey
  rw [Prod.Lex.le_iff]

theorem empty_le (s : String) : "" ≤ s := not_lt.mp (not_lt_empty s)

/-! ## The island is closed under edges -/

/-- When the reattachment has ended, no edge leads out of what is left of the
set. -/
theorem reattach_final_closed {E : Edge → Prop} {par par' : String → Option String}
    {S S' : String → Prop} (h : Reattach E par S par' S') :
    ∀ e, E e → S' e.child → S' e.parent := by
  induction h with
  | done hd => intro e he hc; by_contra hp; exact hd e he hc hp
  | step e _ _ _ _ _ ih => exact ih

/-- No edge leads out of the island. -/
theorem island_closed (t : Tree) (hnd : t.ids.Nodup) {x k : String} {c : Int}
    (hx : x ∈ t.island) (hk : (k, c) ∈ t.edgesOf x) : k ∈ t.island := by
  have hp := phase1_parentsWithin t
  have hrun := phase3_run (phase1 t) (by rw [phase1_ids]; exact hnd)
    (nonRootedNodes (phase1 t)) (nonRootedNodes_nodup _)
    (fun y hy => (nonRootedNodes_spec (phase1 t) hp y hy).1)
  have := reattach_final_closed hrun (Edge.mk x k c)
    (by rw [isEdge_phase1]; exact hk) hx
  exact this

theorem edgePath_island (t : Tree) (hnd : t.ids.Nodup) {x y : String}
    (h : EdgePath t x y) : x ∈ t.island → y ∈ t.island := by
  induction h with
  | refl x => exact id
  | step hk _ ih => intro hx; exact ih (island_closed t hnd hx hk)

/-! ## The planner: counters and walks -/

/-- The counter that the planner writes, when every counter on the child is
below the largest `int`. -/
theorem editOp_value (s : Replica) (e : Edit) (now : Int)
    (hm : ∀ kc ∈ s.tree.edgesOf e.child, kc.2 < maxInt64) :
    (s.editOp e now).Value = maxCounter (s.tree.edgesOf e.child) + 1 := by
  unfold Replica.editOp
  rw [setValueOp_Value]
  have h1 := maxCounter_ge (s.tree.edgesOf e.child)
  have h2 : maxCounter (s.tree.edgesOf e.child) < maxInt64 := by
    rcases maxCounter_attained (s.tree.edgesOf e.child) with h | ⟨kc, hkc, h⟩
    · rw [h]; decide
    · rw [h]; exact hm kc hkc
  apply wrapInt64_of_range
  · unfold minInt64; omega
  · omega

/-- The last planned edit is the primary edit. -/
theorem planEdits_last {t : Tree} {fuel : Nat} {C P : String} {edits : List Edit}
    (h : planEdits t fuel C P = some edits) : ∃ es, edits = es ++ [Edit.mk C P] := by
  unfold planEdits at h
  split at h
  · cases h
  · split at h
    · cases h
    · next e2 _ => exact ⟨e2, (Option.some.inj h).symm⟩

theorem addChildToParent_of_plan (s : Replica) (fuel : Nat) (clock : Nat → Int) (C P : String)
    (hC : C ∈ s.tree.ids) (hP : P ∈ s.tree.ids) {edits : List Edit}
    (h : planEdits s.tree fuel C P = some edits) :
    s.addChildToParent fuel clock C P = some (s.applyEdits clock 0 edits) := by
  unfold Replica.addChildToParent
  have h1 : s.tree.lookup C = some C := (Tree.lookup_eq_some _ _ _).mpr ⟨rfl, hC⟩
  have h2 : s.tree.lookup P = some P := (Tree.lookup_eq_some _ _ _).mpr ⟨rfl, hP⟩
  rw [h1, h2]
  simp only [h]

/-- A walk of `ensureNodeIsRooted` along parent pointers that never reach nil
does not end, whatever the fuel. -/
theorem ensureNodeIsRooted_diverges (t : Tree) :
    ∀ (fuel : Nat) (x : String) (edits : List Edit),
      (∀ k, (walk t.parentOf k x).isSome) → ensureNodeIsRooted t fuel (some x) edits = none := by
  intro fuel
  induction fuel with
  | zero => intro x edits _; rfl
  | succ fuel ih =>
    intro x edits h
    have h1 := h 1
    unfold ensureNodeIsRooted
    cases hp : t.parentOf x with
    | none => simp [walk, hp] at h1
    | some p =>
      simp only
      apply ih
      intro k
      have := h (k + 1)
      simpa [walk, hp] using this

/-- On the island of `A` and `B` the walks along `parent` never end. -/
theorem island_walk_isSome :
    ∀ k, (walk islandReplica.tree.parentOf k "A").isSome ∧
      (walk islandReplica.tree.parentOf k "B").isSome := by
  have hA : islandReplica.tree.parentOf "A" = some "B" := by decide
  have hB : islandReplica.tree.parentOf "B" = some "A" := by decide
  intro k
  induction k with
  | zero => exact ⟨rfl, rfl⟩
  | succ k ih =>
    simp only [walk, hA, hB]
    exact ⟨ih.2, ih.1⟩

/-! ## Claims about the node index, the edge maps and the derived tree -/

/-- Claim C11, evaluated where it fails.  After the ops `(A, ROOT, 0, p1, t=2)`
and `(A, ROOT, -1, p1, t=1)`, applied in that order, the store holds the row
with value 0 at `(A, ROOT)` (the second op is rejected), but the edge map of `A`
is empty: the observer has deleted the edge for the rejected op.  After
`(A, ROOT, 5, p1, t=2)` and `(A, ROOT, 3, p1, t=1)` the store holds the value 5
and the edge map holds the counter 3 of the rejected op. -/
theorem tree_keeps_rejected_payload :
    ((newReplica "r1").applyAll
        [Op.mk "A" ROOT 0 "p1" 2, Op.mk "A" ROOT (-1) "p1" 1]).db.rows (IdKey.mk "A" ROOT) =
      some (Row.mk 0 "p1" 2) ∧
    ((newReplica "r1").applyAll
        [Op.mk "A" ROOT 0 "p1" 2, Op.mk "A" ROOT (-1) "p1" 1]).tree.edgesOf "A" = [] ∧
    ((newReplica "r1").applyAll
        [Op.mk "A" ROOT 5 "p1" 2, Op.mk "A" ROOT 3 "p1" 1]).db.rows (IdKey.mk "A" ROOT) =
      some (Row.mk 5 "p1" 2) ∧
    ((newReplica "r1").applyAll
        [Op.mk "A" ROOT 5 "p1" 2, Op.mk "A" ROOT 3 "p1" 1]).tree.edgesOf "A" = [(ROOT, 3)] := by
  decide

/-- Counterexample to claim C12.  On the edge map `{X: -5}` and on the edge map
`{X: -5, Y: -2}` the function `edgeWithLargestCounter` returns the empty
string, which is no key of the map: the loop starts from the counter -1 and a
smaller counter never replaces it.  Such a map arises from the op
`(C, X, -5)`, after which `C` has no parent. -/
theorem largest_skips_counters_below_minus_one :
    edgeWithLargestCounter [("X", -5)] = "" ∧
    edgeWithLargestCounter [("X", -5), ("Y", -2)] = "" ∧
    negativeReplica.tree.edgesOf "C" = [("X", -5)] ∧
    negativeReplica.tree.parentOf "C" = none := by
  decide

/-- Claim C12, amended.  The result of `edgeWithLargestCounter` does not
depend on the order in which the map is iterated.  When the map holds at least
one counter that is not below -1, the result is a key of the map, its counter
is the largest of the map, and among the keys with that counter it is the
greatest. -/
theorem parent_selection (es es' : List (String × Int)) :
    (es.Perm es' → edgeWithLargestCounter es = edgeWithLargestCounter es') ∧
    ((∃ e ∈ es, -1 ≤ e.2) →
      ∃ c, (edgeWithLargestCounter es, c) ∈ es ∧
        ∀ e ∈ es, e.2 < c ∨ (e.2 = c ∧ e.1 ≤ edgeWithLargestCounter es)) := by
  refine ⟨edgeWithLargestCounter_perm, ?_⟩
  rintro ⟨e0, he0, hge⟩
  obtain ⟨h1, _, h3⟩ := largest_fold_spec es ("", -1)
  have hmem : es.foldl largestStep ("", -1) ∈ es := by
    rcases h1 with h1 | h1
    · have hle := h3 e0 he0
      rw [h1, edgeKey_le_iff] at hle
      have : e0 = ("", -1) := by
        rcases hle with hle | ⟨hc, hk⟩
        · exact absurd hle (by simp only [not_lt]; exact hge)
        · exact Prod.ext (le_antisymm hk (empty_le _)) hc
      rw [h1, ← this]; exact he0
    · exact h1
  exact ⟨(es.foldl largestStep ("", -1)).2, hmem, fun e he => (edgeKey_le_iff _ _).mp (h3 e he)⟩

/-- Witness for the amended claim C12 on the edge map `{ROOT: 1, A: 1}` in its
two orders of iteration: the key `A` is selected. -/
theorem parent_selection_witness :
    edgeWithLargestCounter [(ROOT, (1 : Int)), ("A", 1)] =
      edgeWithLargestCounter [("A", (1 : Int)), (ROOT, 1)] ∧
    (∃ c : Int, (edgeWithLargestCounter [(ROOT, (1 : Int)), ("A", 1)], c) ∈
        [(ROOT, (1 : Int)), ("A", 1)] ∧
      ∀ e ∈ [(ROOT, (1 : Int)), ("A", 1)],
        e.2 < c ∨ (e.2 = c ∧ e.1 ≤ edgeWithLargestCounter [(ROOT, (1 : Int)), ("A", 1)])) ∧
    edgeWithLargestCounter [(ROOT, (1 : Int)), ("A", 1)] = "A" :=
  ⟨(parent_selection [(ROOT, 1), ("A", 1)] [("A", 1), (ROOT, 1)]).1 (List.Perm.swap _ _ _),
    (parent_selection [(ROOT, 1), ("A", 1)] []).2 ⟨(ROOT, 1), by decide, by decide⟩,
    by decide⟩

/-- Claim C13.  After `recomputeParentsAndChildren` on a tree whose node index
has one entry per id and an entry for every edge key, for all nodes `n` and
`m`: `m` occurs in `n.children` once when `m.parent` is `n` and not at all
otherwise, and `n.children` is sorted strictly ascending by id. -/
theorem children_lists (t : Tree) (hnd : t.ids.Nodup) (hc : t.edgesClosed) (n : String) :
    (∀ m, (t.recomputeParentsAndChildren.childrenOf n).count m =
      if t.recomputeParentsAndChildren.parentOf m = some n then 1 else 0) ∧
    (t.recomputeParentsAndChildren.childrenOf n).Sorted (fun a b => a < b) := by
  constructor
  · intro m
    split
    · next hp =>
      have hm : m ∈ t.ids := by
        have := parentOf_mem_ids hp
        rwa [recompute_ids] at this
      exact List.count_eq_one_of_mem (childrenOf_nodup t hnd n)
        ((mem_childrenOf t hnd n m).mpr ⟨recompute_parentsWithin t hc m n hp, hm, hp⟩)
    · next hp =>
      exact List.count_eq_zero_of_not_mem
        (fun h => hp ((mem_childrenOf t hnd n m).mp h).2.2)
  · exact (childrenOf_sorted t n).lt_of_le (childrenOf_nodup t hnd n)

/-- Witness for claim C13: with `Z`, `A` and `M` under the root, applied in
the order Z, A, M, the children of the root satisfy the claim; and in each of
the six orders of application the list is `[A, M, Z]`. -/
theorem children_lists_witness :
    ((∀ m, ((siblingsReplica ["Z", "A", "M"]).tree.recomputeParentsAndChildren.childrenOf
        ROOT).count m =
      if (siblingsReplica ["Z", "A", "M"]).tree.recomputeParentsAndChildren.parentOf m =
        some ROOT then 1 else 0) ∧
    ((siblingsReplica ["Z", "A", "M"]).tree.recomputeParentsAndChildren.childrenOf
      ROOT).Sorted (fun a b => a < b)) ∧
    (∀ names ∈ [["Z", "A", "M"], ["Z", "M", "A"], ["A", "Z", "M"], ["A", "M", "Z"],
        ["M", "A", "Z"], ["M", "Z", "A"]],
      (siblingsReplica names).tree.childrenOf ROOT = ["A", "M", "Z"]) :=
  ⟨children_lists (siblingsReplica ["Z", "A", "M"]).tree
      (reachable_ids_nodup ⟨"p", _, rfl⟩) (reachable_edgesClosed ⟨"p", _, rfl⟩) ROOT,
    by decide⟩

/-- Counterexample to claim C14.  After the op `(A, "", 0)`, whose Key is the
empty string, the node with the empty id has an empty edge map, is its own
parent and is in its own children list, next to the root, whose edge map is
empty too. -/
theorem empty_edges_parent_is_empty_id :
    ((newReplica "p").applyAll [Op.mk "A" "" 0 "p" 1]).tree.edgesOf "" = [] ∧
    ((newReplica "p").applyAll [Op.mk "A" "" 0 "p" 1]).tree.parentOf "" = some "" ∧
    ((newReplica "p").applyAll [Op.mk "A" "" 0 "p" 1]).tree.edgesOf ROOT = [] ∧
    ((newReplica "p").applyAll [Op.mk "A" "" 0 "p" 1]).tree.parentOf ROOT = some "" ∧
    ((newReplica "p").applyAll [Op.mk "A" "" 0 "p" 1]).tree.childrenOf "" =
      ["", ROOT, "A"] := by
  decide

/-- Claim C14, amended.  In every state reached from a fresh replica by ops
none of which has the empty string as ID or Key, a node whose edge map is
empty has derived parent nil and is in the children list of no node. -/
theorem empty_edges_no_parent (peer : String) (ops : List Op)
    (h : ∀ o ∈ ops, o.ID ≠ "" ∧ o.Key ≠ "") (x : String)
    (he : ((newReplica peer).applyAll ops).tree.edgesOf x = []) :
    ((newReplica peer).applyAll ops).tree.parentOf x = none ∧
    ∀ n ∈ ((newReplica peer).applyAll ops).tree.nodes, x ∉ n.children := by
  have hr : reachable ((newReplica peer).applyAll ops) := ⟨peer, ops, rfl⟩
  have hfix := reachable_recompute hr
  have hpar : ((newReplica peer).applyAll ops).tree.parentOf x = none := by
    rw [← hfix, recompute_parentOf_of_no_edges _ (reachable_edgesClosed hr) he]
    split
    · unfold Tree.lookup
      rw [if_neg (fun h' => empty_id_absent peer ops h ((Tree.has_iff _ _).mp h'))]
    · rfl
  refine ⟨hpar, fun n hn hc => ?_⟩
  rw [← hfix] at hn
  have := (recompute_children _ (reachable_ids_nodup hr) hn x).mp hc
  rw [hfix, hpar] at this
  cases this.2

/-- Witness for the amended claim C14, the retraction scenario: after the ops
`(A, ROOT, 0)`, `(B, A, 0)`, `(C, B, 0)` and `(C, B, -1)` the node `C` has no
parent and is in no children list. -/
theorem empty_edges_no_parent_witness :
    ((newReplica "p1").applyAll
      [Op.mk "A" ROOT 0 "p1" 1, Op.mk "B" "A" 0 "p1" 2, Op.mk "C" "B" 0 "p1" 3,
        Op.mk "C" "B" (-1) "p1" 30]).tree.parentOf "C" = none ∧
    ∀ n ∈ ((newReplica "p1").applyAll
      [Op.mk "A" ROOT 0 "p1" 1, Op.mk "B" "A" 0 "p1" 2, Op.mk "C" "B" 0 "p1" 3,
        Op.mk "C" "B" (-1) "p1" 30]).tree.nodes, "C" ∉ n.children :=
  empty_edges_no_parent "p1"
    [Op.mk "A" ROOT 0 "p1" 1, Op.mk "B" "A" 0 "p1" 2, Op.mk "C" "B" 0 "p1" 3,
      Op.mk "C" "B" (-1) "p1" 30] (by decide) "C" (by decide)

/-- Claim C15.  After `recomputeParentsAndChildren` on a tree whose node index
has one entry per id and an entry for every edge key: no node that is left in
`nonRootedNodes` when the heap has drained has a path to the root in the edge
graph, and every node with such a path reaches the root by following the
derived `parent`. -/
theorem reattachment_complete (t : Tree) (hnd : t.ids.Nodup) (hc : t.edgesClosed) :
    (∀ x ∈ t.island, ¬ EdgePath t x ROOT) ∧
    (∀ x ∈ t.ids, EdgePath t x ROOT →
      reaches t.recomputeParentsAndChildren.parentOf x ROOT) := by
  have hroot : ROOT ∉ t.island := fun h =>
    root_not_nonRooted _ (phase1_parentsWithin t) (island_subset t hc h)
  have h1 : ∀ x ∈ t.island, ¬ EdgePath t x ROOT :=
    fun x hx hp => hroot (edgePath_island t hnd hp hx)
  refine ⟨h1, fun x hx hp => ?_⟩
  obtain ⟨k, _, hk⟩ := recompute_reaches_root t hc hx (fun hi => h1 x hi hp)
  exact ⟨k, hk⟩

/-- Witness for claim C15.  In the tree of the ops `(A, ROOT, 0)`, `(B, A, 0)`,
`(C, B, 0)`, `(A, B, 5)` the nodes `A`, `B` and `C` are non-rooted after phase
1 and `C` has the edge path C, B, A, ROOT: it reaches the root along the
derived parents.  With the further op `(B, ROOT, 7)` the parents are
`B.parent = ROOT`, `A.parent = B`, `C.parent = B`. -/
theorem reattachment_complete_witness :
    nonRootedNodes (phase1 cycleReplica.tree) = ["A", "B", "C"] ∧
    reaches cycleReplica.tree.recomputeParentsAndChildren.parentOf "C" ROOT ∧
    breakReplica.tree.parentOf "B" = some ROOT ∧
    breakReplica.tree.parentOf "A" = some "B" ∧
    breakReplica.tree.parentOf "C" = some "B" :=
  ⟨by decide,
    (reattachment_complete cycleReplica.tree (reachable_ids_nodup ⟨"p", _, rfl⟩)
      (reachable_edgesClosed ⟨"p", _, rfl⟩)).2 "C" (by decide)
      (EdgePath.step (by decide : ("B", (0 : Int)) ∈ cycleReplica.tree.edgesOf "C")
        (EdgePath.step (by decide : ("A", (0 : Int)) ∈ cycleReplica.tree.edgesOf "B")
          (EdgePath.step (by decide : (ROOT, (0 : Int)) ∈ cycleReplica.tree.edgesOf "A")
            (EdgePath.refl ROOT)))),
    by decide, by decide, by decide⟩

/-- Claim C16.  For parent pointers that stay within a finite set of nodes,
cycles and self-loops included, and every pair of a node of the set and a node
`other`: the loop of `isNodeUnderOtherNode` ends within as many iterations as
there are nodes, plus one, and the result is true exactly when `other` is
reached from the node by following `parent` zero or more times. -/
theorem isNodeUnderOtherNode_total_exact (par : String → Option String) (ids : List String)
    (hp : parentsWithin par ids) (node other : String) (hx : node ∈ ids)
    (fuel : Nat) (hfuel : ids.length + 1 ≤ fuel) :
    ∃ b, isNodeUnderOtherNode par fuel node other = some b ∧
      (b = true ↔ reaches par node other) := by
  obtain ⟨b, hb⟩ := isNodeUnder_terminates par hp hx other fuel hfuel
  refine ⟨b, hb, ?_, ?_⟩
  · intro h
    rw [h] at hb
    exact isNodeUnder_sound par fuel node other hb
  · intro h
    have := isNodeUnder_complete par hp hx h fuel (by omega)
    rw [this] at hb
    exact (Option.some.inj hb).symm

/-- Witness for claim C16 on the cycle of `A` and `B`: the test of `A` against
the root ends, with the result false. -/
theorem isNodeUnderOtherNode_total_exact_witness :
    (∃ b, isNodeUnderOtherNode islandReplica.tree.parentOf 4 "A" ROOT = some b ∧
      (b = true ↔ reaches islandReplica.tree.parentOf "A" ROOT)) ∧
    isNodeUnderOtherNode islandReplica.tree.parentOf 4 "A" ROOT = some false :=
  ⟨isNodeUnderOtherNode_total_exact islandReplica.tree.parentOf islandReplica.tree.ids
      (reachable_parentsWithin ⟨"p", _, rfl⟩) "A" ROOT (by decide) 4 (by decide),
    by decide⟩

/-- Claim C17.  After `recomputeParentsAndChildren` on a tree with an entry
for every edge key: a node whose chain of candidate parents, the parents of
phase 1, reaches the root has as derived parent its candidate parent, the
entry of `tree.nodes` under its `edgeWithLargestCounter`; and phase 3 leaves
the parent of every node outside `nonRootedNodes` as phase 1 set it. -/
theorem rooted_keep_candidate (t : Tree) (hc : t.edgesClosed) (x : String) :
    (x ∈ t.ids → reaches (phase1 t).parentOf x ROOT →
      t.recomputeParentsAndChildren.parentOf x =
        t.lookup (edgeWithLargestCounter (t.edgesOf x))) ∧
    (x ∉ nonRootedNodes (phase1 t) →
      (phase3 (phase1 t) (nonRootedNodes (phase1 t))).1.parentOf x =
        (phase1 t).parentOf x) := by
  constructor
  · intro hx hr
    have hnr : x ∉ nonRootedNodes (phase1 t) := fun h =>
      ((mem_nonRootedNodes_iff (phase1 t) (phase1_parentsWithin t) x).mp h).2 hr
    rw [recompute_parentOf_of_rooted t hc hnr, phase1_parentOf, if_pos hx]
  · intro hx
    exact (recompute_inv t hc).keep_out x hx

/-- Witness for claim C17, the linear chain: after the ops `(A, ROOT, 0)`,
`(B, A, 0)`, `(C, B, 0)` the node `C` keeps its candidate parent `B`, and the
tree is ROOT, A, B, C with `children(ROOT) = [A]`, `children(A) = [B]`,
`children(B) = [C]`. -/
theorem rooted_keep_candidate_witness :
    lineReplica.tree.recomputeParentsAndChildren.parentOf "C" =
      lineReplica.tree.lookup (edgeWithLargestCounter (lineReplica.tree.edgesOf "C")) ∧
    lineReplica.tree.parentOf "C" = some "B" ∧
    lineReplica.tree.parentOf "B" = some "A" ∧
    lineReplica.tree.parentOf "A" = some ROOT ∧
    lineReplica.tree.childrenOf ROOT = ["A"] ∧
    lineReplica.tree.childrenOf "A" = ["B"] ∧
    lineReplica.tree.childrenOf "B" = ["C"] :=
  ⟨(rooted_keep_candidate lineReplica.tree (reachable_edgesClosed ⟨"p1", _, rfl⟩) "C").1
      (by decide) ⟨3, by decide⟩,
    by decide, by decide, by decide, by decide, by decide, by decide⟩

/-- Claim C20.  In every state reached from a fresh replica by applying ops:
the root has an entry in `tree.nodes`; so have the ID and the Key of every
applied op; an entry stays when a further op is applied; every key of every
edge map has an entry; and in the recomputation that a further op triggers,
the lookup `tree.nodes[parentID]` of the seed loop of phase 3 finds the node
for every edge of every node. -/
theorem node_index_closed (peer : String) (ops : List Op) :
    ROOT ∈ ((newReplica peer).applyAll ops).tree.ids ∧
    (∀ o ∈ ops, o.ID ∈ ((newReplica peer).applyAll ops).tree.ids ∧
      o.Key ∈ ((newReplica peer).applyAll ops).tree.ids) ∧
    (∀ (op : Op) (x : String), x ∈ ((newReplica peer).applyAll ops).tree.ids →
      x ∈ (((newReplica peer).applyAll ops).apply op).tree.ids) ∧
    (∀ x k c, (k, c) ∈ ((newReplica peer).applyAll ops).tree.edgesOf x →
      k ∈ ((newReplica peer).applyAll ops).tree.ids) ∧
    (∀ (op : Op) (child parentID : String) (counter : Int),
      (parentID, counter) ∈
        (phase1 (((((newReplica peer).applyAll ops).tree.ensure op.ID).ensure
          op.Key).updateEdge op)).edgesOf child →
      (phase1 (((((newReplica peer).applyAll ops).tree.ensure op.ID).ensure
        op.Key).updateEdge op)).lookup parentID = some parentID) := by
  have hr : reachable ((newReplica peer).applyAll ops) := ⟨peer, ops, rfl⟩
  refine ⟨reachable_root_mem hr, applied_ids_mem peer ops, ?_, reachable_edgesClosed hr, ?_⟩
  · intro op x hx
    exact (mem_afterApply_ids _ op x).mpr (Or.inl hx)
  · intro op child parentID counter hk
    rw [Tree.lookup_eq_some]
    exact ⟨rfl, phase1_edgesClosed
      (observed_edgesClosed _ op (reachable_edgesClosed hr)) child parentID counter hk⟩

/-! ## Claims about the counters and the walks of the edit planner -/

/-- Counterexample to claim C18.  The only counter on `C` is -5, on the key
`X`.  For the edit `(C, ROOT)` the planner writes the counter 0, which is not
one more than the largest counter of the non-empty edge map: its loop for the
largest counter starts from -1. -/
theorem planner_writes_zero_over_negative_counters :
    negativeReplica.tree.edgesOf "C" = [("X", -5)] ∧
    (negativeReplica.editOp (Edit.mk "C" ROOT) 9).Value = 0 := by
  decide

/-- The counter of the planner at the largest `int`: the only counter on `C`
is 9223372036854775807, `maxCounter+1` wraps to the smallest `int`, and after
`addChildToParent(C, ROOT)` the function `edgeWithLargestCounter` still
returns `X` for `C`. -/
theorem planner_counter_wraps_at_max :
    maxCounterReplica.tree.edgesOf "C" = [("X", 9223372036854775807)] ∧
    (maxCounterReplica.editOp (Edit.mk "C" ROOT) 9).Value = -9223372036854775808 ∧
    (maxCounterReplica.addChildToParent 5 (fun _ => 9) "C" ROOT).map
      (fun s => edgeWithLargestCounter (s.tree.edgesOf "C")) = some "X" := by
  decide

/-- Claim C18, amended.  An edit `(child, parent)` that `addChildToParent`
issues is the op `editOp` on the key `(child, parent)`.  When every counter on
the child is below the largest `int`, the counter written is 0 if the child
has no counter of 0 or more (its edge map is empty or holds negative counters
only), it is one more than the largest counter of the child if that counter is
0 or more, and it is strictly greater than every counter on the child.  When
`addChildToParent(C, P)` plans the list `edits` for nodes `C` and `P` and every
counter of the tree is at least `len(edits)` below the largest `int`, the call
returns and afterwards `edgeWithLargestCounter` of `C` is `P`. -/
theorem planner_counter_wins (s : Replica) :
    (∀ (e : Edit) (now : Int), (∀ kc ∈ s.tree.edgesOf e.child, kc.2 < maxInt64) →
      s.applyEdit e now = s.apply (s.editOp e now) ∧
      (s.editOp e now).ID = e.child ∧ (s.editOp e now).Key = e.parent ∧
      ((∀ kc ∈ s.tree.edgesOf e.child, kc.2 < 0) → (s.editOp e now).Value = 0) ∧
      (∀ kc ∈ s.tree.edgesOf e.child, 0 ≤ kc.2 →
        (∀ kc' ∈ s.tree.edgesOf e.child, kc'.2 ≤ kc.2) → (s.editOp e now).Value = kc.2 + 1) ∧
      (∀ kc ∈ s.tree.edgesOf e.child, kc.2 < (s.editOp e now).Value)) ∧
    (∀ (fuel : Nat) (clock : Nat → Int) (C P : String) (edits : List Edit),
      C ∈ s.tree.ids → P ∈ s.tree.ids → planEdits s.tree fuel C P = some edits →
      s.tree.countersBelow edits.length →
      ∃ s', s.addChildToParent fuel clock C P = some s' ∧
        edgeWithLargestCounter (s'.tree.edgesOf C) = P) := by
  constructor
  · intro e now hm
    have hv := editOp_value s e now hm
    refine ⟨rfl, setValueOp_ID _ _ _ _, setValueOp_Key _ _ _ _, ?_, ?_, ?_⟩
    · intro hneg
      rw [hv]
      rcases maxCounter_attained (s.tree.edgesOf e.child) with h | ⟨kc, hkc, h⟩
      · rw [h]; rfl
      · have h1 := maxCounter_ge (s.tree.edgesOf e.child)
        have h2 := hneg kc hkc
        omega
    · intro kc hkc h0 hmax
      rw [hv]
      have h1 := le_maxCounter hkc
      rcases maxCounter_attained (s.tree.edgesOf e.child) with h | ⟨kc', hkc', h⟩
      · omega
      · have := hmax kc' hkc'
        omega
    · intro kc hkc
      rw [hv]
      have h1 := le_maxCounter hkc
      omega
  · intro fuel clock C P edits hC hP hplan hb
    refine ⟨_, addChildToParent_of_plan s fuel clock C P hC hP hplan, ?_⟩
    obtain ⟨es, rfl⟩ := planEdits_last hplan
    rw [applyEdits_append]
    have hb1 : (s.applyEdits clock 0 es).tree.countersBelow 1 := by
      apply applyEdits_countersBelow clock es s 0 1 (by omega)
      have : ((es ++ [Edit.mk C P]).length : Int) = 1 + es.length := by
        rw [List.length_append]; simp; omega
      rw [← this]; exact hb
    have := applyEdit_cand (s.applyEdits clock 0 es) (Edit.mk C P) (clock (0 + es.length)) hb1 C
    rw [if_pos rfl] at this
    exact this

/-- Witness for the amended claim C18 on the chain ROOT, A, B, C: the edit
`(C, A)` is written with the counter 1, one more than the counter 0 of the
edge from `C` to `B`, and after `addChildToParent(C, A)` the function
`edgeWithLargestCounter` returns `A` for `C`. -/
theorem planner_counter_wins_witness :
    (lineReplica.editOp (Edit.mk "C" "A") 9).Value = 0 + 1 ∧
    (∃ s', lineReplica.addChildToParent 4 (fun _ => 9) "C" "A" = some s' ∧
      edgeWithLargestCounter (s'.tree.edgesOf "C") = "A") :=
  ⟨((planner_counter_wins lineReplica).1 (Edit.mk "C" "A") 9 (by decide)).2.2.2.2.1
      ("B", 0) (by decide) (by decide) (by decide),
    (planner_counter_wins lineReplica).2 4 (fun _ => 9) "C" "A" [Edit.mk "C" "A"]
      (by decide) (by decide) (by decide)
      (countersBelow_of_nodes _ _ (by decide) (by decide))⟩

/-- Claim C19, evaluated where it fails.  In the state after the ops
`(A, B, 0)` and `(B, A, 0)` the nodes `A` and the root have entries in
`tree.nodes`, and `A` and `B` are each other's derived parent.  The walk of
`ensureNodeIsRooted` from the parent of `A` is not at its end after any number
of iterations, so the call `addChildToParent(A, ROOT)` does not return. -/
theorem planner_diverges_on_island_cycle :
    islandReplica.tree.lookup "A" = some "A" ∧
    islandReplica.tree.lookup ROOT = some ROOT ∧
    islandReplica.tree.parentOf "A" = some "B" ∧
    islandReplica.tree.parentOf "B" = some "A" ∧
    (∀ (fuel : Nat) (edits : List Edit),
      ensureNodeIsRooted islandReplica.tree fuel (islandReplica.tree.parentOf "A") edits =
        none) ∧
    (∀ (fuel : Nat) (clock : Nat → Int),
      islandReplica.addChildToParent fuel clock "A" ROOT = none) := by
  have hA : islandReplica.tree.parentOf "A" = some "B" := by decide
  have hw : ∀ (fuel : Nat) (edits : List Edit),
      ensureNodeIsRooted islandReplica.tree fuel (islandReplica.tree.parentOf "A") edits =
        none := by
    intro fuel edits
    rw [hA]
    exact ensureNodeIsRooted_diverges _ fuel "B" edits (fun k => (island_walk_isSome k).2)
  refine ⟨by decide, by decide, hA, by decide, hw, ?_⟩
  intro fuel clock
  unfold Replica.addChildToParent
  have h1 : islandReplica.tree.lookup "A" = some "A" := by decide
  have h2 : islandReplica.tree.lookup ROOT = some ROOT := by decide
  rw [h1, h2]
  simp only [planEdits, hw]

/-! ## Ties in phase 3: the enumeration of all runs -/

theorem isEdge_iff_mem_allEdges {t : Tree} (hnd : t.ids.Nodup) (e : Edge) :
    t.isEdge e ↔ e ∈ t.allEdges := by
  unfold Tree.isEdge Tree.allEdges Tree.edgesOf
  rw [List.mem_flatMap]
  constructor
  · intro h
    cases hn : t.node e.child with
    | none => rw [hn] at h; cases h
    | some n =>
      rw [hn] at h
      obtain ⟨hmem, hid⟩ := node_mem hn
      refine ⟨n, hmem, List.mem_map.mpr ⟨(e.parent, e.counter), h, ?_⟩⟩
      cases e; simp_all
  · rintro ⟨n, hn, he⟩
    obtain ⟨kc, hkc, rfl⟩ := List.mem_map.mp he
    simp only
    rw [node_of_mem hnd hn]
    exact hkc

theorem mem_crossing (edges : List Edge) (S : List String) (e : Edge) :
    e ∈ crossing edges S ↔ e ∈ edges ∧ e.child ∈ S ∧ e.parent ∉ S := by
  unfold crossing
  rw [List.mem_filter]
  simp

theorem mem_bestCrossing (edges : List Edge) (S : List String) (e : Edge) :
    e ∈ bestCrossing edges S ↔
      e ∈ crossing edges S ∧ ∀ e' ∈ crossing edges S, prio e' ≤ prio e := by
  unfold bestCrossing
  rw [List.mem_filter, List.all_eq_true]
  constructor
  · rintro ⟨h1, h2⟩
    refine ⟨h1, fun e' he' => ?_⟩
    have := h2 e' he'
    rw [Bool.not_eq_true', ← Bool.not_eq_true, Less_iff] at this
    exact not_lt.mp this
  · rintro ⟨h1, h2⟩
    refine ⟨h1, fun e' he' => ?_⟩
    rw [Bool.not_eq_true', ← Bool.not_eq_true, Less_iff]
    exact not_lt.mpr (h2 e' he')

theorem assign_cons (e : Edge) (r : List Edge) (p0 : Option String) (x : String) :
    assign (e :: r) p0 x = assign r (if x = e.child then some e.parent else p0) x := rfl

theorem assign_of_not_child (r : List Edge) (x : String) (h : ∀ e ∈ r, e.child ≠ x) :
    ∀ p0, assign r p0 x = p0 := by
  induction r with
  | nil => intro p0; rfl
  | cons e r ih =>
    intro p0
    rw [assign_cons, if_neg (fun hx => h e (List.mem_cons_self _ _) hx.symm)]
    exact ih (fun e' he' => h e' (List.mem_cons_of_mem _ he')) p0

theorem reattachRuns_child_mem (edges : List Edge) :
    ∀ (fuel : Nat) (S : List String), ∀ r ∈ reattachRuns edges fuel S, ∀ e ∈ r, e.child ∈ S := by
  intro fuel
  induction fuel with
  | zero =>
    intro S r hr e he
    simp only [reattachRuns, List.mem_singleton] at hr
    subst hr; cases he
  | succ fuel ih =>
    intro S r hr e he
    simp only [reattachRuns] at hr
    split at hr
    · rw [List.mem_singleton] at hr
      subst hr; cases he
    · obtain ⟨b, hb, hr⟩ := List.mem_flatMap.mp hr
      obtain ⟨r', hr', rfl⟩ := List.mem_map.mp hr
      rcases List.mem_cons.mp he with rfl | he
      · exact ((mem_crossing _ _ _).mp ((mem_bestCrossing _ _ _).mp hb).1).2.1
      · exact List.mem_of_mem_erase (ih _ r' hr' e he)

/-- Every run of `Reattach` is among the enumerated runs. -/
theorem reattachRuns_complete {E : Edge → Prop} {edges : List Edge}
    (hE : ∀ e, E e ↔ e ∈ edges) {par p' : String → Option String} {S S' : String → Prop}
    (h : Reattach E par S p' S') :
    ∀ (Sl : List String) (fuel : Nat), (∀ x, S x ↔ x ∈ Sl) → Sl.Nodup → Sl.length ≤ fuel →
      ∃ r ∈ reattachRuns edges fuel Sl, ∀ x, p' x = assign r (par x) x := by
  induction h with
  | @done par S hd =>
    intro Sl fuel hS _ _
    refine ⟨[], ?_, fun x => rfl⟩
    cases fuel with
    | zero => simp [reattachRuns]
    | succ fuel =>
      have hempty : bestCrossing edges Sl = [] := by
        rw [List.eq_nil_iff_forall_not_mem]
        intro e he
        obtain ⟨h1, h2, h3⟩ := (mem_crossing _ _ _).mp ((mem_bestCrossing _ _ _).mp he).1
        exact hd e ((hE e).mpr h1) ((hS _).mpr h2) (fun h' => h3 ((hS _).mp h'))
      simp [reattachRuns, hempty]
  | @step par p' S S' e he hc hp hmax _ ih =>
    intro Sl fuel hS hnd hlen
    have hcS : e.child ∈ Sl := (hS _).mp hc
    have hcr : e ∈ crossing edges Sl :=
      (mem_crossing _ _ _).mpr ⟨(hE e).mp he, hcS, fun h' => hp ((hS _).mpr h')⟩
    have hbest : e ∈ bestCrossing edges Sl := by
      refine (mem_bestCrossing _ _ _).mpr ⟨hcr, fun e' he' => ?_⟩
      obtain ⟨h1, h2, h3⟩ := (mem_crossing _ _ _).mp he'
      exact hmax e' ((hE e').mpr h1) ((hS _).mpr h2) (fun h' => h3 ((hS _).mp h'))
    obtain ⟨f, rfl⟩ : ∃ f, fuel = f + 1 :=
      ⟨fuel - 1, by have := List.length_pos_of_mem hcS; omega⟩
    obtain ⟨r, hr, hrx⟩ := ih (Sl.erase e.child) f
      (fun x => by
        show S x ∧ x ≠ e.child ↔ _
        rw [hnd.mem_erase_iff, hS x, and_comm])
      (hnd.erase _) (by rw [List.length_erase_of_mem hcS]; omega)
    refine ⟨e :: r, ?_, fun x => ?_⟩
    · simp only [reattachRuns]
      rw [if_neg (by rw [List.isEmpty_iff]; exact List.ne_nil_of_mem hbest)]
      exact List.mem_flatMap.mpr ⟨e, hbest, List.mem_map.mpr ⟨r, hr, rfl⟩⟩
    · rw [assign_cons]; exact hrx x

/-- When the enumerated runs agree, the choice among ties does not matter. -/
theorem tieInsensitive_of_check {E : Edge → Prop} {edges : List Edge}
    (hE : ∀ e, E e ↔ e ∈ edges) (par : String → Option String) (Sl : List String)
    (hnd : Sl.Nodup) (h : tieCheck edges par Sl = true) :
    tieInsensitive E par (fun x => x ∈ Sl) := by
  intro p1 S1 p2 S2 h1 h2
  obtain ⟨r1, hr1, e1⟩ := reattachRuns_complete hE h1 Sl Sl.length (fun _ => Iff.rfl) hnd
    (Nat.le_refl _)
  obtain ⟨r2, hr2, e2⟩ := reattachRuns_complete hE h2 Sl Sl.length (fun _ => Iff.rfl) hnd
    (Nat.le_refl _)
  funext x
  rw [e1, e2]
  by_cases hx : x ∈ Sl
  · unfold tieCheck at h
    rw [List.all_eq_true] at h
    have := h r1 hr1
    rw [List.all_eq_true] at this
    have := this r2 hr2
    rw [List.all_eq_true] at this
    exact of_decide_eq_true (this x hx)
  · rw [assign_of_not_child r1 x (fun e he hc => hx (hc ▸ reattachRuns_child_mem _ _ _ r1 hr1 e he)),
      assign_of_not_child r2 x (fun e he hc => hx (hc ▸ reattachRuns_child_mem _ _ _ r2 hr2 e he))]


/-! ## Runs of the recomputation in other orders of iteration -/

/-- Phase 3 changes the parent of nodes of the set only. -/
theorem reattach_keep_out {E : Edge → Prop} {par p' : String → Option String}
    {S S' : String → Prop} (h : Reattach E par S p' S') : ∀ x, ¬ S x → p' x = par x := by
  induction h with
  | done _ => intro x _; rfl
  | step e _ hc _ _ _ ih =>
    intro x hx
    rw [ih x (fun h' => hx h'.1)]
    simp only
    rw [if_neg (fun (h' : x = e.child) => hx (by rw [h']; exact hc))]

theorem recomputeWith_parentOf (t : Tree) (nr : List String) (x : String) :
    (t.recomputeWith nr).parentOf x = (phase3 (phase1 t) nr).1.parentOf x := by
  unfold Tree.recomputeWith
  rw [phase4_parentOf]

/-- In every order of the range over `nonRootedNodes`, a node outside the set
keeps the parent of phase 1. -/
theorem recomputeWith_parentOf_of_rooted (t : Tree) (hnd : t.ids.Nodup) (nr : List String)
    (hp : nr.Perm (nonRootedNodes (phase1 t))) {x : String}
    (hx : x ∉ nonRootedNodes (phase1 t)) :
    (t.recomputeWith nr).parentOf x = (phase1 t).parentOf x := by
  have hsub : nr ⊆ (phase1 t).ids := fun y hy =>
    (nonRootedNodes_spec _ (phase1_parentsWithin t) y (hp.mem_iff.mp hy)).1
  have r := phase3_run (phase1 t) (by rw [phase1_ids]; exact hnd) nr
    (hp.nodup_iff.mpr (nonRootedNodes_nodup _)) hsub
  rw [recomputeWith_parentOf]
  exact reattach_keep_out r x (fun h' => hx (hp.mem_iff.mp h'))

/-- When the choice among ties does not matter, the recomputation gives the
same parents and the same child lists in every order of iteration of the node
map, of the edge maps and of the set of non-rooted nodes. -/
theorem recomputeWith_tieInsensitive {t t' : Tree} (h : t.sameMaps t') (hnd : t.ids.Nodup)
    (nr nr' : List String) (hp : nr.Perm (nonRootedNodes (phase1 t)))
    (hp' : nr'.Perm (nonRootedNodes (phase1 t')))
    (htie : tieInsensitive t.isEdge (phase1 t).parentOf
      (fun x => x ∈ nonRootedNodes (phase1 t))) (x : String) :
    (t.recomputeWith nr).parentOf x = (t'.recomputeWith nr').parentOf x ∧
    (t.recomputeWith nr).childrenOf x = (t'.recomputeWith nr').childrenOf x := by
  have hnd' : t'.ids.Nodup := sameMaps_nodup h hnd
  have hsub : nr ⊆ (phase1 t).ids := fun y hy =>
    (nonRootedNodes_spec _ (phase1_parentsWithin t) y (hp.mem_iff.mp hy)).1
  have hsub' : nr' ⊆ (phase1 t').ids := fun y hy =>
    (nonRootedNodes_spec _ (phase1_parentsWithin t') y (hp'.mem_iff.mp hy)).1
  have r1 := phase3_run (phase1 t) (by rw [phase1_ids]; exact hnd) nr
    (hp.nodup_iff.mpr (nonRootedNodes_nodup _)) hsub
  have r2 := phase3_run (phase1 t') (by rw [phase1_ids]; exact hnd') nr'
    (hp'.nodup_iff.mpr (nonRootedNodes_nodup _)) hsub'
  have hS : (fun x => x ∈ nr) = fun x => x ∈ nonRootedNodes (phase1 t) := by
    funext y; exact propext hp.mem_iff
  have hS' : (fun x => x ∈ nr') = fun x => x ∈ nonRootedNodes (phase1 t) := by
    funext y
    apply propext
    rw [hp'.mem_iff, sameMaps_nonRooted h]
  have hpar0 : (phase1 t').parentOf = (phase1 t).parentOf :=
    funext fun y => (sameMaps_phase1_parentOf h y).symm
  rw [hS, isEdge_phase1] at r1
  rw [← sameMaps_isEdge h, hS', hpar0, isEdge_phase1] at r2
  have hpf := htie _ _ _ _ r1 r2
  have hpx : ∀ y, (phase3 (phase1 t) nr).1.parentOf y = (phase3 (phase1 t') nr').1.parentOf y :=
    fun y => congrFun hpf y
  constructor
  · rw [recomputeWith_parentOf, recomputeWith_parentOf]
    exact hpx x
  · unfold Tree.recomputeWith
    apply phase4_childrenOf_congr _ _ _ hpx
    · rw [phase3_ids, phase1_ids]; exact hnd
    · rw [phase3_ids, phase1_ids]; exact hnd'
    · intro y
      rw [phase3_ids, phase1_ids, phase3_ids, phase1_ids]
      exact sameMaps_mem_ids h y

/-- Without ties the choice among ties does not matter. -/
theorem tieInsensitive_of_noTie {E : Edge → Prop} {par : String → Option String}
    {S : String → Prop} (h : noTie E S) : tieInsensitive E par S :=
  fun _ _ _ _ h1 h2 => (reattach_deterministic h1 h h2).1

/-- The check of a tree: the enumerated runs of phase 3 agree. -/
theorem tieInsensitive_of_tieCheck (t : Tree) (hnd : t.ids.Nodup)
    (h : tieCheck t.allEdges (phase1 t).parentOf (nonRootedNodes (phase1 t)) = true) :
    tieInsensitive t.isEdge (phase1 t).parentOf (fun x => x ∈ nonRootedNodes (phase1 t)) :=
  tieInsensitive_of_check (isEdge_iff_mem_allEdges hnd) _ _ (nonRootedNodes_nodup _) h


/-! ## The observer applied twice -/

theorem observe_ids (t : Tree) (op : Op) :
    (t.observe op).ids = ((t.ensure op.ID).ensure op.Key).ids :=
  updateEdge_ids _ op

theorem afterApply_eq_observe (t : Tree) (op : Op) :
    t.afterApply op = (t.observe op).recomputeParentsAndChildren := rfl

theorem recomputeWith_skel (t : Tree) (nr : List String) : (t.recomputeWith nr).skel = t.skel := by
  unfold Tree.recomputeWith
  rw [phase4_skel, phase3_skel, phase1_skel]

theorem recomputeWith_congr {t1 t2 : Tree} (h : t1.skel = t2.skel) (nr : List String) :
    t1.recomputeWith nr = t2.recomputeWith nr := by
  unfold Tree.recomputeWith
  rw [phase1_congr h]

/-- The node and edge update of the observer, repeated for the same op on a
tree with the node index and the edge maps that the first update left, changes
neither. -/
theorem observe_skel_idem (t u : Tree) (op : Op) (hu : u.skel = (t.observe op).skel) :
    (u.observe op).skel = (t.observe op).skel := by
  have hids : u.ids = (t.observe op).ids := ids_congr hu
  have hid : op.ID ∈ u.ids := by
    rw [hids, observe_ids, mem_ensure_ids, mem_ensure_ids]; exact Or.inl (Or.inr rfl)
  have hkey : op.Key ∈ u.ids := by
    rw [hids, observe_ids, mem_ensure_ids]; exact Or.inr rfl
  unfold Tree.observe
  rw [ensure_of_mem u _ hid, ensure_of_mem u _ hkey, updateEdge_skel, hu]
  unfold Tree.observe
  rw [updateEdge_skel, List.map_map]
  apply List.map_congr_left
  intro p _
  simp only [Function.comp]
  by_cases h : p.1 = op.ID
  · simp [h, updEdges_idem]
  · simp [h]

theorem sameMaps_of_skel {t1 t2 : Tree} (h : t1.skel = t2.skel) : t1.sameMaps t2 :=
  ⟨by rw [ids_congr h], fun x => by rw [edgesOf_congr h]⟩

theorem sameMaps_trans {t1 t2 t3 : Tree} (h1 : t1.sameMaps t2) (h2 : t2.sameMaps t3) :
    t1.sameMaps t3 :=
  ⟨h1.1.trans h2.1, fun x => (h1.2 x).trans (h2.2 x)⟩

theorem sameMaps_symm {t1 t2 : Tree} (h : t1.sameMaps t2) : t2.sameMaps t1 :=
  ⟨h.1.symm, fun x => (h.2 x).symm⟩

theorem observe_ids_nodup (t : Tree) (op : Op) (h : t.ids.Nodup) : (t.observe op).ids.Nodup := by
  rw [observe_ids]
  exact ensure_ids_nodup _ _ (ensure_ids_nodup _ _ h)


/-! ## The planner, given that its walks end -/

/-- A walk of `ensureNodeIsRooted` that ends: it appends edits that repeat the
derived parent, and it plans an edit for every node on the way whose candidate
parent is not its parent. -/
theorem ensureNodeIsRooted_of_some (t : Tree) :
    ∀ (fuel : Nat) (start : Option String) (edits res : List Edit),
      ensureNodeIsRooted t fuel start edits = some res →
      ∃ new, res = edits ++ new ∧
        (∀ e ∈ new, t.parentOf e.child = some e.parent) ∧
        (∀ s0, start = some s0 → ∀ j x y, walk t.parentOf j s0 = some x →
          t.parentOf x = some y → t.cand x = y ∨ Edit.mk x y ∈ new) := by
  intro fuel
  induction fuel with
  | zero => intro start edits res h; simp [ensureNodeIsRooted] at h
  | succ fuel ih =>
    intro start edits res h
    cases start with
    | none =>
      simp only [ensureNodeIsRooted, Option.some.injEq] at h
      exact ⟨[], (by simp [h]), (fun e he => by cases he), (fun s0 hs0 => by cases hs0)⟩
    | some child =>
      cases hp : t.parentOf child with
      | none =>
        simp only [ensureNodeIsRooted, hp, Option.some.injEq] at h
        refine ⟨[], (by simp [h]), (fun e he => by cases he), ?_⟩
        intro s0 hs0 j x y hx hy
        cases hs0
        cases j with
        | zero =>
          simp only [walk, Option.some.injEq] at hx
          subst hx
          rw [hp] at hy; cases hy
        | succ j => simp [walk, hp] at hx
      | some p =>
        simp only [ensureNodeIsRooted, hp] at h
        obtain ⟨new, h1, h2, h3⟩ := ih (some p) _ res h
        by_cases hc : edgeWithLargestCounter (t.edgesOf child) = p
        · simp only [hc, ne_eq, not_true_eq_false, if_false] at h1
          refine ⟨new, h1, h2, ?_⟩
          intro s0 hs0 j x y hx hy
          cases hs0
          cases j with
          | zero =>
            simp only [walk, Option.some.injEq] at hx
            subst hx
            rw [hp] at hy
            cases hy
            exact Or.inl hc
          | succ j =>
            simp only [walk, hp] at hx
            exact h3 p rfl j x y hx hy
        · simp only [hc, ne_eq, not_false_eq_true, if_true] at h1
          refine ⟨Edit.mk child p :: new, (by simpa using h1), ?_, ?_⟩
          · intro e he
            rcases List.mem_cons.mp he with rfl | he
            · exact hp
            · exact h2 e he
          · intro s0 hs0 j x y hx hy
            cases hs0
            cases j with
            | zero =>
              simp only [walk, Option.some.injEq] at hx
              subst hx
              rw [hp] at hy
              cases hy
              exact Or.inr (List.mem_cons_self _ _)
            | succ j =>
              simp only [walk, hp] at hx
              rcases h3 p rfl j x y hx hy with h' | h'
              · exact Or.inl h'
              · exact Or.inr (List.mem_cons_of_mem _ h')

/-- The edits that `addChildToParent` plans: all but the last repeat the
derived parent of their child, and every node on the walk from the target
whose candidate parent is not its parent has one. -/
theorem planEdits_spec {t : Tree} {fuel : Nat} {C P : String} {edits : List Edit}
    (h : planEdits t fuel C P = some edits) :
    ∃ es, edits = es ++ [Edit.mk C P] ∧
      (∀ e ∈ es, t.parentOf e.child = some e.parent) ∧
      (∀ j x y, walk t.parentOf j P = some x → t.parentOf x = some y →
        t.cand x = y ∨ Edit.mk x y ∈ es) := by
  unfold planEdits at h
  split at h
  · cases h
  · next edits1 h1 =>
    split at h
    · cases h
    · next edits2 h2 =>
      obtain ⟨new1, e1, a1, _⟩ := ensureNodeIsRooted_of_some t fuel _ [] edits1 h1
      obtain ⟨new2, e2, a2, c2⟩ := ensureNodeIsRooted_of_some t fuel _ edits1 edits2 h2
      refine ⟨edits2, (Option.some.inj h).symm, ?_, ?_⟩
      · intro e he
        rw [e2, e1] at he
        rcases List.mem_append.mp he with he | he
        · exact a1 e (by simpa using he)
        · exact a2 e he
      · intro j x y hx hy
        rcases c2 P rfl j x y hx hy with h' | h'
        · exact Or.inl h'
        · exact Or.inr (by rw [e2]; exact List.mem_append_right _ h')

/-- The planner on a target that reaches the root: when the walks end, the
child is under the target after the edits. -/
theorem planned_edits_attach (s : Replica) (hs : reachable s) (C P : String)
    (hC : C ∈ s.tree.ids) (hP : P ∈ s.tree.ids)
    (hPr : reaches s.tree.parentOf P ROOT)
    (hCP : ¬ reaches s.tree.parentOf P C)
    (fuel : Nat) (clock : Nat → Int) (edits : List Edit)
    (hplan : planEdits s.tree fuel C P = some edits)
    (hb : s.tree.countersBelow edits.length) :
    (s.applyEdits clock 0 edits).tree.parentOf C = some P := by
  have hpw := reachable_parentsWithin hs
  obtain ⟨es, rfl, hallE, hcov⟩ := planEdits_spec hplan
  obtain ⟨K, _, hw⟩ := reaches_bounded _ hpw hP hPr
  have hlen : ((es ++ [Edit.mk C P]).length : Int) = (es.length : Int) + 1 := by
    rw [List.length_append]; simp
  rw [hlen] at hb
  rw [applyEdits_append]
  generalize hs1 : s.applyEdits clock 0 es = s1
  generalize clock (0 + es.length) = now
  have hbE : s.tree.countersBelow (es.length : Int) :=
    ⟨by have := hb.1; omega, fun x k c h => by have := hb.2 x k c h; omega⟩
  have hb1 : s1.tree.countersBelow 1 := by
    rw [← hs1]
    apply applyEdits_countersBelow clock _ s 0 1 (by omega)
    exact ⟨by have := hb.1; omega, fun x k c h => by have := hb.2 x k c h; omega⟩
  have hr1 : reachable s1 := hs1 ▸ applyEdits_reachable clock _ s 0 hs
  have hsub1 : s.tree.ids ⊆ s1.tree.ids := hs1 ▸ applyEdits_ids_subset clock _ s 0
  have hcand1 : ∀ j x y, walk s.tree.parentOf j P = some x →
      s.tree.parentOf x = some y → s1.tree.cand x = y := by
    intro j x y hx hy
    rw [← hs1]
    apply applyEdits_cand clock x y _ s 0 hbE
    · intro e he hec
      have := hallE e he
      rw [hec, hy] at this
      exact (Option.some.inj this).symm
    · rcases hcov j x y hx hy with h | h
      · exact Or.inl h
      · exact Or.inr ⟨_, h, rfl⟩
  generalize hs2 : s1.applyEdit (Edit.mk C P) now = s2
  have hr2 : reachable s2 := hs2 ▸ applyEdit_reachable hr1 _ _
  have hsub2 : s.tree.ids ⊆ s2.tree.ids :=
    List.Subset.trans hsub1 (hs2 ▸ applyEdit_ids_subset s1 _ _)
  have hcand2 : ∀ x, s2.tree.cand x = if x = C then P else s1.tree.cand x := by
    intro x; rw [← hs2]; exact applyEdit_cand s1 _ now hb1 x
  have hpar2 : ∀ x, x ∈ s.tree.ids → s2.tree.cand x ∈ s.tree.ids →
      (phase1 s2.tree).parentOf x = some (s2.tree.cand x) := by
    intro x hx hc
    rw [phase1_parentOf, if_pos (hsub2 hx)]
    exact (s2.tree.lookup_eq_some _ _).mpr ⟨rfl, hsub2 hc⟩
  have hwalk2 : walk (phase1 s2.tree).parentOf K P = some ROOT := by
    rw [walk_congr K P, hw]
    intro j x hj hx
    obtain ⟨y, hy⟩ := walk_isSome_of_le _ hw (show j + 1 ≤ K by omega)
    have hxy : s.tree.parentOf x = some y := by
      have := walk_succ s.tree.parentOf j P
      rw [hx, hy] at this
      exact this.symm
    have hxC : x ≠ C := fun h => hCP ⟨j, h ▸ hx⟩
    have hxid : x ∈ s.tree.ids := walk_mem_ids _ hpw hP j x hx
    have hyid : y ∈ s.tree.ids := hpw x y hxy
    have hc : s2.tree.cand x = y := by
      rw [hcand2, if_neg hxC]; exact hcand1 j x y hx hxy
    rw [hxy, hpar2 x hxid (hc ▸ hyid), hc]
  have hCpar : (phase1 s2.tree).parentOf C = some P := by
    have hc : s2.tree.cand C = P := by rw [hcand2, if_pos rfl]
    rw [hpar2 C hC (hc ▸ hP), hc]
  have hreach : reaches (phase1 s2.tree).parentOf C ROOT :=
    reaches_of_parent _ hCpar ⟨K, hwalk2⟩
  have hnot : C ∉ nonRootedNodes (phase1 s2.tree) :=
    fun h => (nonRootedNodes_spec _ (phase1_parentsWithin s2.tree) C h).2 hreach
  rw [← reachable_recompute hr2,
    recompute_parentOf_of_rooted s2.tree (reachable_edgesClosed hr2) hnot]
  exact hCpar

/-- After the planned edits the parent of the child in phase 1 of the last
recomputation is the target. -/
theorem planned_edits_phase1_parent (s : Replica) (C P : String)
    (hP : P ∈ s.tree.ids) (hC : C ∈ s.tree.ids)
    (fuel : Nat) (clock : Nat → Int) (edits : List Edit)
    (hplan : planEdits s.tree fuel C P = some edits)
    (hb : s.tree.countersBelow edits.length) :
    (phase1 (s.applyEdits clock 0 edits).tree).parentOf C = some P := by
  obtain ⟨es, rfl⟩ := planEdits_last hplan
  have hlen : ((es ++ [Edit.mk C P]).length : Int) = (es.length : Int) + 1 := by
    rw [List.length_append]; simp
  rw [hlen] at hb
  have hsub : s.tree.ids ⊆ (s.applyEdits clock 0 (es ++ [Edit.mk C P])).tree.ids :=
    applyEdits_ids_subset clock _ s 0
  have hb1 : (s.applyEdits clock 0 es).tree.countersBelow 1 := by
    apply applyEdits_countersBelow clock _ s 0 1 (by omega)
    exact ⟨by have := hb.1; omega, fun x k c h => by have := hb.2 x k c h; omega⟩
  have hcand : (s.applyEdits clock 0 (es ++ [Edit.mk C P])).tree.cand C = P := by
    rw [applyEdits_append, applyEdit_cand _ _ _ hb1, if_pos rfl]
  rw [phase1_parentOf, if_pos (hsub hC)]
  unfold Tree.cand at hcand
  rw [hcand]
  exact (Tree.lookup_eq_some _ _ _).mpr ⟨rfl, hsub hP⟩

/-! ## Claims about the planner's result, repeated application and the order
of iteration -/

/-- Claim C5, amended.  In a reachable state let `C` and `P` be nodes, let
`addChildToParent(C, P)` plan the list `edits`, that is, let its walks end,
and let every counter be at least `len(edits)` below the largest `int`.  Then
the call returns, and afterwards the derived parent of `C` is `P` unless `C`
is non-rooted after phase 1 of the last recomputation and phase 3 reattaches
it, in which case its parent is the key of one of its edges.  In particular
the derived parent of `C` is `P` when, before the call, `P` reaches the root
along the derived parents and `C` is not on that walk (it is neither `P` nor
an ancestor of `P`). -/
theorem planner_attaches_unless_reattached (s : Replica) (hs : reachable s) (C P : String)
    (hC : C ∈ s.tree.ids) (hP : P ∈ s.tree.ids)
    (fuel : Nat) (clock : Nat → Int) (edits : List Edit)
    (hplan : planEdits s.tree fuel C P = some edits)
    (hb : s.tree.countersBelow edits.length) :
    ∃ s', s.addChildToParent fuel clock C P = some s' ∧
      (s'.tree.parentOf C = some P ∨
        (C ∈ nonRootedNodes (phase1 s'.tree) ∧ C ∉ s'.tree.island ∧
          ∃ p c, s'.tree.parentOf C = some p ∧ (p, c) ∈ s'.tree.edgesOf C)) ∧
      (reaches s.tree.parentOf P ROOT → ¬ reaches s.tree.parentOf P C →
        s'.tree.parentOf C = some P) := by
  refine ⟨_, addChildToParent_of_plan s fuel clock C P hC hP hplan, ?_,
    fun hPr hCP => planned_edits_attach s hs C P hC hP hPr hCP fuel clock edits hplan hb⟩
  have hr : reachable (s.applyEdits clock 0 edits) := applyEdits_reachable clock _ s 0 hs
  have hclosed := reachable_edgesClosed hr
  have hfix := reachable_recompute hr
  have hp1 := planned_edits_phase1_parent s C P hP hC fuel clock edits hplan hb
  by_cases hnr : C ∈ nonRootedNodes (phase1 (s.applyEdits clock 0 edits).tree)
  · by_cases hi : C ∈ (s.applyEdits clock 0 edits).tree.island
    · left
      rw [← hfix, recompute_parentOf_of_island _ hclosed hi]
      exact hp1
    · right
      refine ⟨hnr, hi, ?_⟩
      have := recompute_parentOf_of_reattached _ hclosed hnr hi
      rwa [hfix] at this
  · left
    rw [← hfix, recompute_parentOf_of_rooted _ hclosed hnr]
    exact hp1

/-- Witness for the amended claim C5.  After the ops `(C, X, 0)` and
`(P, ROOT, 0)` the node `C` has the parent `X` and does not reach the root;
`P` reaches the root and `C` is not on that walk.  `addChildToParent(C, P)`
returns and puts `C` under `P`. -/
theorem planner_attaches_unless_reattached_witness :
    strayReplica.tree.parentOf "C" = some "X" ∧
    ¬ reaches strayReplica.tree.parentOf "C" ROOT ∧
    ∃ s', strayReplica.addChildToParent 3 (fun _ => 100) "C" "P" = some s' ∧
      s'.tree.parentOf "C" = some "P" := by
  have hno : ∀ x : String, walk strayReplica.tree.parentOf 2 x = none →
      ∀ y, (∀ k, k < 2 → walk strayReplica.tree.parentOf k x ≠ some y) →
      ¬ reaches strayReplica.tree.parentOf x y := by
    rintro x h2 y hlt ⟨k, hk⟩
    rcases Nat.lt_or_ge k 2 with h | h
    · exact hlt k h hk
    · obtain ⟨d, rfl⟩ := Nat.exists_eq_add_of_le h
      rw [walk_add, h2] at hk
      cases hk
  obtain ⟨s', h1, _, h3⟩ := planner_attaches_unless_reattached strayReplica ⟨"p", _, rfl⟩
    "C" "P" (by decide) (by decide) 3 (fun _ => 100) [Edit.mk "C" "P"] (by decide)
    (countersBelow_of_nodes _ _ (by decide) (by decide))
  refine ⟨by decide, hno "C" (by decide) ROOT ?_, s', h1, h3 ⟨1, by decide⟩
    (hno "P" (by decide) "C" ?_)⟩
  · intro k hk; interval_cases k <;> decide
  · intro k hk; interval_cases k <;> decide

/-- Counterexample to claim C6.  `tieReplica` is the state after the op
`(c2, c2, 200)` has been applied once; in it `c2` is under `c1`.  The second
application of the op leaves the row of the store as it is, and its
recomputation finds `c1` and `c2` non-rooted with the ready edges
`(c1, ROOT, 0)` and `(c2, ROOT, 0)`, which tie.  When it ranges over
`nonRootedNodes` in the order `c2`, `c1`, the node `c2` ends under the root and
the children of the root are `[c1, c2]` instead of `[c1]`. -/
theorem second_apply_depends_on_order :
    tieReplica = ((newReplica "p").applyAll
      [Op.mk "c1" ROOT 0 "p" 1, Op.mk "c1" "c1" 5 "p" 2, Op.mk "c2" ROOT 0 "p" 3,
        Op.mk "c2" "c1" 100 "p" 4]).apply (Op.mk "c2" "c2" 200 "p" 5) ∧
    (tieReplica.db.apply (Op.mk "c2" "c2" 200 "p" 5)).rows (IdKey.mk "c2" "c2") =
      tieReplica.db.rows (IdKey.mk "c2" "c2") ∧
    nonRootedNodes (phase1 (tieReplica.tree.observe (Op.mk "c2" "c2" 200 "p" 5))) =
      ["c1", "c2"] ∧
    tieReplica.tree.parentOf "c2" = some "c1" ∧
    (tieReplica.tree.afterApplyWith (Op.mk "c2" "c2" 200 "p" 5) ["c1", "c2"]).parentOf "c2" =
      some "c1" ∧
    (tieReplica.tree.afterApplyWith (Op.mk "c2" "c2" 200 "p" 5) ["c2", "c1"]).parentOf "c2" =
      some ROOT ∧
    tieReplica.tree.childrenOf ROOT = ["c1"] ∧
    (tieReplica.tree.afterApplyWith (Op.mk "c2" "c2" 200 "p" 5) ["c2", "c1"]).childrenOf ROOT =
      ["c1", "c2"] := by
  refine ⟨rfl, ?_, ?_, ?_, ?_, ?_, ?_, ?_⟩ <;> decide

/-- Claim C6, amended.  Let the tree have one entry per id and an entry for
every edge key, and let an op be applied twice in a row, the recomputation of
the first application ranging over `nonRootedNodes` in any order `nr1`.  The
second application leaves the store as it is after the first, and its node and
edge update leaves the node index and the edge maps as they are.  When its
recomputation ranges in the orders of the first, the tree is the same.  When
it ranges over the node map and the edge maps in any order (the tree `u`) and
over `nonRootedNodes` in any order `nr2`: every node outside `nonRootedNodes`
has the same parent as after the first application; and when the result of
phase 3 does not depend on the choice among ready edges that tie on counter
and parent id, every node has the same parent and the same children. -/
theorem apply_twice (s : Replica) (op : Op) (hnd : s.tree.ids.Nodup)
    (hc : s.tree.edgesClosed) (nr1 : List String)
    (h1 : nr1.Perm (nonRootedNodes (phase1 (s.tree.observe op)))) :
    (s.db.apply op).apply op = s.db.apply op ∧
    ((s.tree.afterApplyWith op nr1).observe op).skel = (s.tree.observe op).skel ∧
    (s.tree.afterApplyWith op nr1).afterApplyWith op nr1 = s.tree.afterApplyWith op nr1 ∧
    (∀ (u : Tree) (nr2 : List String),
      ((s.tree.afterApplyWith op nr1).observe op).sameMaps u →
      nr2.Perm (nonRootedNodes (phase1 u)) →
      (∀ x, x ∉ nonRootedNodes (phase1 (s.tree.observe op)) →
        (u.recomputeWith nr2).parentOf x = (s.tree.afterApplyWith op nr1).parentOf x) ∧
      (tieInsensitive (s.tree.observe op).isEdge (phase1 (s.tree.observe op)).parentOf
          (fun x => x ∈ nonRootedNodes (phase1 (s.tree.observe op))) →
        ∀ x, (u.recomputeWith nr2).parentOf x = (s.tree.afterApplyWith op nr1).parentOf x ∧
          (u.recomputeWith nr2).childrenOf x =
            (s.tree.afterApplyWith op nr1).childrenOf x)) := by
  have hsk : ((s.tree.afterApplyWith op nr1).observe op).skel = (s.tree.observe op).skel :=
    observe_skel_idem _ _ op (recomputeWith_skel _ _)
  have hnd1 : (s.tree.observe op).ids.Nodup := observe_ids_nodup _ op hnd
  have _hc1 : (s.tree.observe op).edgesClosed := observed_edgesClosed _ op hc
  refine ⟨apply_idem_db s.db op, hsk, ?_, ?_⟩
  · show ((s.tree.afterApplyWith op nr1).observe op).recomputeWith nr1 = _
    exact recomputeWith_congr hsk nr1
  · intro u nr2 hu h2
    have hsm : (s.tree.observe op).sameMaps u :=
      sameMaps_trans (sameMaps_symm (sameMaps_of_skel hsk)) hu
    constructor
    · intro x hx
      show _ = ((s.tree.observe op).recomputeWith nr1).parentOf x
      rw [recomputeWith_parentOf_of_rooted _ hnd1 nr1 h1 hx,
        recomputeWith_parentOf_of_rooted u (sameMaps_nodup hsm hnd1) nr2 h2
          (fun h' => hx ((sameMaps_nonRooted hsm x).mpr h')),
        sameMaps_phase1_parentOf hsm]
    · intro htie x
      have := recomputeWith_tieInsensitive hsm hnd1 nr1 nr2 h1 h2 htie x
      exact ⟨this.1.symm, this.2.symm⟩

/-- Witness for the amended claim C6.  The op `(x2, B, 0)` is applied twice to
the state in which `A` and `B` prefer each other and `x1` hangs under `B`; the
edges of `x1` and `x2` to `B` tie, and the choice between them does not
matter.  The first application ranges over `nonRootedNodes` in the order
`x2, x1, B, A`, the second over the reversed node map and in the order
`A, x1, B, x2`: every node has the same parent and the same children. -/
theorem apply_twice_witness :
    nonRootedNodes (phase1 (siblingBase.tree.observe siblingOp)) = ["A", "B", "x1", "x2"] ∧
    ∀ x,
      ((Tree.mk ((siblingBase.tree.afterApplyWith siblingOp
          ["x2", "x1", "B", "A"]).observe siblingOp).nodes.reverse).recomputeWith
          ["A", "x1", "B", "x2"]).parentOf x =
        (siblingBase.tree.afterApplyWith siblingOp ["x2", "x1", "B", "A"]).parentOf x ∧
      ((Tree.mk ((siblingBase.tree.afterApplyWith siblingOp
          ["x2", "x1", "B", "A"]).observe siblingOp).nodes.reverse).recomputeWith
          ["A", "x1", "B", "x2"]).childrenOf x =
        (siblingBase.tree.afterApplyWith siblingOp ["x2", "x1", "B", "A"]).childrenOf x :=
  ⟨by decide,
    ((apply_twice siblingBase siblingOp (reachable_ids_nodup ⟨"p", _, rfl⟩)
      (reachable_edgesClosed ⟨"p", _, rfl⟩) ["x2", "x1", "B", "A"] (by decide)).2.2.2
      (Tree.mk ((siblingBase.tree.afterApplyWith siblingOp
        ["x2", "x1", "B", "A"]).observe siblingOp).nodes.reverse)
      ["A", "x1", "B", "x2"]
      (sameMaps_of_nodes_perm (by decide) (List.reverse_perm _).symm) (by decide)).2
      (tieInsensitive_of_tieCheck _
        (observe_ids_nodup _ _ (reachable_ids_nodup ⟨"p", _, rfl⟩)) (by decide))⟩

/-- Claim C7, amended.  For two representations of the same node index and
edge maps in any orders of iteration, and any orders `nr` and `nr'` of the
range over `nonRootedNodes` in phase 3: phase 2 classifies the same nodes as
non-rooted; every node that is not in `nonRootedNodes` gets the same derived
parent; and when the result of phase 3 does not depend on the choice among
ready edges that tie on counter and parent id, every node gets the same parent
and the same children list.  The choice does not matter, in particular, when
no two different non-rooted nodes have an edge with the same parent id and the
same counter. -/
theorem order_independent (t t' : Tree) (h : t.sameMaps t') (hnd : t.ids.Nodup)
    (hc : t.edgesClosed) :
    (∀ x, x ∈ nonRootedNodes (phase1 t) ↔ x ∈ nonRootedNodes (phase1 t')) ∧
    (∀ nr nr', nr.Perm (nonRootedNodes (phase1 t)) → nr'.Perm (nonRootedNodes (phase1 t')) →
      ∀ x, x ∉ nonRootedNodes (phase1 t) →
        (t.recomputeWith nr).parentOf x = (t'.recomputeWith nr').parentOf x) ∧
    (tieInsensitive t.isEdge (phase1 t).parentOf (fun x => x ∈ nonRootedNodes (phase1 t)) →
      ∀ nr nr', nr.Perm (nonRootedNodes (phase1 t)) → nr'.Perm (nonRootedNodes (phase1 t')) →
      ∀ x, (t.recomputeWith nr).parentOf x = (t'.recomputeWith nr').parentOf x ∧
        (t.recomputeWith nr).childrenOf x = (t'.recomputeWith nr').childrenOf x) ∧
    (noTie t.isEdge (fun x => x ∈ nonRootedNodes (phase1 t)) →
      tieInsensitive t.isEdge (phase1 t).parentOf (fun x => x ∈ nonRootedNodes (phase1 t))) := by
  have _hc' := sameMaps_edgesClosed h hc
  refine ⟨sameMaps_nonRooted h, ?_, ?_, tieInsensitive_of_noTie⟩
  · intro nr nr' hp hp' x hx
    rw [recomputeWith_parentOf_of_rooted t hnd nr hp hx,
      recomputeWith_parentOf_of_rooted t' (sameMaps_nodup h hnd) nr' hp'
        (fun h' => hx ((sameMaps_nonRooted h x).mpr h')),
      sameMaps_phase1_parentOf h]
  · intro htie nr nr' hp hp' x
    exact recomputeWith_tieInsensitive h hnd nr nr' hp hp' htie x

/-- Witness for the amended claim C7.  In the tree of the ops `(A, ROOT, 0)`,
`(B, A, 0)`, `(A, B, 5)`, `(x1, B, 0)`, `(x2, B, 0)` the nodes `A`, `B`, `x1`
and `x2` are non-rooted and the edges `(x1, B, 0)` and `(x2, B, 0)` tie:
neither is before the other in the heap order.  The choice between them does
not matter, and the recomputation in the order `x2, x1, B, A` gives every node
the same parent and children as the recomputation over the reversed node map
in the order `A, x1, B, x2`. -/
theorem order_independent_witness :
    nonRootedNodes (phase1 siblingReplica.tree) = ["A", "B", "x1", "x2"] ∧
    Less (Edge.mk "x1" "B" 0) (Edge.mk "x2" "B" 0) = false ∧
    Less (Edge.mk "x2" "B" 0) (Edge.mk "x1" "B" 0) = false ∧
    ∀ x,
      (siblingReplica.tree.recomputeWith ["x2", "x1", "B", "A"]).parentOf x =
        ((Tree.mk siblingReplica.tree.nodes.reverse).recomputeWith
          ["A", "x1", "B", "x2"]).parentOf x ∧
      (siblingReplica.tree.recomputeWith ["x2", "x1", "B", "A"]).childrenOf x =
        ((Tree.mk siblingReplica.tree.nodes.reverse).recomputeWith
          ["A", "x1", "B", "x2"]).childrenOf x :=
  ⟨by decide, by decide, by decide,
    (order_independent siblingReplica.tree (Tree.mk siblingReplica.tree.nodes.reverse)
      (sameMaps_of_nodes_perm (by decide) (List.reverse_perm _).symm) (by decide)
      (reachable_edgesClosed ⟨"p", _, rfl⟩)).2.2.1
      (tieInsensitive_of_tieCheck _ (by decide) (by decide))
      ["x2", "x1", "B", "A"] ["A", "x1", "B", "x2"] (by decide) (by decide)⟩

end CrdtTree
